import Mathlib

/-!
# Keys and key sets of the registry core (`src/key.c`)

A shallow embedding of the key entity, the key set (a singly linked list of
keys with `start`, `end`, `cursor` and `size`) and the reconciliation
`ksCompare`, followed by theorems about them.

Conventions of the embedding.

* A C string is the list of its characters before the terminator; reading
  index `strlen s` yields the terminator.
* Raw buffers are lists of characters; `cstrOf` reads a buffer back as a
  C string (up to the first terminator).
* `malloc` and `realloc` are taken to succeed.
* Keys live in a heap, a map from addresses to `Key` records; the `next`
  field of a record is the address of the following key.
* Loops that follow pointers take a fuel argument; `none` is returned when
  the fuel runs out or a null or dangling pointer is dereferenced.
-/

namespace Elektra

/-! ## Machine words -/

/-- Number of values of `size_t`. -/
def SIZE_MOD : Nat := 2 ^ 64

/-- Subtraction on `size_t`, wrapping around below zero. The values of
`size_t` met here are lengths of strings and numbers of keys held in memory;
their sums stay in range and are written with the addition of `Nat`. -/
def szSub (a b : Nat) : Nat := if b ≤ a then a - b else a + SIZE_MOD - b

/-- Bitwise complement on a 32 bit `mode_t`. -/
def modeNot (m : Nat) : Nat := 2 ^ 32 - 1 - m % 2 ^ 32

/-! ## C strings and buffers -/

/-- A C string, given by its characters before the terminator. -/
abbrev CStr := List Char

/-- The terminator. -/
def NUL : Char := Char.ofNat 0

/-- Modelled from the spec: the path delimiter `RG_KEY_DELIM`, a constant
declared in `registry.h`, which is not among the sources; the name grammar of
the spec separates path components by a slash. -/
def RG_KEY_DELIM : Char := '/'

/-- Expression `s[i]` for a C string: the terminator is read at index `strlen s`. -/
def charAt (s : CStr) (i : Nat) : Char := s.getD i NUL

/-- Function `strlen`. -/
def strlen (s : CStr) : Nat := s.length

/-- Function `strblen`: bytes used by the string, the terminator included. `index(s,0)`
always finds the terminator, so the result is never 0. -/
def strblen (s : CStr) : Nat := s.length + 1

/-- Test `strncmp(a, b, n) == 0` for C strings. -/
def strncmpEq (a b : CStr) (n : Nat) : Bool := decide (a.take n = b.take n)

/-- Call `strchr(s, c)` as the offset of the first occurrence, if any. -/
def strchr (s : CStr) (c : Char) : Option Nat :=
  if c ∈ s then some (s.indexOf c) else none

/-- A buffer of `n` bytes whose content is indeterminate; the filler is a
character different from the terminator. -/
def rawBuf (n : Nat) : List Char := List.replicate n '?'

/-- The buffer returned by `realloc(old, n)`: the old bytes (string and
terminator) are kept as far as they fit, the rest is indeterminate. -/
def realloc (old : Option CStr) (n : Nat) : List Char :=
  match old with
  | none => rawBuf n
  | some s => ((s ++ [NUL]) ++ rawBuf n).take n

/-- Store the bytes `src` into `buf` from offset `off` on; bytes that would
fall outside the buffer are not stored. -/
def writeAt (buf : List Char) (off : Nat) (src : List Char) : List Char :=
  (buf.take off ++ src ++ buf.drop (off + src.length)).take buf.length

/-- Call `strcpy(buf + off, s)`: the characters of `s` and the terminator. -/
def strcpy (buf : List Char) (off : Nat) (s : CStr) : List Char :=
  writeAt buf off (s ++ [NUL])

/-- Call `strncpy(buf + off, s, n)`: at most `n` characters of `s`, padded with
terminators up to `n` bytes when `s` is shorter. -/
def strncpy (buf : List Char) (off : Nat) (s : CStr) (n : Nat) : List Char :=
  writeAt buf off (s.take n ++ List.replicate (n - s.length) NUL)

/-- Read a buffer as a C string: the characters before the first terminator. -/
def cstrOf (buf : List Char) : CStr := buf.takeWhile (fun c => c != NUL)

/-! ## Keys -/

/-- Addresses of heap objects. -/
abbrev Addr := Nat

/-- Modelled from the spec: the bitset `flags` of a key and the result of
`keyCompare`, one field per `RG_KEY_FLAG_*` bit. The constants are declared in
`registry.h`, which is not among the sources. The spec gives `flags` as a
bitset of named members; `initialized` stands for
`(flags & RG_KEY_FLAG_INITMASK) == RG_KEY_FLAG_INITIALIZED`. -/
structure KeyFlags where
  initialized : Bool := false
  active : Bool := false
  needSync : Bool := false
  hasType : Bool := false
  hasKey : Bool := false
  hasData : Bool := false
  hasDomain : Bool := false
  hasComment : Bool := false
  hasUid : Bool := false
  hasGid : Bool := false
  hasPrm : Bool := false
  hasTime : Bool := false
  flag : Bool := false
  deriving DecidableEq, Repr

/-- The bitset with no bit set. -/
def KeyFlags.zero : KeyFlags := {}

/-- Modelled from the spec: the error codes `RG_KEY_RET_*` stored in `errno`,
declared in `registry.h`, which is not among the sources; one constructor
per constant used in `key.c`. -/
inductive KeyErr where
  | NULLKEY | UNINITIALIZED | NOKEY | NODATA | NODESC | NODOMAIN
  | NOCRED | NOTIME | TRUNC | TYPEMISMATCH | INVALIDKEY
  deriving DecidableEq, Repr

/-- Modelled from the spec: the constant `RG_KEY_TYPE_UNDEFINED`, declared in
`registry.h`, which is not among the sources; the type a key has right after
`keyInit`. -/
def RG_KEY_TYPE_UNDEFINED : Nat := 0

/-- Modelled from the spec: the `Key` record, a struct declared in
`registry.h`, which is not among the sources; the fields are those `key.c`
accesses. Pointer fields are `Option`s, `none` being the null pointer. -/
structure Key where
  type : Nat := 0
  uid : Nat := 0
  gid : Nat := 0
  access : Nat := 0
  atime : Nat := 0
  mtime : Nat := 0
  ctime : Nat := 0
  commentSize : Nat := 0
  dataSize : Nat := 0
  recordSize : Nat := 0
  flags : KeyFlags := {}
  key : Option CStr := none
  comment : Option CStr := none
  userDomain : Option CStr := none
  data : Option (List Nat) := none
  next : Option Addr := none
  deriving DecidableEq, Repr

/-- What the calling process contributes: `getuid()`, `getgid()`, the umask
and the value of `USER`. -/
structure Env where
  uid : Nat
  gid : Nat
  umask : Nat
  user : CStr
  deriving DecidableEq, Repr

/-- The record after `memset(key,0,sizeof(Key))`. -/
def Key.zeroed : Key := {}

/-- Function `keyInit` on a non-null key. -/
def keyInit (env : Env) (_key : Key) : Key :=
  { Key.zeroed with
    type := RG_KEY_TYPE_UNDEFINED
    uid := env.uid
    gid := env.gid
    access := 0o666 &&& modeNot env.umask
    flags := { Key.zeroed.flags with initialized := true, active := true } }

/-- Function `keyIsInitialized` on a non-null key. -/
def keyIsInitialized (key : Key) : Bool := key.flags.initialized

/-- Function `keyClose` on a non-null key: the buffers are released and the record is
zeroed; a key that is not initialized is left as it is. -/
def keyClose (key : Key) : Key :=
  if keyIsInitialized key then Key.zeroed else key

/-- Function `keyNameGetRootNameSize`. -/
def keyNameGetRootNameSize (keyName : CStr) : Nat :=
  let length := strlen keyName
  if length = 0 then 0
  else
    match strchr keyName RG_KEY_DELIM with
    | some e => e
    | none => length

/-- Result of a setter: the key afterwards (`none` for a null key pointer),
the returned value and the value assigned to `errno`, if any. -/
structure SetRet where
  key : Option Key
  ret : Nat
  err : Option KeyErr := none
  deriving DecidableEq, Repr

/-- The loop `while (newName[length]==RG_KEY_DELIM) length--` of `keySetName`.
Below index 0 the counter wraps and the loop would read outside the string;
the model stops there. -/
def trailingDelimLoop (newName : CStr) : Nat → Nat
  | 0 => if charAt newName 0 = RG_KEY_DELIM then szSub 0 1 else 0
  | n + 1 => if charAt newName (n + 1) = RG_KEY_DELIM then trailingDelimLoop newName n else n + 1

/-- The name buffer written by the `user` branch of `keySetName`. -/
def userNameBuf (old : Option CStr) (newName : CStr)
    (keyNameSize userLength rootLength length : Nat) : List Char :=
  let buf := realloc old keyNameSize
  let buf := strcpy buf 0 "user".toList
  let buf := strncpy buf userLength (newName.drop rootLength) (szSub length rootLength)
  buf.set (szSub keyNameSize 1) NUL

/-- The owner domain buffer written by the `user:` branch of `keySetName`. -/
def userDomainBuf (old : Option CStr) (newName : CStr)
    (userLength userDomainLength : Nat) : List Char :=
  let buf := realloc old (userDomainLength + 1)
  let buf := strncpy buf 0 (newName.drop (userLength + 1)) userDomainLength
  buf.set userDomainLength NUL

/-- The name buffer written by the `system` branch of `keySetName`. -/
def systemNameBuf (old : Option CStr) (newName : CStr) (keyNameSize length : Nat) : List Char :=
  let buf := realloc old keyNameSize
  let buf := strncpy buf 0 newName length
  buf.set (szSub keyNameSize 1) NUL

/-- The owner domain taken from `USER` when a `user` key has none. -/
def envDomain (env : Env) : CStr :=
  let bsize := strblen env.user
  cstrOf (strncpy (rawBuf bsize) 0 env.user bsize)

/-- The store `key->key = name`. -/
def Key.setKey (k : Key) (name : Option CStr) : Key := { k with key := name }

/-- The store `key->userDomain = domain`. -/
def Key.setUserDomain (k : Key) (domain : Option CStr) : Key := { k with userDomain := domain }

/-- The statement `key->flags |= RG_KEY_FLAG_HASKEY | RG_KEY_FLAG_NEEDSYNC`. -/
def Key.flagNamed (k : Key) : Key :=
  { k with flags := { k.flags with hasKey := true, needSync := true } }

/-- The statement `key->flags &= ~(RG_KEY_FLAG_HASKEY | RG_KEY_FLAG_NEEDSYNC)`. -/
def Key.unflagNamed (k : Key) : Key :=
  { k with flags := { k.flags with hasKey := false, needSync := false } }

/-- The result of `keySetName` when the name is refused: `errno` is set to
`RG_KEY_RET_INVALIDKEY` and 0 is returned. -/
def invalidKey (key : Key) : SetRet :=
  { key := some key, ret := 0, err := some KeyErr.INVALIDKEY }

/-- Function `keySetName`. -/
def keySetName (env : Env) (key : Option Key) (newName : Option CStr) : SetRet :=
  match key with
  | none => { key := none, ret := 0, err := some KeyErr.UNINITIALIZED }
  | some key0 =>
    let key := if keyIsInitialized key0 then key0 else keyInit env key0
    let length := match newName with
      | none => 0
      | some s => strlen s
    if newName.isNone ∨ length = 0 then
      -- handle null new key name, removing the old key
      { key := some (key.setKey none).unflagNamed, ret := 0 }
    else
      let newName := newName.getD []
      let length := trailingDelimLoop newName length
      let rootLength := keyNameGetRootNameSize newName
      if rootLength = 0 then invalidKey key
      else
        let userLength := 4
        let systemLength := 6
        let userDomainLength := szSub (szSub rootLength userLength) 1
        if strncmpEq "user".toList newName (if userLength < length then userLength else length) then
          -- handle "user*": the key with its owner domain and the size of the name,
          -- or nothing when the character after "user" is not accepted
          let sized : Option (Key × Nat) :=
            if length > userLength then
              if charAt newName userLength = ':' then
                -- handle "user:*"
                let key :=
                  if userDomainLength > 0 then
                    key.setUserDomain (some (cstrOf
                      (userDomainBuf key.userDomain newName userLength userDomainLength)))
                  else key
                some (key, 1 + szSub (szSub length userDomainLength) 1)
              else if charAt newName userLength ≠ RG_KEY_DELIM then
                -- handle when != "user/ *"
                none
              else
                -- handle regular "user/ *"
                some (key, 1 + length)
            else
              -- handle "user"
              some (key, 1 + userLength)
          match sized with
          | none => invalidKey key
          | some (key, keyNameSize) =>
            let key := key.setKey (some (cstrOf
              (userNameBuf key.key newName keyNameSize userLength rootLength length)))
            let key := if key.userDomain.isNone then
              key.setUserDomain (some (envDomain env)) else key
            { key := some key.flagNamed, ret := keyNameSize }
        else if strncmpEq "system".toList newName
            (if systemLength < length then systemLength else length) then
          -- handle "system*"
          if length > systemLength ∧ charAt newName systemLength ≠ RG_KEY_DELIM then
            invalidKey key
          else
            let keyNameSize := 1 + length
            let key := key.setKey (some (cstrOf
              (systemNameBuf key.key newName keyNameSize length)))
            { key := some key.flagNamed, ret := keyNameSize }
        else
          -- Passed name is neither "system" or "user"
          invalidKey key

/-! ## Comparison of keys -/

/-- Test `memcmp(a, b, n) != 0`. With `n = 0` nothing is read; otherwise both
pointers must be buffers of at least `n` bytes, else the read is outside
an object and there is no result. -/
def memcmpNe (a b : Option (List Nat)) (n : Nat) : Option Bool :=
  if n = 0 then some false
  else
    match a, b with
    | some x, some y =>
      if n ≤ x.length ∧ n ≤ y.length then some (decide (x.take n ≠ y.take n)) else none
    | _, _ => none

/-- The bits `S_IRWXU|S_IRWXG|S_IRWXO` of `sys/stat.h`. -/
def S_IRWXUGO : Nat := 0o777

/-- Function `keyCompare`: the bitset of the facets in which the two keys differ. -/
def keyCompare (key1 key2 : Key) : Option KeyFlags :=
  let ret : KeyFlags := KeyFlags.zero
  -- Compare these numeric properties
  let ret := if key1.uid ≠ key2.uid then { ret with hasUid := true } else ret
  let ret := if key1.gid ≠ key2.gid then { ret with hasGid := true } else ret
  let ret := if key1.type ≠ key2.type then { ret with hasType := true } else ret
  let ret := if key1.access &&& S_IRWXUGO ≠ key2.access &&& S_IRWXUGO
    then { ret with hasPrm := true } else ret
  -- Compare these string properties
  let ret :=
    match key1.key, key2.key with
    | some a, some b => if a ≠ b then { ret with hasKey := true } else ret
    | some _, none => { ret with hasKey := true }
    | none, some _ => { ret with hasKey := true }
    | none, none => ret
  let ret :=
    match key1.comment, key2.comment with
    | some a, some b => if a ≠ b then { ret with hasComment := true } else ret
    | some _, none => { ret with hasComment := true }
    | none, some _ => { ret with hasComment := true }
    | none, none => ret
  let ret :=
    match key1.userDomain, key2.userDomain with
    | some a, some b => if a ≠ b then { ret with hasDomain := true } else ret
    | some _, none => { ret with hasDomain := true }
    | none, _ => if key2.comment.isSome then { ret with hasDomain := true } else ret
  -- Compare data
  match memcmpNe key1.data key2.data
      (if key1.dataSize ≤ key2.dataSize then key1.dataSize else key2.dataSize) with
  | none => none
  | some true => some { ret with hasData := true }
  | some false => some ret

/-! ## Key sets -/

/-- The heap of keys. -/
abbrev Heap := Addr → Option Key

/-- The key `k` with its field `next` set to `n`. -/
def Key.withNext (k : Key) (n : Option Addr) : Key := { k with next := n }

/-- The store `p->next = n`; no result when `p` is not a live key. -/
def Heap.setNext (h : Heap) (p : Addr) (n : Option Addr) : Option Heap :=
  match h p with
  | some k => some (Function.update h p (some (k.withNext n)))
  | none => none

/-- Statements `keyClose(p); free(p)`; no result when `p` is not a live key. -/
def Heap.release (h : Heap) (p : Addr) : Option Heap :=
  match h p with
  | some _ => some (Function.update h p none)
  | none => none

/-- Modelled from the spec: the `KeySet` record, a struct declared in
`registry.h`, which is not among the sources; the fields are those `key.c`
accesses, `end_` being the field `end`. -/
structure KeySet where
  start : Option Addr := none
  end_ : Option Addr := none
  cursor : Option Addr := none
  size : Nat := 0
  deriving DecidableEq, Repr

/-- Function `ksInit`. -/
def ksInit (_ks : KeySet) : KeySet :=
  { start := none, end_ := none, cursor := none, size := 0 }

/-- Function `ksAppend`: heap, key set and returned size. -/
def ksAppend (h : Heap) (ks : KeySet) (toAppend : Addr) : Option (Heap × KeySet × Nat) := do
  let h ← h.setNext toAppend none
  let h ← match ks.end_ with
    | some e => h.setNext e (some toAppend)
    | none => some h
  let ks := if ks.start.isNone then { ks with start := some toAppend } else ks
  let ks := { ks with end_ := some toAppend }
  let ks := { ks with size := ks.size + 1 }
  some (h, ks, ks.size)

/-- Function `ksAppendKeys`: heap, both key sets and the returned size. -/
def ksAppendKeys (h : Heap) (ks toAppend : KeySet) : Option (Heap × KeySet × KeySet × Nat) :=
  if toAppend.size ≠ 0 then do
    let (h, ks) ← match ks.end_ with
      | some e => do
        let h ← h.setNext e toAppend.start
        some (h, { ks with end_ := toAppend.end_ })
      | none => some (h, { ks with end_ := toAppend.end_, start := toAppend.start })
    let ks := { ks with size := ks.size + toAppend.size }
    -- Invalidate the old KeySet
    let toAppend := { toAppend with start := none, end_ := none, size := 0 }
    some (h, ks, toAppend, ks.size)
  else some (h, ks, toAppend, ks.size)

/-- The statement `if (prev) prev->next=x; else ks->start=x;` that `ksCompare`
uses to unlink or replace the key after `prev`. -/
def linkAfter (h : Heap) (ks : KeySet) (prev : Option Addr) (x : Option Addr) :
    Option (Heap × KeySet) :=
  match prev with
  | some p =>
    match h.setNext p x with
    | some h => some (h, ks)
    | none => none
  | none => some (h, { ks with start := x })

/-- The statement `if (ks->end==cur) ks->end=x;` of `ksCompare`. -/
def fixEnd (ks : KeySet) (cur : Addr) (x : Option Addr) : KeySet :=
  if ks.end_ = some cur then { ks with end_ := x } else ks

/-- The statement `ks->size--;`. -/
def decSize (ks : KeySet) : KeySet := { ks with size := szSub ks.size 1 }

/-- The state `ksCompare` works on: the heap and the three key sets, which
are distinct `KeySet` objects. -/
structure KsState where
  heap : Heap
  ks1 : KeySet
  ks2 : KeySet
  removed : KeySet

/-- The inner loop of `ksCompare` over `ks2`, from `ks2Cursor` on, for the key
`ks1Cursor` of `ks1`. Returns the state, the new `ks1Cursor` and `flagRemoved`. -/
def ksCompareScan (ks1PrevCursor : Option Addr) (ks1Cursor : Addr) :
    Nat → KsState → Option Addr → Option Addr → Option (KsState × Addr × Bool)
  | 0, _, _, _ => none
  | _ + 1, st, _, none => some (st, ks1Cursor, true)
  | fuel + 1, st, ks2PrevCursor, some ks2Cursor => do
    let key1 ← st.heap ks1Cursor
    let key2 ← st.heap ks2Cursor
    let flags ← keyCompare key1 key2
    if !(flags.hasKey || flags.hasDomain) then
      -- Comparing fullname-equal keys. First remove from ks2
      let (heap, ks2) ← linkAfter st.heap st.ks2 ks2PrevCursor key2.next
      let ks2 := decSize (fixEnd ks2 ks2Cursor ks2PrevCursor)
      if flags ≠ KeyFlags.zero then
        -- keys are different. Transfer to ks1. Put in ks1
        let (heap, ks1) ← linkAfter heap st.ks1 ks1PrevCursor (some ks2Cursor)
        let ks1 := fixEnd ks1 ks1Cursor (some ks2Cursor)
        let key1 ← heap ks1Cursor
        let heap ← heap.setNext ks2Cursor key1.next
        -- delete old version
        let heap ← heap.release ks1Cursor
        some ({ st with heap := heap, ks1 := ks1, ks2 := ks2 }, ks2Cursor, false)
      else
        -- Keys are identical. Delete ks2's key.
        let heap ← heap.release ks2Cursor
        some ({ st with heap := heap, ks2 := ks2 }, ks1Cursor, false)
    else
      ksCompareScan ks1PrevCursor ks1Cursor fuel st (some ks2Cursor) key2.next

/-- The outer loop of `ksCompare` over `ks1`, from `ks1Cursor` on. -/
def ksCompareLoop : Nat → KsState → Option Addr → Option Addr → Option KsState
  | 0, _, _, _ => none
  | _ + 1, st, _, none => some st
  | fuel + 1, st, ks1PrevCursor, some ks1Cursor => do
    let (st, ks1Cursor, flagRemoved) ←
      ksCompareScan ks1PrevCursor ks1Cursor fuel st none st.ks2.start
    if flagRemoved then
      -- This ks1 key was not found in ks2. Remove from ks1
      let key1 ← st.heap ks1Cursor
      let (heap, ks1) ← linkAfter st.heap st.ks1 ks1PrevCursor key1.next
      let ks1 := decSize (fixEnd ks1 ks1Cursor ks1PrevCursor)
      -- Append to removed
      let (heap, removed, _) ← ksAppend heap st.removed ks1Cursor
      -- Reset pointers
      let ks1Cursor ← match ks1PrevCursor with
        | some p => do
          let prev ← heap p
          some prev.next
        | none => some ks1.start
      ksCompareLoop fuel { st with heap := heap, ks1 := ks1, removed := removed }
        ks1PrevCursor ks1Cursor
    else do
      let key1 ← st.heap ks1Cursor
      ksCompareLoop fuel st (some ks1Cursor) key1.next

/-- Function `ksCompare`, with `fuel` bounding the iterations of each loop. -/
def ksCompare (fuel : Nat) (st : KsState) : Option KsState := do
  let st ← ksCompareLoop fuel st none st.ks1.start
  -- Now transfer all remaining ks2 keys to ks1
  let (heap, ks1, ks2, _) ← ksAppendKeys st.heap st.ks1 st.ks2
  some { st with heap := heap, ks1 := ks1, ks2 := ks2 }

/-- The addresses met by following `next` from `p`, at most `fuel` of them. -/
def chainFrom (h : Heap) : Nat → Option Addr → List Addr
  | 0, _ => []
  | _, none => []
  | fuel + 1, some a =>
    match h a with
    | some k => a :: chainFrom h fuel k.next
    | none => [a]

/-! ## Well-formed key sets -/

/-- The keys `l` are linked in this order: `p` points to the first of them,
each one to the following, and the last one to `q`. -/
def Chain (h : Heap) : Option Addr → List Addr → Option Addr → Prop
  | p, [], q => p = q
  | p, a :: l, q =>
    p = some a ∧
      match h a with
      | some k => Chain h k.next l q
      | none => False

instance Chain.decide (h : Heap) : (p : Option Addr) → (l : List Addr) → (q : Option Addr) →
    Decidable (Chain h p l q)
  | p, [], q => inferInstanceAs (Decidable (p = q))
  | p, a :: l, q =>
    match hk : h a with
    | some k =>
      have : Decidable (Chain h k.next l q) := Chain.decide h k.next l q
      decidable_of_iff (p = some a ∧ Chain h k.next l q) (by simp [Chain, hk])
    | none => isFalse (by simp [Chain, hk])

/-- Well-formedness of a key set holding the keys `l`: they are linked from
`start` up to the null pointer, `end` is the last of them and `size` their
number; `start` and `end` are null exactly when there is no key. -/
structure KsRep (h : Heap) (ks : KeySet) (l : List Addr) : Prop where
  chain : Chain h ks.start l none
  last : ks.end_ = l.getLast?
  size : ks.size = l.length

instance KsRep.decide (h : Heap) (ks : KeySet) (l : List Addr) : Decidable (KsRep h ks l) :=
  decidable_of_iff (Chain h ks.start l none ∧ ks.end_ = l.getLast? ∧ ks.size = l.length)
    ⟨fun ⟨a, b, c⟩ => ⟨a, b, c⟩, fun ⟨a, b, c⟩ => ⟨a, b, c⟩⟩

/-- A key without its link to the following key. -/
def Key.unlinked (k : Key) : Key := { k with next := none }

/-- Result of `keyCompare` on the keys at two addresses. -/
def cmpAt (h : Heap) (a b : Addr) : Option KeyFlags :=
  match h a, h b with
  | some k1, some k2 => keyCompare k1 k2
  | _, _ => none

/-- The test `!(flags & (RG_KEY_FLAG_HASKEY | RG_KEY_FLAG_HASDOMAIN))` of
`ksCompare` on the keys at two addresses. -/
def matchAt (h : Heap) (a b : Addr) : Bool :=
  match cmpAt h a b with
  | some flags => !(flags.hasKey || flags.hasDomain)
  | none => false

/-- The test `if (flags)` of `ksCompare` on the keys at two addresses. -/
def differAt (h : Heap) (a b : Addr) : Bool :=
  decide (cmpAt h a b ≠ some KeyFlags.zero)

/-! ## The reconciliation on lists of addresses -/

/-- First element of `l` satisfying `m`, with the elements before and after. -/
def findMatch (m : Addr → Bool) : List Addr → Option (List Addr × Addr × List Addr)
  | [] => none
  | b :: l =>
    if m b then some ([], b, l)
    else
      match findMatch m l with
      | some (p, c, s) => some (b :: p, c, s)
      | none => none

/-- What the outer loop of `ksCompare` computes, on lists: `done` are the keys
of the first set already settled, `rest` those still to visit, `inc` the keys
of the second set and `rem` the removed ones. Returns the final keys of the
first set, of the second set and of the removed set. -/
def reconcileFrom (h : Heap) :
    (done rest inc rem : List Addr) → List Addr × List Addr × List Addr
  | done, [], inc, rem => (done, inc, rem)
  | done, a :: rest, inc, rem =>
    match findMatch (matchAt h a) inc with
    | none => reconcileFrom h done rest inc (rem ++ [a])
    | some (p, b, s) =>
      reconcileFrom h (done ++ [if differAt h a b then b else a]) rest (p ++ s) rem

/-- The invariant of the loops of `ksCompare`: the three key sets are
well-formed with the keys `done ++ rest`, `inc` and `rem`, no key occurs
twice, and the keys hold what they held in the heap `h0`, links apart. -/
structure Inv (h0 : Heap) (st : KsState) (done rest inc rem : List Addr) : Prop where
  ks1 : KsRep st.heap st.ks1 (done ++ rest)
  ks2 : KsRep st.heap st.ks2 inc
  removed : KsRep st.heap st.removed rem
  nodup : ((done ++ rest) ++ (inc ++ rem)).Nodup
  data : ∀ x, x ∈ (done ++ rest) ++ (inc ++ rem) →
    (st.heap x).map Key.unlinked = (h0 x).map Key.unlinked

/-- Well-formedness of the three key sets `ksCompare` receives: each is a
well-formed key set and no key belongs to two of them or occurs twice. -/
structure StRep (st : KsState) (cur inc rem : List Addr) : Prop where
  ks1 : KsRep st.heap st.ks1 cur
  ks2 : KsRep st.heap st.ks2 inc
  removed : KsRep st.heap st.removed rem
  nodup : (cur ++ (inc ++ rem)).Nodup

instance StRep.decide (st : KsState) (cur inc rem : List Addr) :
    Decidable (StRep st cur inc rem) :=
  decidable_of_iff (KsRep st.heap st.ks1 cur ∧ KsRep st.heap st.ks2 inc ∧
      KsRep st.heap st.removed rem ∧ (cur ++ (inc ++ rem)).Nodup)
    ⟨fun ⟨a, b, c, d⟩ => ⟨a, b, c, d⟩, fun ⟨a, b, c, d⟩ => ⟨a, b, c, d⟩⟩

/-- Every key of `cur` can be compared with every key of `inc`: `keyCompare`
reads no value through a null pointer or beyond its size. -/
def Comparable (h : Heap) (cur inc : List Addr) : Prop :=
  ∀ a ∈ cur, ∀ b ∈ inc, (cmpAt h a b).isSome = true

instance Comparable.decide (h : Heap) (cur inc : List Addr) : Decidable (Comparable h cur inc) :=
  inferInstanceAs (Decidable (∀ a ∈ cur, ∀ b ∈ inc, (cmpAt h a b).isSome = true))

/-! ## Sample keys and key sets -/

/-- A key as `keyInit`, `keySetName` and `keySetRaw` leave it, with the bytes
of `value` and a terminator as its value. -/
def sampleKey (name value : String) : Key :=
  { type := RG_KEY_TYPE_UNDEFINED, uid := 1000, gid := 1000, access := 0o644,
    dataSize := value.length + 1,
    flags := { initialized := true, active := true, needSync := true, hasKey := true,
               hasData := true },
    key := some name.toList,
    data := some (value.toList.map Char.toNat ++ [0]) }

/-- The key `k` after `keySetComment(k, text)` for a non-empty `text`. -/
def withComment (k : Key) (text : String) : Key :=
  { k with comment := some text.toList, commentSize := text.length + 1,
           flags := { k.flags with hasComment := true, needSync := true } }

/-- The key `k` after `keySetOwner(k, owner)`. -/
def withOwner (k : Key) (owner : String) : Key :=
  { k with userDomain := some owner.toList,
           flags := { k.flags with hasDomain := true, needSync := true } }

/-- The heap holding the listed keys at the listed addresses. -/
def heapOf (l : List (Addr × Key)) : Heap := fun a => l.lookup a

/-- What is seen of a state: for each of the three key sets the chain of keys
reached from `start` and the record itself. -/
def KsState.view (st : KsState) :
    (List Addr × KeySet) × (List Addr × KeySet) × (List Addr × KeySet) :=
  ((chainFrom st.heap 16 st.ks1.start, st.ks1), (chainFrom st.heap 16 st.ks2.start, st.ks2),
    (chainFrom st.heap 16 st.removed.start, st.removed))

/-- Scenario A of the spec: `current = {system/a=1, system/b=2}` at addresses
1 and 2, `incoming = {system/a=1, system/c=3}` at addresses 3 and 4. -/
def stScenarioA : KsState :=
  { heap := heapOf [(1, (sampleKey "system/a" "1").withNext (some 2)),
                    (2, sampleKey "system/b" "2"),
                    (3, (sampleKey "system/a" "1").withNext (some 4)),
                    (4, sampleKey "system/c" "3")],
    ks1 := { start := some 1, end_ := some 2, size := 2 },
    ks2 := { start := some 3, end_ := some 4, size := 2 },
    removed := {} }

/-- The state with `current = {system/a, system/b}` at addresses 1 and 2 and
`incoming = {system/a, system/b}` at addresses 3 and 4, where the incoming
`system/a` carries a comment and is otherwise the same as the current one. -/
def stCommented : KsState :=
  { heap := heapOf [(1, (sampleKey "system/a" "1").withNext (some 2)),
                    (2, sampleKey "system/b" "2"),
                    (3, (withComment (sampleKey "system/a" "1") "x").withNext (some 4)),
                    (4, sampleKey "system/b" "2")],
    ks1 := { start := some 1, end_ := some 2, size := 2 },
    ks2 := { start := some 3, end_ := some 4, size := 2 },
    removed := {} }

/-- The state with `current = {system/a}` at address 1 and `incoming` holding,
at address 2, a key named `system/a` whose owner domain is `bob`. -/
def stOwned : KsState :=
  { heap := heapOf [(1, sampleKey "system/a" "1"),
                    (2, withOwner (sampleKey "system/a" "1") "bob")],
    ks1 := { start := some 1, end_ := some 1, size := 1 },
    ks2 := { start := some 2, end_ := some 2, size := 1 },
    removed := {} }

/-- The state with `current = {system/a}` at address 1 and `incoming` holding
`system/a` with owner domain `bob` at address 2 and `system/a` without owner
domain at address 3. -/
def stShadowed : KsState :=
  { heap := heapOf [(1, sampleKey "system/a" "1"),
                    (2, (withOwner (sampleKey "system/a" "1") "bob").withNext (some 3)),
                    (3, sampleKey "system/a" "1")],
    ks1 := { start := some 1, end_ := some 1, size := 1 },
    ks2 := { start := some 2, end_ := some 3, size := 2 },
    removed := {} }

/-- The name and the owner domain of the key at an address. -/
def fullNameAt (h : Heap) (a : Addr) : Option (Option CStr × Option CStr) :=
  (h a).map fun k => (k.key, k.userDomain)

/-- The keys the first set keeps or takes over, in order, as `ksCompare`
settles them. -/
def keptOf (st : KsState) (cur inc rem : List Addr) : List Addr :=
  (reconcileFrom st.heap [] cur inc rem).1

/-- The keys of the second set that `ksCompare` matched with no key of the
first set, in order. -/
def unmatchedOf (st : KsState) (cur inc rem : List Addr) : List Addr :=
  (reconcileFrom st.heap [] cur inc rem).2.1

/-- The keys of the removed set after `ksCompare`, in order. -/
def removedOf (st : KsState) (cur inc rem : List Addr) : List Addr :=
  (reconcileFrom st.heap [] cur inc rem).2.2

/-- The environment of the sample calls. -/
def sampleEnv : Env := { uid := 1000, gid := 1000, umask := 0o022, user := "bob".toList }

/-- The number of keys of `l` whose full name (name and owner domain) is not
the full name of a key of `other`. -/
def countOnly (h : Heap) (l other : List Addr) : Nat :=
  (l.filter fun a => decide (fullNameAt h a ∉ other.map (fullNameAt h))).length

/-- The number of full names (name and owner domain) that occur both in `l`
and in `other`, the full names within `l` being distinct. -/
def countCommon (h : Heap) (l other : List Addr) : Nat :=
  (l.filter fun a => decide (fullNameAt h a ∈ other.map (fullNameAt h))).length

/-- The state with `current = {system/a=1, system/b=2}` at addresses 1 and 2
and with `incoming` and `removed` empty. -/
def stNoIncoming : KsState :=
  { heap := heapOf [(1, (sampleKey "system/a" "1").withNext (some 2)),
                    (2, sampleKey "system/b" "2")],
    ks1 := { start := some 1, end_ := some 2, size := 2 },
    ks2 := {},
    removed := {} }

/-! ## Reading the full name -/

/-- Result of a getter: the caller's buffer afterwards, the returned value and
the value assigned to `errno`, if any. -/
structure GetRet where
  buf : List Char
  ret : Nat
  err : Option KeyErr := none
  deriving DecidableEq, Repr

/-- Function `keyGetFullNameSize`: the returned value and the value assigned to
`errno`, if any. The value `-1` is the largest `size_t`. -/
def keyGetFullNameSize (key : Option Key) : Nat × Option KeyErr :=
  match key with
  | none => (szSub 0 1, some KeyErr.UNINITIALIZED)
  | some k =>
    if !keyIsInitialized k then (szSub 0 1, some KeyErr.UNINITIALIZED)
    else
      match k.key with
      | none => (0, none)
      | some name =>
        let returnedSize := strblen name
        match k.userDomain with
        | some domain =>
          if strncmpEq "user".toList name 4 then (returnedSize + strblen domain, none)
          else (returnedSize, none)
        | none => (returnedSize, none)

/-- Function `keyGetFullName`, writing into the caller's buffer `returnedName`.
The test `length < 0` of the source never holds for a `size_t` and is left
out. No result when the key pointer or its name is null where the name is
read. -/
def keyGetFullName (key : Option Key) (returnedName : List Char) (maxSize : Nat) :
    Option GetRet :=
  let userSize := 4
  let sized := keyGetFullNameSize key
  let length := sized.1
  if length > maxSize then
    some { buf := returnedName, ret := szSub 0 1, err := some KeyErr.TRUNC }
  else
    match key with
    | none => none
    | some k =>
      match k.key with
      | none => none
      | some name =>
        if strncmpEq "user".toList name userSize then
          let buf := strncpy returnedName 0 name userSize
          let cursor := userSize
          let written : List Char × Nat :=
            match k.userDomain with
            | some domain =>
              let buf := writeAt buf cursor [':']
              let cursor := cursor + 1
              let userDomainSize := szSub (strblen domain) 1
              let buf := strcpy buf cursor domain
              (buf, cursor + userDomainSize)
            | none => (buf, cursor)
          some { buf := strcpy written.1 written.2 (name.drop userSize), ret := length,
                 err := sized.2 }
        else some { buf := strcpy returnedName 0 name, ret := length, err := sized.2 }

/-! ## Base name and parent of a name -/

/-- Call `strrchr(s, c)` (also `rindex`) as the offset of the last occurrence,
if any. -/
def strrchr (s : CStr) (c : Char) : Option Nat :=
  if c ∈ s then some (s.length - 1 - s.reverse.indexOf c) else none

/-- The loop `while (!found) { end--; if (*end=='.') found=1; }` of
`keyNameGetBaseNameSize`, started with `end` at the given offset: the offset
of the dot it stops at. No result when `end` moves before the first
character. -/
def scanBackDot (s : CStr) : Nat → Option Nat
  | 0 => none
  | i + 1 => if charAt s i = '.' then some i else scanBackDot s i

/-- Function `keyNameGetBaseNameSize`. No result when `end` is null or is moved
before the first character. -/
def keyNameGetBaseNameSize (keyName : CStr) : Option Nat :=
  let keySize := strblen keyName
  if keySize = 0 then some 0
  else
    let size := keyNameGetRootNameSize keyName
    if size = 0 ∨ size = keySize then some 0 -- key is a root key
    else
      match strrchr keyName RG_KEY_DELIM with
      | none => none
      | some e =>
        if e = 0 then none
        else if charAt keyName (e - 1) ≠ '\\' then some (szSub keySize (e + 1))
        else
          match scanBackDot keyName e with
          | some e => some (szSub keySize (e + 1))
          | none => none

/-- The loop `while (*parentNameEnd!=RG_KEY_DELIM) parentNameEnd--;` of
`keyGetParentSize`, started at the given offset: the offset it stops at. No
result when the pointer moves before the first character. -/
def scanBackDelim (s : CStr) : Nat → Option Nat
  | 0 => if charAt s 0 = RG_KEY_DELIM then some 0 else none
  | i + 1 => if charAt s (i + 1) = RG_KEY_DELIM then some (i + 1) else scanBackDelim s i

/-- Function `keyGetParentSize`: the returned value and the value assigned to
`errno`, if any. No result when the backward scan leaves the name. -/
def keyGetParentSize (key : Option Key) : Option (Nat × Option KeyErr) :=
  match key with
  | none => some (0, some KeyErr.UNINITIALIZED)
  | some k =>
    if !keyIsInitialized k then some (0, some KeyErr.UNINITIALIZED)
    else
      match k.key with
      | none => some (0, some KeyErr.NOKEY)
      | some name =>
        match strrchr name RG_KEY_DELIM with
        | none => some (0, none)
        | some parentNameEnd =>
          if parentNameEnd = 0 then some (0, none) -- handle NULL or /something
          else if parentNameEnd = szSub (strlen name) 1 then
            -- handle system/parent/base/
            match scanBackDelim name (parentNameEnd - 1) with
            | some e => some (e, none)
            | none => none
          else some (parentNameEnd, none)

/-! ## Inserting into key sets -/

/-- Function `ksInsert`: heap, key set and returned size. -/
def ksInsert (h : Heap) (ks : KeySet) (toInsert : Addr) : Option (Heap × KeySet × Nat) := do
  let h ← h.setNext toInsert ks.start
  let ks := { ks with start := some toInsert }
  let ks := if ks.end_.isNone then { ks with end_ := some toInsert } else ks
  let ks := { ks with size := ks.size + 1 }
  some (h, ks, ks.size)

/-- Function `ksInsertKeys`: heap, both key sets and the returned size. No
result when `toInsert->end` is null where it is dereferenced. -/
def ksInsertKeys (h : Heap) (ks toInsert : KeySet) : Option (Heap × KeySet × KeySet × Nat) :=
  if toInsert.size ≠ 0 then do
    let e ← toInsert.end_
    let h ← h.setNext e ks.start
    let ks := { ks with start := toInsert.start }
    let ks := { ks with size := ks.size + toInsert.size }
    -- Invalidate the old KeySet
    let toInsert := { toInsert with start := none, end_ := none, size := 0 }
    some (h, ks, toInsert, ks.size)
  else some (h, ks, toInsert, ks.size)

/-- The keys of `keys` inserted one after the other with `ksInsert`. -/
def ksInsertEach (h : Heap) (ks : KeySet) : List Addr → Option (Heap × KeySet)
  | [] => some (h, ks)
  | k :: keys =>
    match ksInsert h ks k with
    | some (h, ks, _) => ksInsertEach h ks keys
    | none => none

/-- The keys of `keys` appended one after the other with `ksAppend`. -/
def ksAppendEach (h : Heap) (ks : KeySet) : List Addr → Option (Heap × KeySet)
  | [] => some (h, ks)
  | k :: keys =>
    match ksAppend h ks k with
    | some (h, ks, _) => ksAppendEach h ks keys
    | none => none

/-- The heap of the sample splices: the keys 1 and 2 linked in this order, the
keys 3 and 4 linked in this order, and the key 5 on its own. -/
def heapSplice : Heap :=
  heapOf [(1, (sampleKey "system/a" "1").withNext (some 2)), (2, sampleKey "system/b" "2"),
    (3, (sampleKey "system/c" "3").withNext (some 4)), (4, sampleKey "system/d" "4"),
    (5, sampleKey "system/e" "5")]

/-- The key set of the keys 1 and 2 of `heapSplice`, its cursor on the key 2. -/
def ksOneTwo : KeySet := { start := some 1, end_ := some 2, cursor := some 2, size := 2 }

/-- The key set of the keys 3 and 4 of `heapSplice`. -/
def ksThreeFour : KeySet := { start := some 3, end_ := some 4, cursor := none, size := 2 }

/-- The calls `keyInit(key)`, `keySetName(key, n)` and
`keyGetFullName(key, returnedName, maxSize)` in this order: the result of the
last one. -/
def setThenGetFullName (env : Env) (n : CStr) (returnedName : List Char) (maxSize : Nat) :
    Option GetRet :=
  keyGetFullName (keySetName env (some (keyInit env Key.zeroed)) (some n)).key returnedName
    maxSize


/-! ## Walking and closing key sets -/

/-- Function `ksNext`: the key set afterwards and the returned key. No result
when the cursor is not a live key where `cursor->next` is read. -/
def ksNext (h : Heap) (ks : KeySet) : Option (KeySet × Option Addr) :=
  match ks.cursor with
  | none => some ({ ks with cursor := ks.start }, ks.start)
  | some c =>
    match h c with
    | some k => some ({ ks with cursor := k.next }, k.next)
    | none => none

/-- Function `ksRewind`. -/
def ksRewind (ks : KeySet) : KeySet := { ks with cursor := none }

/-- The given number of calls of `ksNext` in a row: the key set afterwards and
the returned keys in the order of the calls. -/
def ksNextTimes (h : Heap) : Nat → KeySet → Option (KeySet × List (Option Addr))
  | 0, ks => some (ks, [])
  | n + 1, ks =>
    match ksNext h ks with
    | none => none
    | some (ks, r) =>
      match ksNextTimes h n ks with
      | none => none
      | some (ks, rs) => some (ks, r :: rs)

/-- The loop `while (ks->size)` of `ksClose`, for the given value of
`ks->size` and of the local `cursor`: the heap afterwards. No result when
`cursor` is not a live key where `cursor->next` is read. -/
def ksCloseLoop (h : Heap) : Nat → Option Addr → Option Heap
  | 0, _ => some h
  | size + 1, cursor =>
    match cursor with
    | none => none
    | some destroyer =>
      match h destroyer with
      | none => none
      | some k =>
        match h.release destroyer with
        | some h => ksCloseLoop h size k.next
        | none => none

/-- Function `ksClose`. -/
def ksClose (h : Heap) (ks : KeySet) : Option (Heap × KeySet) :=
  match ksCloseLoop h ks.size ks.start with
  | none => none
  | some h =>
    let ks := { ks with size := 0 }
    some (h, { ks with start := ks.cursor, end_ := ks.cursor })

/-- The calls `ksInit(other)`, `ksAppend(other, a)`, `ksAppend(other, b)`,
`ksRewind(other)`, `ksNext(other)`, then `ksAppendKeys(ks, other)` and
`ksNext(other)`: the key set `other` after the transfer and what the last
call returns. -/
def nextAfterTransfer (h : Heap) (ks : KeySet) (a b : Addr) :
    Option (KeySet × Option Addr) := do
  let other := ksInit {}
  let (h, other, _) ← ksAppend h other a
  let (h, other, _) ← ksAppend h other b
  let other := ksRewind other
  let (other, _) ← ksNext h other
  let (h, _, other, _) ← ksAppendKeys h ks other
  let (_, r) ← ksNext h other
  some (other, r)

/-- The calls `ksInit(ks)`, `ksAppend(ks, a)`, `ksAppend(ks, b)`,
`ksRewind(ks)`, `ksNext(ks)` and `ksClose(ks)`: the heap and the key set
afterwards. -/
def closeAfterNext (h : Heap) (a b : Addr) : Option (Heap × KeySet) := do
  let ks := ksInit {}
  let (h, ks, _) ← ksAppend h ks a
  let (h, ks, _) ← ksAppend h ks b
  let ks := ksRewind ks
  let (ks, _) ← ksNext h ks
  ksClose h ks

/-! ## Type, value, comment and owner of a key -/

/-- Modelled from the spec: the type tag `RG_KEY_TYPE_DIR` of a directory key,
a constant declared in `registry.h`, which is not among the sources. The spec
lists the tags Undefined, Binary (with 19 variants), String (with variants up
to 254), Directory and Link; the two special tags come first. -/
def RG_KEY_TYPE_DIR : Nat := 1

/-- Modelled from the spec: the type tag `RG_KEY_TYPE_LINK` of a link key, a
constant declared in `registry.h`, which is not among the sources. -/
def RG_KEY_TYPE_LINK : Nat := 2

/-- Modelled from the spec: the type tag `RG_KEY_TYPE_BINARY`, a constant
declared in `registry.h`, which is not among the sources; binary values have
the tags from this one to this one plus 19. -/
def RG_KEY_TYPE_BINARY : Nat := 20

/-- Modelled from the spec: the type tag `RG_KEY_TYPE_STRING`, a constant
declared in `registry.h`, which is not among the sources; text values have the
tags from this one up to 254. -/
def RG_KEY_TYPE_STRING : Nat := 40

/-- The bit `S_IFDIR` of `sys/stat.h`. -/
def S_IFDIR : Nat := 0o040000

/-- The store `key->type = t`. -/
def Key.setType (k : Key) (t : Nat) : Key := { k with type := t }

/-- The store `key->access = m`. -/
def Key.setAccess (k : Key) (m : Nat) : Key := { k with access := m }

/-- The store `key->data = d`. -/
def Key.setData (k : Key) (d : Option (List Nat)) : Key := { k with data := d }

/-- The store `key->dataSize = n`. -/
def Key.setDataSize (k : Key) (n : Nat) : Key := { k with dataSize := n }

/-- The store `key->comment = c`. -/
def Key.setComment (k : Key) (c : Option CStr) : Key := { k with comment := c }

/-- The store `key->commentSize = n`. -/
def Key.setCommentSize (k : Key) (n : Nat) : Key := { k with commentSize := n }

/-- The store `key->flags = f`. -/
def Key.setFlags (k : Key) (f : KeyFlags) : Key := { k with flags := f }

/-- The bytes of a C string, the terminator included. -/
def cstrBytes (s : CStr) : List Nat := s.map Char.toNat ++ [0]

/-- The C string that starts a buffer of bytes. No result when the buffer
holds no terminator, so that reading the string leaves the buffer. -/
def bytesCStr (d : List Nat) : Option CStr :=
  if 0 ∈ d then some ((d.takeWhile (fun b => b != 0)).map Char.ofNat) else none

/-- Function `strblen` on a buffer. No result when the buffer holds no
terminator, so that the search for it leaves the buffer. -/
def strblenBuf (buf : List Char) : Option Nat :=
  if NUL ∈ buf then some (strblen (cstrOf buf)) else none

/-- Function `keySetRaw`. The argument `newBinary` is a buffer of bytes or the
null pointer. No result when `dataSize` exceeds the buffer, so that `memcpy`
reads outside it. -/
def keySetRaw (env : Env) (key : Option Key) (newBinary : Option (List Nat)) (dataSize : Nat) :
    Option SetRet :=
  match key with
  | none => some { key := none, ret := 0, err := some KeyErr.UNINITIALIZED }
  | some key0 =>
    let key := if keyIsInitialized key0 then key0 else keyInit env key0
    if dataSize = 0 ∨ newBinary.isNone then
      let key := if key.data.isSome then key.setData none else key
      let key := key.setFlags { key.flags with hasData := false }
      let key := key.setFlags { key.flags with needSync := true }
      some { key := some key, ret := 0 }
    else
      let newBinary := newBinary.getD []
      let key := key.setDataSize dataSize
      if dataSize ≤ newBinary.length then
        let key := key.setData (some (newBinary.take key.dataSize))
        let key := key.setFlags { key.flags with hasData := true, needSync := true }
        some { key := some key, ret := key.dataSize }
      else none

/-- Function `keySetType`; the returned value is the type of the key. -/
def keySetType (env : Env) (key : Option Key) (newType : Nat) : Option SetRet :=
  let dirSwitch := 0o111
  match key with
  | none => some { key := none, ret := RG_KEY_TYPE_UNDEFINED, err := some KeyErr.UNINITIALIZED }
  | some key0 =>
    let key := if keyIsInitialized key0 then key0 else keyInit env key0
    if newType = RG_KEY_TYPE_DIR then
      let key := key.setType RG_KEY_TYPE_DIR
      let dirSwitch := env.umask
      let dirSwitch := 0o111 &&& modeNot dirSwitch
      let key := key.setAccess (key.access ||| (dirSwitch ||| S_IFDIR))
      -- remove data
      match keySetRaw env (some key) none 0 with
      | none => none
      | some r =>
        match r.key with
        | none => none
        | some key => some { key := some key, ret := key.type, err := r.err }
    else
      let key := key.setType newType
      let key := key.setAccess (key.access &&& modeNot (S_IFDIR ||| dirSwitch))
      let key := key.setFlags { key.flags with needSync := true }
      some { key := some key, ret := key.type }

/-- The body shared by `keySetString`, `keySetLink`: the value is set with
`keySetRaw`, then the type is forced with `keySetType`. -/
def keySetText (env : Env) (key : Option Key) (text : Option CStr) (type : Nat) :
    Option SetRet :=
  let ret := match text with
    | some s => strblen s
    | none => 0
  let raw := if text.isNone ∨ ret = 0 then keySetRaw env key none 0
    else keySetRaw env key (text.map cstrBytes) ret
  match raw with
  | none => none
  | some r1 =>
    let ret := if text.isNone ∨ ret = 0 then r1.ret else ret
    match keySetType env r1.key type with
    | none => none
    | some r2 =>
      some { key := r2.key, ret := ret,
             err := match r2.err with
               | some e => some e
               | none => r1.err }

/-- Function `keySetString`. -/
def keySetString (env : Env) (key : Option Key) (newString : Option CStr) : Option SetRet :=
  keySetText env key newString RG_KEY_TYPE_STRING

/-- Function `keySetLink`. -/
def keySetLink (env : Env) (key : Option Key) (target : Option CStr) : Option SetRet :=
  keySetText env key target RG_KEY_TYPE_LINK

/-- Function `keySetBinary`. -/
def keySetBinary (env : Env) (key : Option Key) (newBinary : Option (List Nat))
    (dataSize : Nat) : Option SetRet :=
  match keySetRaw env key newBinary dataSize with
  | none => none
  | some r1 =>
    match keySetType env r1.key RG_KEY_TYPE_BINARY with
    | none => none
    | some r2 =>
      some { key := r2.key, ret := r1.ret,
             err := match r2.err with
               | some e => some e
               | none => r1.err }

/-- Function `keyGetString`. No result when the value holds no terminator, so
that `strcpy` reads outside it. -/
def keyGetString (key : Option Key) (returnedString : List Char) (maxSize : Nat) :
    Option GetRet :=
  match key with
  | none => some { buf := returnedString, ret := 0, err := some KeyErr.UNINITIALIZED }
  | some k =>
    if !keyIsInitialized k then
      some { buf := returnedString, ret := 0, err := some KeyErr.UNINITIALIZED }
    else
      match k.data with
      | none =>
        some { buf := writeAt returnedString 0 [NUL], ret := 0, err := some KeyErr.NODATA }
      | some data =>
        if k.dataSize > maxSize then
          some { buf := returnedString, ret := 0, err := some KeyErr.TRUNC }
        else if k.type < RG_KEY_TYPE_STRING then
          some { buf := returnedString, ret := 0, err := some KeyErr.TYPEMISMATCH }
        else
          match bytesCStr data with
          | none => none
          | some s => some { buf := strcpy returnedString 0 s, ret := k.dataSize }

/-- Result of a getter that fills a buffer of bytes: the caller's buffer
afterwards, the returned value and the value assigned to `errno`, if any. -/
structure GetBytesRet where
  buf : List Nat
  ret : Nat
  err : Option KeyErr := none
  deriving DecidableEq, Repr

/-- Function `keyGetBinary`. The numeric values of the error codes are
declared in `registry.h`, which is not among the sources; `errnoOf` gives
them. No result when `dataSize` exceeds the value, so that `memcpy` reads
outside it. -/
def keyGetBinary (errnoOf : KeyErr → Nat) (key : Option Key) (returnedBinary : List Nat)
    (maxSize : Nat) : Option GetBytesRet :=
  match key with
  | none =>
    some { buf := returnedBinary, ret := errnoOf KeyErr.UNINITIALIZED,
           err := some KeyErr.UNINITIALIZED }
  | some k =>
    if !keyIsInitialized k then
      some { buf := returnedBinary, ret := errnoOf KeyErr.UNINITIALIZED,
             err := some KeyErr.UNINITIALIZED }
    else
      match k.data with
      | none => some { buf := returnedBinary, ret := 0, err := some KeyErr.NODATA }
      | some data =>
        if k.dataSize > maxSize then
          some { buf := returnedBinary, ret := 0, err := some KeyErr.TRUNC }
        else if k.dataSize ≤ data.length then
          some { buf := (data.take k.dataSize ++ returnedBinary.drop k.dataSize).take
                   returnedBinary.length,
                 ret := k.dataSize }
        else none

/-- Function `keySetComment`. -/
def keySetComment (env : Env) (key : Option Key) (newComment : Option CStr) : SetRet :=
  match key with
  | none => { key := none, ret := 0, err := some KeyErr.UNINITIALIZED }
  | some key0 =>
    let key := if keyIsInitialized key0 then key0 else keyInit env key0
    let size := match newComment with
      | some c => strblen c
      | none => 0
    if newComment.isSome ∧ size > 0 then
      let newComment := newComment.getD []
      let buf := if key.flags.hasComment then realloc key.comment size else rawBuf size
      let key := key.setComment (some (cstrOf (strcpy buf 0 newComment)))
      let key := key.setFlags { key.flags with hasComment := true, needSync := true }
      { key := some (key.setCommentSize size), ret := size }
    else
      let key :=
        if key.flags.hasComment then
          (key.setComment none).setFlags { key.flags with hasComment := false, needSync := false }
        else key
      { key := some (key.setCommentSize 0), ret := 0 }

/-- Function `keySetOwner`. No result when `userDomain` is the null pointer,
which `strblen` reads through. -/
def keySetOwner (env : Env) (key : Option Key) (userDomain : Option CStr) : Option SetRet :=
  match key with
  | none => some { key := none, ret := szSub 0 1, err := some KeyErr.UNINITIALIZED }
  | some key0 =>
    let key := if keyIsInitialized key0 then key0 else keyInit env key0
    match userDomain with
    | none => none
    | some userDomain =>
      let size := strblen userDomain
      if size > 0 then
        let buf := if key.userDomain.isSome then realloc key.userDomain size else rawBuf size
        let key := key.setUserDomain (some (cstrOf (strcpy buf 0 userDomain)))
        let key := key.setFlags { key.flags with hasDomain := true, needSync := true }
        some { key := some key, ret := size }
      else if key.userDomain.isSome then
        let key := key.setUserDomain none
        let key := key.setFlags { key.flags with hasDomain := false, needSync := false }
        some { key := some key, ret := 0 }
      else some { key := some key, ret := 0 }

/-- Function `keyGetName`. Bytes that `strncpy` would write past the end of
the caller's buffer are dropped. No result when the buffer holds no terminator
after the copy, so that `strblen` reads outside it. -/
def keyGetName (key : Option Key) (returnedName : List Char) (maxSize : Nat) : Option GetRet :=
  match key with
  | none => some { buf := returnedName, ret := 0, err := some KeyErr.UNINITIALIZED }
  | some k =>
    if !keyIsInitialized k then
      some { buf := returnedName, ret := 0, err := some KeyErr.UNINITIALIZED }
    else
      match k.key with
      | none => some { buf := returnedName, ret := 0, err := some KeyErr.NOKEY }
      | some name =>
        let buf := strncpy returnedName 0 name maxSize
        match strblenBuf buf with
        | none => none
        | some bytes =>
          if maxSize < strblen name then
            some { buf := buf, ret := 0, err := some KeyErr.TRUNC }
          else some { buf := buf, ret := bytes }

/-- Function `keyDup` on two keys that are not null: the destination
afterwards. -/
def keyDup (env : Env) (source dest : Key) : Option Key := do
  -- clear everything first
  let _closed := keyClose dest
  -- Copy the struct data
  let dest := source
  -- prepare to set dynamic properties
  let dest := { dest with key := none, comment := none, userDomain := none, data := none }
  -- Set properties that need memory allocation
  let dest ← (keySetName env (some dest) source.key).key
  let dest ← (keySetComment env (some dest) source.comment).key
  let r ← keySetOwner env (some dest) source.userDomain
  let dest ← r.key
  let r ← keySetRaw env (some dest) source.data source.dataSize
  let dest ← r.key
  some (dest.setFlags source.flags)


/-! ## Name spaces, full root name, owner and value size -/

/-- Function `keyNameIsSystem`. -/
def keyNameIsSystem (keyName : Option CStr) : Bool :=
  match keyName with
  | none => false
  | some s => if strlen s = 0 then false else strncmpEq "system".toList s 6

/-- Function `keyNameIsUser`. -/
def keyNameIsUser (keyName : Option CStr) : Bool :=
  match keyName with
  | none => false
  | some s => if strlen s = 0 then false else strncmpEq "user".toList s 4

/-- Function `keyIsSystem`. -/
def keyIsSystem (key : Option Key) : Bool :=
  match key with
  | none => false
  | some k => if !keyIsInitialized k then false else keyNameIsSystem k.key

/-- Function `keyIsUser`. -/
def keyIsUser (key : Option Key) : Bool :=
  match key with
  | none => false
  | some k => if !keyIsInitialized k then false else keyNameIsUser k.key

/-- Function `keyGetFullRootNameSize`. No result when the key or its name is
null, which `key->key` and `strlen` read through. -/
def keyGetFullRootNameSize (env : Env) (key : Option Key) : Option Nat :=
  match key with
  | none => none
  | some k =>
    let size :=
      if keyIsUser (some k) then
        match k.userDomain with
        | some d => strblen d
        | none => strblen env.user
      else 0
    match k.key with
    | none => none
    | some name => some (size + keyNameGetRootNameSize name)

/-- Function `keyGetFullRootName`. -/
def keyGetFullRootName (env : Env) (key : Option Key) (returned : List Char) (maxSize : Nat) :
    Option GetRet :=
  match key with
  | none => some { buf := returned, ret := 0, err := some KeyErr.UNINITIALIZED }
  | some k =>
    if !keyIsInitialized k then
      some { buf := returned, ret := 0, err := some KeyErr.UNINITIALIZED }
    else
      match k.key with
      | none => some { buf := returned, ret := 0, err := some KeyErr.NOKEY }
      | some name =>
        match keyGetFullRootNameSize env (some k) with
        | none => none
        | some size =>
          if size = 0 then some { buf := returned, ret := 0, err := some KeyErr.NOKEY }
          else if maxSize < size then
            some { buf := returned, ret := 0, err := some KeyErr.TRUNC }
          else some { buf := strncpy returned 0 name size, ret := size }

/-- Function `keyGetOwner`. -/
def keyGetOwner (key : Option Key) (returned : List Char) (maxSize : Nat) : GetRet :=
  match key with
  | none => { buf := returned, ret := 0, err := some KeyErr.UNINITIALIZED }
  | some k =>
    if !keyIsInitialized k then
      { buf := returned, ret := 0, err := some KeyErr.UNINITIALIZED }
    else
      match k.userDomain with
      | none => { buf := returned, ret := 0, err := some KeyErr.NODOMAIN }
      | some d =>
        let bytes := strblen d
        if maxSize < bytes then { buf := returned, ret := 0, err := some KeyErr.TRUNC }
        else { buf := strcpy returned 0 d, ret := bytes }

/-- Function `keyGetDataSize`: the returned value and the value assigned to
`errno`, if any. The value `-1` is the largest `size_t`. -/
def keyGetDataSize (key : Option Key) : Nat × Option KeyErr :=
  match key with
  | none => (szSub 0 1, some KeyErr.UNINITIALIZED)
  | some k =>
    if !keyIsInitialized k then (szSub 0 1, some KeyErr.UNINITIALIZED)
    else (k.dataSize, none)

/-- The calls `keyInit(key)` and `keySetName(key, n)`: the key afterwards. -/
def namedKey (env : Env) (n : String) : Option Key :=
  (keySetName env (some (keyInit env Key.zeroed)) (some n.toList)).key

/-- The calls `ksInit(other)`, `ksAppend(other, a)`, `ksAppend(other, b)`,
`ksInit(ks)`, `ksInsertKeys(ks, other)` and `ksAppend(ks, c)`: the keys met
from the first key of `ks` and the record `ks` afterwards. -/
def appendAfterInsertKeys (h : Heap) (a b c : Addr) : Option (List Addr × KeySet) := do
  let other := ksInit {}
  let (h, other, _) ← ksAppend h other a
  let (h, other, _) ← ksAppend h other b
  let ks := ksInit {}
  let (h, ks, _, _) ← ksInsertKeys h ks other
  let (h, ks, _) ← ksAppend h ks c
  some (chainFrom h 16 ks.start, ks)

/-- The state with `current = {system/x=1, system/b=2}` at addresses 1 and 2
and `incoming = {system/b=9}` at address 3: the first key of `current` has no
counterpart and the last one has a counterpart with another value. -/
def stEnds : KsState :=
  { heap := heapOf [(1, (sampleKey "system/x" "1").withNext (some 2)),
                    (2, sampleKey "system/b" "2"),
                    (3, sampleKey "system/b" "9")],
    ks1 := { start := some 1, end_ := some 2, size := 2 },
    ks2 := { start := some 3, end_ := some 3, size := 1 },
    removed := {} }


/-! # Theorems -/

/-! ## Lemmas on chains -/

theorem chain_cons_iff {h : Heap} {p q : Option Addr} {a : Addr} {l : List Addr} :
    Chain h p (a :: l) q ↔ p = some a ∧ ∃ k, h a = some k ∧ Chain h k.next l q := by
  cases hk : h a <;> simp [Chain, hk]

theorem chain_congr {h h' : Heap} : ∀ {l : List Addr} {p q : Option Addr},
    (∀ a ∈ l, h' a = h a) → Chain h p l q → Chain h' p l q
  | [], _, _, _, hc => hc
  | a :: l, p, q, hh, hc => by
    rw [chain_cons_iff] at hc ⊢
    obtain ⟨hp, k, hk, hc⟩ := hc
    refine ⟨hp, k, ?_, chain_congr (fun b hb => hh b (List.mem_cons_of_mem _ hb)) hc⟩
    rw [hh a (List.mem_cons_self _ _), hk]

theorem chain_append_iff {h : Heap} : ∀ {l1 l2 : List Addr} {p q : Option Addr},
    Chain h p (l1 ++ l2) q ↔ ∃ m, Chain h p l1 m ∧ Chain h m l2 q
  | [], l2, p, q => by simp [Chain]
  | a :: l1, l2, p, q => by
    simp only [List.cons_append, chain_cons_iff]
    constructor
    · rintro ⟨hp, k, hk, hc⟩
      obtain ⟨m, h1, h2⟩ := chain_append_iff.1 hc
      exact ⟨m, ⟨hp, k, hk, h1⟩, h2⟩
    · rintro ⟨m, ⟨hp, k, hk, h1⟩, h2⟩
      exact ⟨hp, k, hk, chain_append_iff.2 ⟨m, h1, h2⟩⟩

theorem chain_live {h : Heap} : ∀ {l : List Addr} {p q : Option Addr},
    Chain h p l q → ∀ a ∈ l, ∃ k, h a = some k
  | [], _, _, _, a, ha => by simp at ha
  | b :: l, p, q, hc, a, ha => by
    rw [chain_cons_iff] at hc
    obtain ⟨_, k, hk, hc⟩ := hc
    rcases List.mem_cons.1 ha with rfl | ha
    · exact ⟨k, hk⟩
    · exact chain_live hc a ha

theorem chain_head_eq {h : Heap} {l : List Addr} {p : Option Addr}
    (hc : Chain h p l none) : p = l.head? := by
  cases l with
  | nil => simpa [Chain] using hc
  | cons a l => simpa using (chain_cons_iff.1 hc).1

theorem chain_concat_iff {h : Heap} {l : List Addr} {x : Addr} {p q : Option Addr} :
    Chain h p (l ++ [x]) q ↔ Chain h p l (some x) ∧ ∃ k, h x = some k ∧ k.next = q := by
  rw [chain_append_iff]
  constructor
  · rintro ⟨m, h1, h2⟩
    rw [chain_cons_iff] at h2
    obtain ⟨rfl, k, hk, h2⟩ := h2
    exact ⟨h1, k, hk, by simpa [Chain] using h2⟩
  · rintro ⟨h1, k, hk, hq⟩
    exact ⟨some x, h1, chain_cons_iff.2 ⟨rfl, k, hk, by simpa [Chain] using hq⟩⟩

/-! ## Lemmas on the pointer stores -/

theorem setNext_of_live {h : Heap} {p : Addr} {k : Key} (hk : h p = some k)
    (x : Option Addr) :
    h.setNext p x = some (Function.update h p (some (k.withNext x))) := by
  simp [Heap.setNext, hk]

theorem release_of_live {h : Heap} {p : Addr} {k : Key} (hk : h p = some k) :
    h.release p = some (Function.update h p none) := by
  simp [Heap.release, hk]

@[simp] theorem unlinked_withNext (k : Key) (x : Option Addr) :
    Key.unlinked (k.withNext x) = Key.unlinked k := rfl

@[simp] theorem withNext_next (k : Key) (x : Option Addr) : (k.withNext x).next = x := rfl

/-- Redirecting the pointer that leaves a segment. -/
theorem linkAfter_spec {h : Heap} {ks : KeySet} {P : List Addr} {m : Option Addr}
    (x : Option Addr) (hc : Chain h ks.start P m) (hn : P.Nodup) :
    ∃ h' ks', linkAfter h ks P.getLast? x = some (h', ks') ∧ Chain h' ks'.start P x ∧
      ks'.end_ = ks.end_ ∧ ks'.size = ks.size ∧
      (∀ a, some a ≠ P.getLast? → h' a = h a) ∧
      (∀ a, (h' a).map Key.unlinked = (h a).map Key.unlinked) := by
  rcases List.eq_nil_or_concat P with rfl | ⟨P', y, rfl⟩
  · exact ⟨h, { ks with start := x }, rfl, rfl, rfl, rfl, fun _ _ => rfl, fun _ => rfl⟩
  · rw [List.concat_eq_append] at *
    obtain ⟨h1, k, hk, _⟩ := chain_concat_iff.1 hc
    have hy : y ∉ P' := by
      have := List.nodup_append.1 hn
      intro hy
      exact this.2.2 hy (List.mem_singleton_self y)
    refine ⟨Function.update h y (some (k.withNext x)), ks, ?_, ?_, rfl, rfl, ?_, ?_⟩
    · simp [linkAfter, setNext_of_live hk]
    · refine chain_concat_iff.2 ⟨chain_congr ?_ h1, _, Function.update_same _ _ _, rfl⟩
      intro a ha
      exact Function.update_noteq (fun e => hy (by rw [← e]; exact ha)) _ _
    · intro a ha
      rw [List.getLast?_concat] at ha
      exact Function.update_noteq (fun e => ha (by rw [e])) _ _
    · intro a
      by_cases e : a = y
      · subst e
        simp [hk]
      · rw [Function.update_noteq e]

theorem szSub_succ (n : Nat) : szSub (n + 1) 1 = n := by
  simp [szSub]

theorem fixEnd_size (ks : KeySet) (c : Addr) (x : Option Addr) :
    (fixEnd ks c x).size = ks.size := by
  unfold fixEnd
  split <;> rfl

theorem fixEnd_start (ks : KeySet) (c : Addr) (x : Option Addr) :
    (fixEnd ks c x).start = ks.start := by
  unfold fixEnd
  split <;> rfl

/-- The `end` field after a key of the list has been dropped or replaced. -/
theorem fixEnd_last {ks : KeySet} {P S : List Addr} {c : Addr} (x : Option Addr)
    (hl : ks.end_ = (P ++ c :: S).getLast?) (hc : c ∉ S) :
    (fixEnd ks c x).end_ = if S = [] then x else S.getLast? := by
  unfold fixEnd
  cases S with
  | nil => simp [hl, List.getLast?_concat]
  | cons s S' =>
    have h1 : (P ++ c :: s :: S').getLast? = (s :: S').getLast? := by
      rw [List.getLast?_append_of_ne_nil P (by simp), List.getLast?_cons_cons]
    have h2 : (s :: S').getLast? ≠ some c := fun e => hc (List.mem_of_getLast?_eq_some e)
    rw [hl, h1, if_neg h2]
    simp only [reduceCtorEq, if_false]
    exact hl.trans h1

/-- Unlinking the key `c` from a well-formed key set. -/
theorem unlink_spec {h : Heap} {ks : KeySet} {P S : List Addr} {c : Addr} {kc : Key}
    (hr : KsRep h ks (P ++ c :: S)) (hn : (P ++ c :: S).Nodup) (hk : h c = some kc) :
    ∃ h' ks', linkAfter h ks P.getLast? kc.next = some (h', ks') ∧
      KsRep h' (decSize (fixEnd ks' c P.getLast?)) (P ++ S) ∧
      (∀ a, some a ≠ P.getLast? → h' a = h a) ∧
      (∀ a, (h' a).map Key.unlinked = (h a).map Key.unlinked) := by
  obtain ⟨m, hP, hcS⟩ := chain_append_iff.1 hr.chain
  obtain ⟨_, k, hk', hS⟩ := chain_cons_iff.1 hcS
  obtain rfl : k = kc := Option.some.inj (hk'.symm.trans hk)
  have hnd := List.nodup_append.1 hn
  have hcS' : c ∉ S := (List.nodup_cons.1 hnd.2.1).1
  obtain ⟨h', ks', hl, hch, he, hs, hfr, hd⟩ := linkAfter_spec k.next hP hnd.1
  refine ⟨h', ks', hl, ⟨?_, ?_, ?_⟩, hfr, hd⟩
  · refine chain_append_iff.2 ⟨k.next, by simpa [decSize, fixEnd_start] using hch,
      chain_congr ?_ hS⟩
    intro a ha
    refine hfr a (fun e => ?_)
    exact hnd.2.2 (List.mem_of_getLast?_eq_some e.symm) (List.mem_cons_of_mem _ ha)
  · show (fixEnd ks' c P.getLast?).end_ = _
    rw [fixEnd_last _ (he.trans hr.last) hcS']
    split
    · next e => simp [e]
    · next e => rw [List.getLast?_append_of_ne_nil P e]
  · show szSub (fixEnd ks' c P.getLast?).size 1 = _
    rw [fixEnd_size, hs, hr.size]
    simp only [List.length_append, List.length_cons]
    rw [← Nat.add_assoc, szSub_succ]

theorem getLast?_append_cons_eq (P S : List Addr) (c : Addr) :
    (P ++ c :: S).getLast? = if S = [] then some c else S.getLast? := by
  cases S with
  | nil => simp [List.getLast?_concat]
  | cons s S' =>
    rw [List.getLast?_append_of_ne_nil P (by simp), List.getLast?_cons_cons]
    simp

/-- Putting the key `c` in the place of the key `a` of a well-formed key set
and releasing `a`. -/
theorem replace_spec {h : Heap} {ks : KeySet} {D R : List Addr} {a c : Addr} {kc : Key}
    (hr : KsRep h ks (D ++ a :: R)) (hn : (D ++ a :: R).Nodup) (hc : c ∉ D ++ a :: R)
    (hk : h c = some kc) :
    ∃ h1 ks1 ka h2 h3, linkAfter h ks D.getLast? (some c) = some (h1, ks1) ∧
      h1 a = some ka ∧ h1.setNext c ka.next = some h2 ∧ h2.release a = some h3 ∧
      KsRep h3 (fixEnd ks1 a (some c)) (D ++ c :: R) ∧ h3 a = none ∧
      (∀ x, x ≠ a → x ≠ c → some x ≠ D.getLast? → h3 x = h x) ∧
      (∀ x, x ≠ a → (h3 x).map Key.unlinked = (h x).map Key.unlinked) := by
  obtain ⟨m, hD, haR⟩ := chain_append_iff.1 hr.chain
  obtain ⟨_, ka, hka, hR⟩ := chain_cons_iff.1 haR
  have hnd := List.nodup_append.1 hn
  have haR' : a ∉ R := (List.nodup_cons.1 hnd.2.1).1
  have haD : a ∉ D := fun e => hnd.2.2 e (List.mem_cons_self _ _)
  have hca : c ≠ a := fun e => hc (by simp [e])
  have hcD : c ∉ D := fun e => hc (by simp [e])
  have hcR : c ∉ R := fun e => hc (by simp [e])
  obtain ⟨h1, ks1, hl, hch, he, hs, hfr, hd⟩ := linkAfter_spec (some c) hD hnd.1
  have hlast : ∀ x, x ∉ D → some x ≠ D.getLast? :=
    fun x hx e => hx (List.mem_of_getLast?_eq_some e.symm)
  have h1a : h1 a = some ka := (hfr a (hlast a haD)).trans hka
  have h1c : h1 c = some kc := (hfr c (hlast c hcD)).trans hk
  refine ⟨h1, ks1, ka, _, _, hl, h1a, setNext_of_live h1c _,
    release_of_live (k := ka) ?_, ⟨?_, ?_, ?_⟩, ?_, ?_, ?_⟩
  · rw [Function.update_noteq hca.symm]; exact h1a
  · rw [fixEnd_start]
    refine chain_append_iff.2 ⟨some c, chain_congr ?_ hch, chain_cons_iff.2 ⟨rfl, kc.withNext ka.next, ?_, ?_⟩⟩
    · intro x hx
      rw [Function.update_noteq (ne_of_mem_of_not_mem hx haD),
        Function.update_noteq (ne_of_mem_of_not_mem hx hcD)]
    · rw [Function.update_noteq hca, Function.update_same]
    · refine chain_congr ?_ hR
      intro x hx
      rw [Function.update_noteq (ne_of_mem_of_not_mem hx haR'),
        Function.update_noteq (ne_of_mem_of_not_mem hx hcR)]
      refine hfr x (fun e => ?_)
      exact hnd.2.2 (List.mem_of_getLast?_eq_some e.symm) (List.mem_cons_of_mem _ hx)
  · rw [fixEnd_last _ (he.trans hr.last) haR', getLast?_append_cons_eq]
  · rw [fixEnd_size, hs, hr.size]
    simp
  · exact Function.update_same _ _ _
  · intro x hxa hxc hxl
    rw [Function.update_noteq hxa, Function.update_noteq hxc]
    exact hfr x hxl
  · intro x hxa
    rw [Function.update_noteq hxa]
    by_cases e : x = c
    · subst e
      rw [Function.update_same, ← hd x, h1c]
      rfl
    · rw [Function.update_noteq e]
      exact hd x

/-- Appending a key to a well-formed key set. -/
theorem ksAppend_spec {h : Heap} {ks : KeySet} {L : List Addr} {a : Addr} {ka : Key}
    (hr : KsRep h ks L) (hn : L.Nodup) (ha : a ∉ L) (hk : h a = some ka) :
    ∃ h' ks', ksAppend h ks a = some (h', ks', L.length + 1) ∧ KsRep h' ks' (L ++ [a]) ∧
      ks'.cursor = ks.cursor ∧
      (∀ x, x ≠ a → some x ≠ L.getLast? → h' x = h x) ∧
      (∀ x, (h' x).map Key.unlinked = (h x).map Key.unlinked) := by
  rcases List.eq_nil_or_concat L with rfl | ⟨L', y, rfl⟩
  · have hs : ks.start = none := by simpa [Chain] using hr.chain
    have he : ks.end_ = none := by simpa using hr.last
    have hz : ks.size = 0 := by simpa using hr.size
    refine ⟨Function.update h a (some (ka.withNext none)),
      { ks with start := some a, end_ := some a, size := 1 }, ?_, ⟨?_, ?_, ?_⟩, rfl, ?_, ?_⟩
    · simp [ksAppend, setNext_of_live hk, he, hs, hz]
    · exact chain_cons_iff.2 ⟨rfl, ka.withNext none, Function.update_same _ _ _, rfl⟩
    · simp
    · simp
    · intro x hx _
      exact Function.update_noteq hx _ _
    · intro x
      by_cases e : x = a
      · subst e; simp [hk]
      · rw [Function.update_noteq e]
  · rw [List.concat_eq_append] at *
    obtain ⟨hL, ky, hky, _⟩ := chain_concat_iff.1 hr.chain
    have hya : y ≠ a := fun e => ha (by simp [e])
    have haL : a ∉ L' := fun e => ha (by simp [e])
    have hyL : y ∉ L' := fun e => (List.nodup_append.1 hn).2.2 e (List.mem_singleton_self y)
    have he : ks.end_ = some y := by rw [hr.last, List.getLast?_concat]
    have hs : ks.start.isNone = false := by
      have := chain_head_eq hr.chain
      cases L' <;> simp [this]
    have h1y : Function.update h a (some (ka.withNext none)) y = some ky := by
      rw [Function.update_noteq hya]; exact hky
    refine ⟨Function.update (Function.update h a (some (ka.withNext none))) y
        (some (ky.withNext (some a))),
      { ks with end_ := some a, size := ks.size + 1 }, ?_, ⟨?_, ?_, ?_⟩, rfl, ?_, ?_⟩
    · simp [ksAppend, setNext_of_live hk, he, hs, setNext_of_live h1y, hr.size]
    · refine chain_concat_iff.2 ⟨chain_concat_iff.2 ⟨chain_congr ?_ hL, ky.withNext (some a),
        Function.update_same _ _ _, rfl⟩, ka.withNext none, ?_, rfl⟩
      · intro x hx
        rw [Function.update_noteq (ne_of_mem_of_not_mem hx hyL),
          Function.update_noteq (ne_of_mem_of_not_mem hx haL)]
      · rw [Function.update_noteq hya.symm, Function.update_same]
    · simp [List.getLast?_concat]
    · simp [hr.size]
    · intro x hxa hxl
      rw [List.getLast?_concat] at hxl
      rw [Function.update_noteq (fun e => hxl (by rw [e])), Function.update_noteq hxa]
    · intro x
      by_cases e : x = y
      · subst e
        rw [Function.update_same]
        simp [hky]
      · rw [Function.update_noteq e]
        by_cases e' : x = a
        · subst e'; simp [hk]
        · rw [Function.update_noteq e']

/-! ## The invariant of `ksCompare` -/

theorem keyCompare_unlinked (k1 k2 : Key) :
    keyCompare k1.unlinked k2.unlinked = keyCompare k1 k2 := by
  simp only [keyCompare, Key.unlinked]

theorem keyCompare_of_unlinked {k1 k2 j1 j2 : Key} (h1 : k1.unlinked = j1.unlinked)
    (h2 : k2.unlinked = j2.unlinked) : keyCompare k1 k2 = keyCompare j1 j2 := by
  rw [← keyCompare_unlinked k1 k2, ← keyCompare_unlinked j1 j2, h1, h2]

theorem cmpAt_congr {h h0 : Heap} {a b : Addr}
    (ha : (h a).map Key.unlinked = (h0 a).map Key.unlinked)
    (hb : (h b).map Key.unlinked = (h0 b).map Key.unlinked) : cmpAt h a b = cmpAt h0 a b := by
  unfold cmpAt
  cases h1 : h a <;> cases h2 : h0 a <;> cases h3 : h b <;> cases h4 : h0 b <;>
    simp_all [keyCompare_of_unlinked]
  exact keyCompare_of_unlinked ha hb

theorem findMatch_cons_false {m : Addr → Bool} {c : Addr} {l : List Addr} (hm : m c = false) :
    findMatch m (c :: l) =
      match findMatch m l with
      | some (p, b, s) => some (c :: p, b, s)
      | none => none := by
  simp [findMatch, hm]

theorem findMatch_cons_true {m : Addr → Bool} {c : Addr} {l : List Addr} (hm : m c = true) :
    findMatch m (c :: l) = some ([], c, l) := by
  simp [findMatch, hm]

theorem ksRep_congr {h h' : Heap} {ks : KeySet} {l : List Addr} (hr : KsRep h ks l)
    (hh : ∀ x ∈ l, h' x = h x) : KsRep h' ks l :=
  ⟨chain_congr hh hr.chain, hr.last, hr.size⟩

theorem nodup_drop_inc {D R P S Rm : List Addr} {c : Addr}
    (hn : ((D ++ R) ++ ((P ++ c :: S) ++ Rm)).Nodup) :
    ((D ++ R) ++ ((P ++ S) ++ Rm)).Nodup := by
  refine hn.sublist ?_
  simp

theorem nodup_swap_inc {D R P S Rm : List Addr} {a c : Addr}
    (hn : ((D ++ a :: R) ++ ((P ++ c :: S) ++ Rm)).Nodup) :
    ((D ++ c :: R) ++ ((P ++ S) ++ Rm)).Nodup := by
  have hp : ((D ++ a :: R) ++ ((P ++ c :: S) ++ Rm)).Perm
      (a :: ((D ++ c :: R) ++ ((P ++ S) ++ Rm))) := by
    rw [List.perm_iff_count]
    intro x
    simp only [List.count_append, List.count_cons]
    omega
  exact (List.nodup_cons.1 (hp.nodup_iff.1 hn)).2

theorem nodup_facts_ks1 {D R P S Rm : List Addr} {a c : Addr}
    (hn : ((D ++ a :: R) ++ ((P ++ c :: S) ++ Rm)).Nodup) :
    ∀ x ∈ D ++ a :: R, x ∉ P ∧ x ≠ c := by
  intro x hx
  have hd := (List.nodup_append.1 hn).2.2 hx
  constructor
  · intro h; exact hd (by simp [h])
  · intro h; exact hd (by simp [h])

theorem nodup_facts_rem {D R P S Rm : List Addr} {a c : Addr}
    (hn : ((D ++ a :: R) ++ ((P ++ c :: S) ++ Rm)).Nodup) :
    ∀ x ∈ Rm, x ∉ P ∧ x ≠ c ∧ x ≠ a ∧ x ∉ D := by
  intro x hx
  have h12 := List.nodup_append.1 hn
  have h2 := (List.nodup_append.1 h12.2.1).2.2
  have hx2 : x ∈ (P ++ c :: S) ++ Rm := by simp [hx]
  refine ⟨fun h => h2 (by simp [h]) hx, fun h => h2 (by simp [h]) hx,
    fun h => h12.2.2 (by simp [h]) hx2, fun h => h12.2.2 (by simp [h]) hx2⟩

theorem nodup_facts_inc {D R P S Rm : List Addr} {a c : Addr}
    (hn : ((D ++ a :: R) ++ ((P ++ c :: S) ++ Rm)).Nodup) :
    c ∉ P ∧ ∀ x ∈ P ++ S, x ≠ c ∧ x ≠ a ∧ x ∉ D := by
  have h12 := List.nodup_append.1 hn
  have h2 := (List.nodup_append.1 h12.2.1).1
  have hmid := (List.nodup_cons.1 (List.nodup_middle.1 h2)).1
  refine ⟨fun h => hmid (by simp [h]), fun x hx => ?_⟩
  have hx2 : x ∈ (P ++ c :: S) ++ Rm := by
    simp only [List.mem_append, List.mem_cons] at hx ⊢
    tauto
  exact ⟨fun h => hmid (h ▸ hx), fun h => h12.2.2 (by simp [h]) hx2,
    fun h => h12.2.2 (by simp [h]) hx2⟩

theorem nodup_a_fresh {D R P S Rm : List Addr} {a c : Addr}
    (hn : ((D ++ a :: R) ++ ((P ++ c :: S) ++ Rm)).Nodup) :
    a ∉ (D ++ c :: R) ++ ((P ++ S) ++ Rm) := by
  have hp : ((D ++ a :: R) ++ ((P ++ c :: S) ++ Rm)).Perm
      (a :: ((D ++ c :: R) ++ ((P ++ S) ++ Rm))) := by
    rw [List.perm_iff_count]
    intro y
    simp only [List.count_append, List.count_cons]
    omega
  exact (List.nodup_cons.1 (hp.nodup_iff.1 hn)).1

/-- The inner loop of `ksCompare` finds the first key of the second set that
matches the key `a`, unlinks it, and either releases it or puts it in the
place of `a`. It has no result only when the fuel does not cover the keys
still to visit or a comparison with one of them has no result. -/
theorem scan_spec (h0 : Heap) (D R Rm : List Addr) (a : Addr) :
    ∀ (S P : List Addr) (st : KsState) (fuel : Nat),
      Inv h0 st D (a :: R) (P ++ S) Rm →
      (ksCompareScan D.getLast? a fuel st P.getLast? S.head? = none ∧
          (fuel ≤ S.length ∨ ∃ b ∈ S, cmpAt h0 a b = none)) ∨
        match findMatch (matchAt h0 a) S with
        | none => ksCompareScan D.getLast? a fuel st P.getLast? S.head? = some (st, a, true)
        | some (P', b, S') =>
          ∃ st', ksCompareScan D.getLast? a fuel st P.getLast? S.head? =
              some (st', (if differAt h0 a b then b else a), false) ∧
            Inv h0 st' D ((if differAt h0 a b then b else a) :: R) (P ++ (P' ++ S')) Rm := by
  intro S
  induction S with
  | nil =>
    intro P st fuel _
    cases fuel with
    | zero => exact Or.inl ⟨by simp [ksCompareScan], Or.inl (Nat.le_refl _)⟩
    | succ f => exact Or.inr (by simp [findMatch, ksCompareScan])
  | cons c S1 ih =>
    intro P st fuel hI
    cases fuel with
    | zero => exact Or.inl ⟨by simp [ksCompareScan], Or.inl (Nat.zero_le _)⟩
    | succ f =>
    have hn := hI.nodup
    obtain ⟨ka, hka⟩ := chain_live hI.ks1.chain a (by simp)
    obtain ⟨m, hP, hcS⟩ := chain_append_iff.1 hI.ks2.chain
    obtain ⟨_, kc, hkc, hS1⟩ := chain_cons_iff.1 hcS
    have hnext : kc.next = S1.head? := chain_head_eq hS1
    have hce : cmpAt st.heap a c = cmpAt h0 a c :=
      cmpAt_congr (hI.data a (by simp)) (hI.data c (by simp))
    cases hfl : cmpAt h0 a c with
    | none =>
      have hkcmp : keyCompare ka kc = none := by
        rw [hfl] at hce
        simpa only [cmpAt, hka, hkc] using hce
      refine Or.inl ⟨?_, Or.inr ⟨c, List.mem_cons_self _ _, hfl⟩⟩
      simp only [List.head?_cons, ksCompareScan, hka, hkc, hkcmp, Option.bind_eq_bind,
        Option.some_bind, Option.none_bind]
    | some flags =>
    have hkcmp : keyCompare ka kc = some flags := by
      rw [hfl] at hce
      simpa only [cmpAt, hka, hkc] using hce
    have hmat : matchAt h0 a c = !(flags.hasKey || flags.hasDomain) := by
      simp [matchAt, hfl]
    have hdif : differAt h0 a c = decide (flags ≠ KeyFlags.zero) := by
      simp [differAt, hfl]
    by_cases hm : matchAt h0 a c = true
    · right
      rw [findMatch_cons_true hm]
      simp only [List.nil_append, List.head?_cons]
      have hnP : (P ++ c :: S1).Nodup := (List.nodup_append.1 (List.nodup_append.1 hn).2.1).1
      obtain ⟨h1, ks2', hl, hr2, hfr1, hd1⟩ := unlink_spec hI.ks2 hnP hkc
      have hPl : ∀ x, x ∉ P → some x ≠ P.getLast? :=
        fun x hx e => hx (List.mem_of_getLast?_eq_some e.symm)
      have hf1 := nodup_facts_ks1 hn
      have hf2 := nodup_facts_rem hn
      obtain ⟨hf3, hf4⟩ := nodup_facts_inc hn
      have h1c : h1 c = some kc := (hfr1 c (hPl c hf3)).trans hkc
      rw [hm] at hmat
      by_cases hz : flags = KeyFlags.zero
      · have hdf : differAt h0 a c = false := by simp [hdif, hz]
        simp only [hdf, Bool.false_eq_true, if_false]
        refine ⟨⟨Function.update h1 c none, st.ks1, decSize (fixEnd ks2' c P.getLast?),
          st.removed⟩, ?_, ?_⟩
        · simp only [ksCompareScan, hka, hkc, hkcmp, Option.bind_eq_bind, Option.some_bind,
            ← hmat, if_true, hl]
          rw [if_neg (not_not.2 hz)]
          simp only [release_of_live h1c, Option.some_bind]
        · constructor
          · exact ksRep_congr hI.ks1 (fun x hx =>
              (Function.update_noteq (hf1 x hx).2 _ _).trans (hfr1 x (hPl x (hf1 x hx).1)))
          · exact ksRep_congr hr2 (fun x hx => Function.update_noteq (hf4 x hx).1 _ _)
          · exact ksRep_congr hI.removed (fun x hx =>
              (Function.update_noteq (hf2 x hx).2.1 _ _).trans (hfr1 x (hPl x (hf2 x hx).1)))
          · exact nodup_drop_inc hn
          · intro x hx
            have hxc : x ≠ c := by
              simp only [List.mem_append, List.mem_cons] at hx hf1 hf2 hf4
              rcases hx with hx | (hx | hx)
              · exact (hf1 x hx).2
              · exact (hf4 x hx).1
              · exact (hf2 x hx).2.1
            show (Function.update h1 c none x).map Key.unlinked = _
            rw [Function.update_noteq hxc, hd1 x]
            refine hI.data x ?_
            simp only [List.mem_append, List.mem_cons] at hx ⊢
            tauto
      · have hdf : differAt h0 a c = true := by simp [hdif, hz]
        simp only [hdf, if_true]
        have hr1 : KsRep h1 st.ks1 (D ++ a :: R) :=
          ksRep_congr hI.ks1 (fun x hx => hfr1 x (hPl x (hf1 x hx).1))
        have hcn : c ∉ D ++ a :: R := fun e => (hf1 c e).2 rfl
        obtain ⟨h2, ks1', ka', h3, h4, hl2, hka', hs3, hs4, hr1', h4a, hfr4, hd4⟩ :=
          replace_spec hr1 (List.nodup_append.1 hn).1 hcn h1c
        have hDl : ∀ x, x ∉ D → some x ≠ D.getLast? :=
          fun x hx e => hx (List.mem_of_getLast?_eq_some e.symm)
        refine ⟨⟨h4, fixEnd ks1' a (some c), decSize (fixEnd ks2' c P.getLast?),
          st.removed⟩, ?_, ?_⟩
        · simp only [ksCompareScan, hka, hkc, hkcmp, Option.bind_eq_bind, Option.some_bind,
            ← hmat, if_true, hl]
          rw [if_pos hz]
          simp only [hl2, hka', hs3, hs4, Option.some_bind]
        · constructor
          · exact hr1'
          · exact ksRep_congr hr2 (fun x hx => hfr4 x (hf4 x hx).2.1 (hf4 x hx).1 (hDl x (hf4 x hx).2.2))
          · exact ksRep_congr hI.removed (fun x hx =>
              (hfr4 x (hf2 x hx).2.2.1 (hf2 x hx).2.1 (hDl x (hf2 x hx).2.2.2)).trans
                (hfr1 x (hPl x (hf2 x hx).1)))
          · exact nodup_swap_inc hn
          · intro x hx
            have hxa : x ≠ a := fun e => nodup_a_fresh hn (e ▸ hx)
            show (h4 x).map Key.unlinked = _
            rw [hd4 x hxa, hd1 x]
            refine hI.data x ?_
            simp only [List.mem_append, List.mem_cons] at hx ⊢
            tauto
    · have hm' : matchAt h0 a c = false := by simpa using hm
      rw [findMatch_cons_false hm']
      have hrec := ih (P ++ [c]) st f (by simpa using hI)
      rw [List.getLast?_concat, ← hnext] at hrec
      rw [hm'] at hmat
      have hstep : ksCompareScan D.getLast? a (f + 1) st P.getLast? (c :: S1).head? =
          ksCompareScan D.getLast? a f st (some c) kc.next := by
        simp only [List.head?_cons, ksCompareScan, hka, hkc, hkcmp, Option.bind_eq_bind,
          Option.some_bind, ← hmat, Bool.false_eq_true, if_false]
      rw [hstep]
      rcases hrec with ⟨hnone, hwhy⟩ | hrec
      · refine Or.inl ⟨hnone, ?_⟩
        rcases hwhy with hle | ⟨b, hb, hbn⟩
        · exact Or.inl (by simp only [List.length_cons]; omega)
        · exact Or.inr ⟨b, List.mem_cons_of_mem _ hb, hbn⟩
      right
      cases hfm : findMatch (matchAt h0 a) S1 with
      | none =>
        rw [hfm] at hrec
        exact hrec
      | some r =>
        obtain ⟨P', b, S'⟩ := r
        rw [hfm] at hrec
        obtain ⟨st', h1, h2⟩ := hrec
        exact ⟨st', h1, by simpa using h2⟩

theorem findMatch_eq {m : Addr → Bool} : ∀ {l p s : List Addr} {b : Addr},
    findMatch m l = some (p, b, s) → l = p ++ b :: s ∧ m b = true ∧ ∀ x ∈ p, m x = false
  | [], _, _, _, h => by simp [findMatch] at h
  | c :: l, p, s, b, h => by
    by_cases hm : m c = true
    · rw [findMatch_cons_true hm] at h
      simp only [Option.some.injEq, Prod.mk.injEq] at h
      obtain ⟨rfl, rfl, rfl⟩ := h
      simp [hm]
    · have hm' : m c = false := by simpa using hm
      rw [findMatch_cons_false hm'] at h
      cases hfm : findMatch m l with
      | none => simp [hfm] at h
      | some r =>
        obtain ⟨p', b', s'⟩ := r
        simp only [hfm, Option.some.injEq, Prod.mk.injEq] at h
        obtain ⟨rfl, rfl, rfl⟩ := h
        obtain ⟨h1, h2, h3⟩ := findMatch_eq hfm
        refine ⟨by simp [h1], h2, ?_⟩
        intro x hx
        rcases List.mem_cons.1 hx with rfl | hx
        · exact hm'
        · exact h3 x hx

theorem findMatch_none {m : Addr → Bool} : ∀ {l : List Addr},
    findMatch m l = none → ∀ x ∈ l, m x = false
  | [], _, x, hx => by simp at hx
  | c :: l, h, x, hx => by
    by_cases hm : m c = true
    · rw [findMatch_cons_true hm] at h
      simp at h
    · have hm' : m c = false := by simpa using hm
      rw [findMatch_cons_false hm'] at h
      cases hfm : findMatch m l with
      | none =>
        rcases List.mem_cons.1 hx with rfl | hx
        · exact hm'
        · exact findMatch_none hfm x hx
      | some r =>
        obtain ⟨p', b', s'⟩ := r
        simp [hfm] at h

/-- The pointer `ksCompare` continues with after a removal. -/
theorem chain_prev_next {h : Heap} {start : Option Addr} {D R : List Addr}
    (hc : Chain h start (D ++ R) none) :
    (match D.getLast? with
      | some p => (h p).bind fun prev => some prev.next
      | none => some start) = some R.head? := by
  rcases List.eq_nil_or_concat D with rfl | ⟨D', p, rfl⟩
  · simp [chain_head_eq hc]
  · rw [List.concat_eq_append] at *
    obtain ⟨m, h1, h2⟩ := chain_append_iff.1 hc
    obtain ⟨_, k, hk, hq⟩ := chain_concat_iff.1 h1
    simp [List.getLast?_concat, hk, hq, chain_head_eq h2]

theorem nodup_move_rem {D R L2 Rm : List Addr} {a : Addr}
    (hn : ((D ++ a :: R) ++ (L2 ++ Rm)).Nodup) :
    ((D ++ R) ++ (L2 ++ (Rm ++ [a]))).Nodup := by
  have hp : ((D ++ a :: R) ++ (L2 ++ Rm)).Perm ((D ++ R) ++ (L2 ++ (Rm ++ [a]))) := by
    rw [List.perm_iff_count]
    intro x
    simp only [List.count_append, List.count_cons, List.count_nil]
    omega
  exact hp.nodup_iff.1 hn

theorem nodup_facts_remove {D R L2 Rm : List Addr} {a : Addr}
    (hn : ((D ++ a :: R) ++ (L2 ++ Rm)).Nodup) :
    a ∉ D ∧ a ∉ R ∧ a ∉ L2 ∧ a ∉ Rm ∧ (∀ x ∈ Rm, x ∉ D) ∧ (∀ x ∈ L2, x ∉ D ∧ x ∉ Rm) ∧
      (∀ x ∈ D ++ R, x ∉ Rm) := by
  have h12 := List.nodup_append.1 hn
  have h1 := (List.nodup_cons.1 (List.nodup_middle.1 h12.1)).1
  have h2 := List.nodup_append.1 h12.2.1
  have ha : a ∈ D ++ a :: R := by simp
  have hd : ∀ x, x ∈ D ++ a :: R → x ∈ L2 ++ Rm → False := fun x p q => h12.2.2 p q
  refine ⟨fun h => h1 (by simp [h]), fun h => h1 (by simp [h]),
    fun h => hd a ha (by simp [h]), fun h => hd a ha (by simp [h]),
    fun x hx h => hd x (by simp [h]) (by simp [hx]),
    fun x hx => ⟨fun h => hd x (by simp [h]) (by simp [hx]), fun h => h2.2.2 hx h⟩,
    fun x hx h => hd x ?_ (by simp [h])⟩
  simp only [List.mem_append, List.mem_cons] at hx ⊢
  tauto

theorem inv_shift {h0 : Heap} {st : KsState} {D R L2 Rm : List Addr} {x : Addr}
    (hI : Inv h0 st D (x :: R) L2 Rm) : Inv h0 st (D ++ [x]) R L2 Rm :=
  ⟨by simpa using hI.ks1, hI.ks2, hI.removed, by simpa using hI.nodup,
    by simpa using hI.data⟩

/-- The outer loop of `ksCompare` computes `reconcileFrom` and keeps the
invariant. It has no result only when the fuel does not cover the keys of
both sets or a comparison has no result. -/
theorem loop_spec (h0 : Heap) :
    ∀ (R D L2 Rm : List Addr) (st : KsState) (fuel : Nat),
      Inv h0 st D R L2 Rm →
      (ksCompareLoop fuel st D.getLast? R.head? = none ∧
          (fuel ≤ R.length + L2.length ∨ ∃ a ∈ R, ∃ b ∈ L2, cmpAt h0 a b = none)) ∨
        ∃ st', ksCompareLoop fuel st D.getLast? R.head? = some st' ∧
          Inv h0 st' (reconcileFrom h0 D R L2 Rm).1 [] (reconcileFrom h0 D R L2 Rm).2.1
            (reconcileFrom h0 D R L2 Rm).2.2 := by
  intro R
  induction R with
  | nil =>
    intro D L2 Rm st fuel hI
    cases fuel with
    | zero => exact Or.inl ⟨by simp [ksCompareLoop], Or.inl (Nat.zero_le _)⟩
    | succ f => exact Or.inr ⟨st, by simp [ksCompareLoop], by simpa [reconcileFrom] using hI⟩
  | cons a R ih =>
    intro D L2 Rm st fuel hI
    cases fuel with
    | zero => exact Or.inl ⟨by simp [ksCompareLoop], Or.inl (Nat.zero_le _)⟩
    | succ f =>
    have hstart : st.ks2.start = L2.head? := chain_head_eq hI.ks2.chain
    have hscan := scan_spec h0 D R Rm a L2 [] st f (by simpa using hI)
    simp only [List.getLast?_nil, List.nil_append, ← hstart] at hscan
    rcases hscan with ⟨hnone, hwhy⟩ | hscan
    · refine Or.inl ⟨?_, ?_⟩
      · simp only [ksCompareLoop, List.head?_cons, hnone, Option.bind_eq_bind,
          Option.none_bind]
      · rcases hwhy with hle | ⟨b, hb, hbn⟩
        · exact Or.inl (by simp only [List.length_cons]; omega)
        · exact Or.inr ⟨a, List.mem_cons_self _ _, b, hb, hbn⟩
    cases hfm : findMatch (matchAt h0 a) L2 with
    | none =>
      rw [hfm] at hscan
      simp only at hscan
      have hn := hI.nodup
      obtain ⟨haD, haR, haL, haM, hMD, hL, hDR⟩ := nodup_facts_remove hn
      obtain ⟨ka, hka⟩ := chain_live hI.ks1.chain a (by simp)
      obtain ⟨h1, ks1', hl, hr1, hfr1, hd1⟩ := unlink_spec hI.ks1 (List.nodup_append.1 hn).1 hka
      have hDl : ∀ x, x ∉ D → some x ≠ D.getLast? :=
        fun x hx e => hx (List.mem_of_getLast?_eq_some e.symm)
      have hMl : ∀ x, x ∉ Rm → some x ≠ Rm.getLast? :=
        fun x hx e => hx (List.mem_of_getLast?_eq_some e.symm)
      have h1a : h1 a = some ka := (hfr1 a (hDl a haD)).trans hka
      have hrm1 : KsRep h1 st.removed Rm :=
        ksRep_congr hI.removed (fun x hx => hfr1 x (hDl x (hMD x hx)))
      have hnM : Rm.Nodup := (List.nodup_append.1 (List.nodup_append.1 hn).2.1).2.1
      obtain ⟨h2, rm', hap, hrm2, _, hfr2, hd2⟩ := ksAppend_spec hrm1 hnM haM h1a
      have hxa : ∀ x ∈ D ++ R, x ≠ a := by
        intro x hx e
        subst e
        rcases List.mem_append.1 hx with h | h
        · exact haD h
        · exact haR h
      have hr2 : KsRep h2 (decSize (fixEnd ks1' a D.getLast?)) (D ++ R) :=
        ksRep_congr hr1 (fun x hx => hfr2 x (hxa x hx) (hMl x (hDR x hx)))
      have hnx := chain_prev_next hr2.chain
      have hI2 : Inv h0 ⟨h2, decSize (fixEnd ks1' a D.getLast?), st.ks2, rm'⟩ D R L2
          (Rm ++ [a]) := by
        refine ⟨hr2, ?_, hrm2, nodup_move_rem hn, ?_⟩
        · refine ksRep_congr hI.ks2 (fun x hx => ?_)
          exact (hfr2 x (fun e => haL (e ▸ hx)) (hMl x (hL x hx).2)).trans
            (hfr1 x (hDl x (hL x hx).1))
        · intro x hx
          show (h2 x).map Key.unlinked = _
          rw [hd2 x, hd1 x]
          refine hI.data x ?_
          simp only [List.mem_append, List.mem_cons, List.mem_singleton] at hx ⊢
          tauto
      have hstep : ksCompareLoop (f + 1) st D.getLast? (a :: R).head? =
          ksCompareLoop f ⟨h2, decSize (fixEnd ks1' a D.getLast?), st.ks2, rm'⟩ D.getLast?
            R.head? := by
        simp only [ksCompareLoop, List.head?_cons, hscan, Option.bind_eq_bind, Option.some_bind,
          if_true, hka, hl, hap]
        cases hD : D.getLast? with
        | none =>
          rw [hD] at hnx
          simp only [Option.some.injEq] at hnx
          simp only [hnx]
        | some p =>
          rw [hD] at hnx
          cases hp : h2 p with
          | none => simp [hp] at hnx
          | some k =>
            simp only [hp, Option.some_bind, Option.some.injEq] at hnx
            simp only [hp, Option.some_bind, hnx]
      rw [hstep]
      rcases ih D L2 (Rm ++ [a]) _ f hI2 with ⟨hnone, hwhy⟩ | ⟨st', hrun, hI'⟩
      · refine Or.inl ⟨hnone, ?_⟩
        rcases hwhy with hle | ⟨x, hx, b, hb, hbn⟩
        · exact Or.inl (by simp only [List.length_cons]; omega)
        · exact Or.inr ⟨x, List.mem_cons_of_mem _ hx, b, hb, hbn⟩
      · exact Or.inr ⟨st', hrun, by simpa only [reconcileFrom, hfm] using hI'⟩
    | some r =>
      obtain ⟨P', b, S'⟩ := r
      rw [hfm] at hscan
      obtain ⟨st1, hrun1, hI1⟩ := hscan
      obtain ⟨hL2, _, _⟩ := findMatch_eq hfm
      obtain ⟨kx, hkx, hnx⟩ : ∃ kx, st1.heap (if differAt h0 a b then b else a) = some kx ∧
          kx.next = R.head? := by
        obtain ⟨m, _, h2⟩ := chain_append_iff.1 hI1.ks1.chain
        obtain ⟨_, k, hk, h3⟩ := chain_cons_iff.1 h2
        exact ⟨k, hk, chain_head_eq h3⟩
      have hlen : (P' ++ S').length < L2.length := by
        rw [hL2]; simp
      have hstep : ksCompareLoop (f + 1) st D.getLast? (a :: R).head? =
          ksCompareLoop f st1 (some (if differAt h0 a b then b else a)) R.head? := by
        simp only [ksCompareLoop, List.head?_cons, hrun1, Option.bind_eq_bind, Option.some_bind,
          Bool.false_eq_true, if_false, hkx, hnx]
      rw [hstep]
      have hrec := ih (D ++ [if differAt h0 a b then b else a]) (P' ++ S') Rm st1 f (inv_shift hI1)
      rw [List.getLast?_concat] at hrec
      rcases hrec with ⟨hnone, hwhy⟩ | ⟨st', hrun, hI'⟩
      · refine Or.inl ⟨hnone, ?_⟩
        rcases hwhy with hle | ⟨x, hx, y, hy, hyn⟩
        · exact Or.inl (by simp only [List.length_cons]; omega)
        · refine Or.inr ⟨x, List.mem_cons_of_mem _ hx, y, ?_, hyn⟩
          rw [hL2]
          simp only [List.mem_append, List.mem_cons] at hy ⊢
          tauto
      · exact Or.inr ⟨st', hrun, by simpa only [reconcileFrom, hfm] using hI'⟩

/-- Splicing a well-formed key set at the end of another one. -/
theorem ksAppendKeys_spec {h : Heap} {ks other : KeySet} {C I : List Addr}
    (hr : KsRep h ks C) (ho : KsRep h other I) (hn : (C ++ I).Nodup) :
    ∃ h' ks' other', ksAppendKeys h ks other = some (h', ks', other', C.length + I.length) ∧
      KsRep h' ks' (C ++ I) ∧ KsRep h' other' [] ∧
      other'.cursor = other.cursor ∧ ks'.cursor = ks.cursor ∧
      (∀ x, some x ≠ C.getLast? → h' x = h x) ∧
      (∀ x, (h' x).map Key.unlinked = (h x).map Key.unlinked) := by
  cases I with
  | nil =>
    have hz : other.size = 0 := by simpa using ho.size
    refine ⟨h, ks, other, ?_, by simpa using hr, ho, rfl, rfl, fun _ _ => rfl, fun _ => rfl⟩
    simp [ksAppendKeys, hz, hr.size]
  | cons i I' =>
    have hz : other.size ≠ 0 := by rw [ho.size]; simp
    have hempty : ∀ g : Heap, KsRep g { other with start := none, end_ := none, size := 0 } [] :=
      fun g => ⟨rfl, rfl, rfl⟩
    rcases List.eq_nil_or_concat C with rfl | ⟨C', y, rfl⟩
    · have he : ks.end_ = none := by simpa using hr.last
      have hs : ks.size = 0 := by simpa using hr.size
      refine ⟨h, { ks with end_ := other.end_, start := other.start, size := ks.size + other.size },
        _, ?_, ⟨?_, ?_, ?_⟩, hempty h, rfl, rfl, fun _ _ => rfl, fun _ => rfl⟩
      · simp [ksAppendKeys, hz, he, hs, ho.size]
      · simpa using ho.chain
      · simpa using ho.last
      · simp [hs, ho.size]
    · rw [List.concat_eq_append] at *
      obtain ⟨hC, ky, hky, _⟩ := chain_concat_iff.1 hr.chain
      have he : ks.end_ = some y := by rw [hr.last, List.getLast?_concat]
      have hnd := List.nodup_append.1 hn
      have hyC : y ∉ C' := fun e => (List.nodup_append.1 hnd.1).2.2 e (List.mem_singleton_self y)
      have hyI : y ∉ i :: I' := fun e => hnd.2.2 (by simp) e
      refine ⟨Function.update h y (some (ky.withNext other.start)),
        { ks with end_ := other.end_, size := ks.size + other.size }, _, ?_, ⟨?_, ?_, ?_⟩,
        hempty _, rfl, rfl, ?_, ?_⟩
      · simp [ksAppendKeys, hz, he, setNext_of_live hky, hr.size, ho.size]
      · refine chain_append_iff.2 ⟨other.start, chain_concat_iff.2 ⟨chain_congr ?_ hC,
          ky.withNext other.start, Function.update_same _ _ _, rfl⟩, chain_congr ?_ ho.chain⟩
        · intro x hx
          exact Function.update_noteq (ne_of_mem_of_not_mem hx hyC) _ _
        · intro x hx
          exact Function.update_noteq (ne_of_mem_of_not_mem hx hyI) _ _
      · show other.end_ = _
        rw [ho.last, List.getLast?_append_of_ne_nil _ (by simp)]
      · simp [hr.size, ho.size]
        omega
      · intro x hx
        rw [List.getLast?_concat] at hx
        exact Function.update_noteq (fun e => hx (by rw [e])) _ _
      · intro x
        by_cases e : x = y
        · subst e
          rw [Function.update_same]
          simp [hky]
        · rw [Function.update_noteq e]

/-- What holds of the state `st'` that `ksCompare` returns for the well-formed
state `st`: the first set holds the settled keys followed by the keys left in
the second set, the second set is empty, the removed set holds the removed
keys, no key occurs twice and the kept keys hold what they held before, links
apart. -/
theorem ksCompare_outcome {st : KsState} {cur inc rem : List Addr} (fuel : Nat)
    (hw : StRep st cur inc rem) :
    (ksCompare fuel st = none ∧
        (fuel ≤ cur.length + inc.length ∨ ¬ Comparable st.heap cur inc)) ∨
      ∃ st', ksCompare fuel st = some st' ∧
        KsRep st'.heap st'.ks1 ((reconcileFrom st.heap [] cur inc rem).1 ++
          (reconcileFrom st.heap [] cur inc rem).2.1) ∧
        KsRep st'.heap st'.ks2 [] ∧
        KsRep st'.heap st'.removed (reconcileFrom st.heap [] cur inc rem).2.2 ∧
        (∀ x ∈ (reconcileFrom st.heap [] cur inc rem).1 ++
            ((reconcileFrom st.heap [] cur inc rem).2.1 ++
              (reconcileFrom st.heap [] cur inc rem).2.2),
          (st'.heap x).map Key.unlinked = (st.heap x).map Key.unlinked) ∧
        ((reconcileFrom st.heap [] cur inc rem).1 ++
            ((reconcileFrom st.heap [] cur inc rem).2.1 ++
              (reconcileFrom st.heap [] cur inc rem).2.2)).Nodup := by
  have hI : Inv st.heap st [] cur inc rem :=
    ⟨by simpa using hw.ks1, hw.ks2, hw.removed, by simpa using hw.nodup, fun _ _ => rfl⟩
  have hstart : st.ks1.start = cur.head? := chain_head_eq hw.ks1.chain
  have hloop := loop_spec st.heap cur [] inc rem st fuel hI
  rw [List.getLast?_nil, ← hstart] at hloop
  rcases hloop with ⟨hnone, hwhy⟩ | ⟨st1, hrun, hI1⟩
  · refine Or.inl ⟨by simp only [ksCompare, hnone, Option.bind_eq_bind, Option.none_bind], ?_⟩
    rcases hwhy with hle | ⟨a, ha, b, hb, hn⟩
    · exact Or.inl hle
    · exact Or.inr (fun hc => by simpa [hn] using hc a ha b hb)
  right
  have hn := hI1.nodup
  simp only [List.append_nil] at hn
  have hnd := List.nodup_append.1 hn
  have hn2 := List.nodup_append.1 hnd.2.1
  have hCI : ((reconcileFrom st.heap [] cur inc rem).1 ++
      (reconcileFrom st.heap [] cur inc rem).2.1).Nodup := by
    refine List.nodup_append.2 ⟨hnd.1, hn2.1, fun x h1 h2 => hnd.2.2 h1 (by simp [h2])⟩
  obtain ⟨h', ks1', ks2', hap, hr1, hr2, _, _, hfr, hd⟩ :=
    ksAppendKeys_spec (by simpa using hI1.ks1) hI1.ks2 hCI
  refine ⟨⟨h', ks1', ks2', st1.removed⟩, ?_, hr1, hr2, ?_, ?_, hn⟩
  · simp only [ksCompare, hrun, Option.bind_eq_bind, Option.some_bind, hap]
  · refine ksRep_congr hI1.removed (fun x hx => hfr x (fun e => ?_))
    exact hnd.2.2 (List.mem_of_getLast?_eq_some e.symm) (by simp [hx])
  · intro x hx
    show (h' x).map Key.unlinked = _
    rw [hd x]
    refine hI1.data x ?_
    simp only [List.mem_append, List.append_nil] at hx ⊢
    tauto

/-- On well-formed key sets whose keys can be compared, `ksCompare` returns
when the fuel exceeds the number of keys of the first two sets. -/
theorem ksCompare_returns {st : KsState} {cur inc rem : List Addr} {fuel : Nat}
    (hw : StRep st cur inc rem) (hcmp : Comparable st.heap cur inc)
    (hf : cur.length + inc.length < fuel) : ∃ st', ksCompare fuel st = some st' := by
  rcases ksCompare_outcome fuel hw with ⟨_, hle | hnc⟩ | ⟨st', hrun, _⟩
  · omega
  · exact absurd hcmp hnc
  · exact ⟨st', hrun⟩

/-- Whenever `ksCompare` returns on well-formed key sets, the returned state
is the one described by `reconcileFrom`. -/
theorem ksCompare_spec {st st' : KsState} {cur inc rem : List Addr} {fuel : Nat}
    (hw : StRep st cur inc rem) (hrun : ksCompare fuel st = some st') :
    KsRep st'.heap st'.ks1 ((reconcileFrom st.heap [] cur inc rem).1 ++
        (reconcileFrom st.heap [] cur inc rem).2.1) ∧
      KsRep st'.heap st'.ks2 [] ∧
      KsRep st'.heap st'.removed (reconcileFrom st.heap [] cur inc rem).2.2 ∧
      (∀ x ∈ (reconcileFrom st.heap [] cur inc rem).1 ++
          ((reconcileFrom st.heap [] cur inc rem).2.1 ++
            (reconcileFrom st.heap [] cur inc rem).2.2),
        (st'.heap x).map Key.unlinked = (st.heap x).map Key.unlinked) ∧
      ((reconcileFrom st.heap [] cur inc rem).1 ++
          ((reconcileFrom st.heap [] cur inc rem).2.1 ++
            (reconcileFrom st.heap [] cur inc rem).2.2)).Nodup := by
  rcases ksCompare_outcome fuel hw with ⟨hnone, _⟩ | ⟨st'', hrun', hall⟩
  · rw [hnone] at hrun
    simp at hrun
  · rw [hrun'] at hrun
    obtain rfl : st'' = st' := Option.some.inj hrun
    exact hall

/-! ## Properties of the reconciliation on lists -/

theorem reconcileFrom_nil_inc (h : Heap) : ∀ (R D Rm : List Addr),
    reconcileFrom h D R [] Rm = (D, [], Rm ++ R)
  | [], D, Rm => by simp [reconcileFrom]
  | a :: R, D, Rm => by
    simp [reconcileFrom, findMatch, reconcileFrom_nil_inc h R D (Rm ++ [a])]

theorem reconcileFrom_inc_sublist (h : Heap) : ∀ (R D L2 Rm : List Addr),
    (reconcileFrom h D R L2 Rm).2.1.Sublist L2
  | [], D, L2, Rm => by simp [reconcileFrom]
  | a :: R, D, L2, Rm => by
    cases hfm : findMatch (matchAt h a) L2 with
    | none =>
      simp only [reconcileFrom, hfm]
      exact reconcileFrom_inc_sublist h R D L2 (Rm ++ [a])
    | some r =>
      obtain ⟨P, b, S⟩ := r
      simp only [reconcileFrom, hfm]
      refine (reconcileFrom_inc_sublist h R _ (P ++ S) Rm).trans ?_
      rw [(findMatch_eq hfm).1]
      simp

theorem reconcileFrom_matched (h : Heap) : ∀ (R D L2 Rm : List Addr),
    ∀ b ∈ L2, b ∉ (reconcileFrom h D R L2 Rm).2.1 → ∃ a ∈ R, matchAt h a b = true
  | [], D, L2, Rm => by
    intro b hb hn
    simp [reconcileFrom] at hn
    exact absurd hb hn
  | a :: R, D, L2, Rm => by
    intro b hb hn
    cases hfm : findMatch (matchAt h a) L2 with
    | none =>
      simp only [reconcileFrom, hfm] at hn
      obtain ⟨a', ha', hm⟩ := reconcileFrom_matched h R D L2 (Rm ++ [a]) b hb hn
      exact ⟨a', List.mem_cons_of_mem _ ha', hm⟩
    | some r =>
      obtain ⟨P, c, S⟩ := r
      simp only [reconcileFrom, hfm] at hn
      obtain ⟨hL, hm, _⟩ := findMatch_eq hfm
      by_cases hbc : b = c
      · subst hbc
        exact ⟨a, List.mem_cons_self _ _, hm⟩
      · have hb' : b ∈ P ++ S := by
          rw [hL] at hb
          simp only [List.mem_append, List.mem_cons] at hb ⊢
          tauto
        obtain ⟨a', ha', hm'⟩ := reconcileFrom_matched h R _ (P ++ S) Rm b hb' hn
        exact ⟨a', List.mem_cons_of_mem _ ha', hm'⟩

theorem reconcileFrom_kept (h : Heap) : ∀ (R D L2 Rm : List Addr),
    ∀ x ∈ (reconcileFrom h D R L2 Rm).1,
      x ∈ D ∨ x ∈ R ∨ (x ∈ L2 ∧ ∃ a ∈ R, matchAt h a x = true)
  | [], D, L2, Rm => by
    intro x hx
    simp [reconcileFrom] at hx
    exact Or.inl hx
  | a :: R, D, L2, Rm => by
    intro x hx
    cases hfm : findMatch (matchAt h a) L2 with
    | none =>
      simp only [reconcileFrom, hfm] at hx
      rcases reconcileFrom_kept h R D L2 (Rm ++ [a]) x hx with h1 | h1 | ⟨h1, a', ha', hm⟩
      · exact Or.inl h1
      · exact Or.inr (Or.inl (List.mem_cons_of_mem _ h1))
      · exact Or.inr (Or.inr ⟨h1, a', List.mem_cons_of_mem _ ha', hm⟩)
    | some r =>
      obtain ⟨P, c, S⟩ := r
      simp only [reconcileFrom, hfm] at hx
      obtain ⟨hL, hm, _⟩ := findMatch_eq hfm
      have hsub : ∀ y ∈ P ++ S, y ∈ L2 := by
        intro y hy
        rw [hL]
        simp only [List.mem_append, List.mem_cons] at hy ⊢
        tauto
      rcases reconcileFrom_kept h R _ (P ++ S) Rm x hx with h1 | h1 | ⟨h1, a', ha', hm'⟩
      · rcases List.mem_append.1 h1 with h2 | h2
        · exact Or.inl h2
        · rw [List.mem_singleton] at h2
          split at h2
          · refine Or.inr (Or.inr ⟨?_, a, List.mem_cons_self _ _, h2 ▸ hm⟩)
            rw [hL, h2]; simp
          · exact Or.inr (Or.inl (h2 ▸ List.mem_cons_self _ _))
      · exact Or.inr (Or.inl (List.mem_cons_of_mem _ h1))
      · exact Or.inr (Or.inr ⟨hsub x h1, a', List.mem_cons_of_mem _ ha', hm'⟩)

theorem reconcileFrom_kept_length (h : Heap) : ∀ (R D L2 Rm : List Addr),
    (reconcileFrom h D R L2 Rm).1.length ≤ D.length + R.length
  | [], D, L2, Rm => by simp [reconcileFrom]
  | a :: R, D, L2, Rm => by
    cases hfm : findMatch (matchAt h a) L2 with
    | none =>
      simp only [reconcileFrom, hfm]
      have := reconcileFrom_kept_length h R D L2 (Rm ++ [a])
      simp only [List.length_cons]
      omega
    | some r =>
      obtain ⟨P, c, S⟩ := r
      simp only [reconcileFrom, hfm]
      have := reconcileFrom_kept_length h R (D ++ [if differAt h a c then c else a]) (P ++ S) Rm
      simp only [List.length_append, List.length_cons, List.length_nil] at this ⊢
      omega

/-! ## The claims on `ksCompare` -/

/-- C1, at a failing input. In `stCommented` the current key at address 1 and
the incoming key at address 3 have equal names and equal (absent) owner
domains, and differ in the comment only; in `stScenarioA` the same two keys
without the comment are matched. `ksCompare` does not match the commented
pair: the current key is moved to `removed` and the incoming one is appended
after the other current key. -/
theorem ksCompare_comment_breaks_match :
    fullNameAt stCommented.heap 1 = fullNameAt stCommented.heap 3 ∧
      matchAt stScenarioA.heap 1 3 = true ∧
      matchAt stCommented.heap 1 3 = false ∧
      (ksCompare 8 stCommented).map KsState.view =
        some (([2, 3], { start := some 2, end_ := some 3, size := 2 }),
          ([], { start := none, end_ := none, size := 0 }),
          ([1], { start := some 1, end_ := some 1, size := 1 })) := by
  decide

/-- C2, at a failing input. In `stShadowed` the keys of each set have pairwise
distinct full names (name and owner domain), the current key at address 1 and
the incoming key at address 3 compare equal (`keyCompare` returns the empty
bitset), and after `ksCompare` the incoming key at address 3 is the last key
of `current`: the key released instead is the one at address 2. -/
theorem ksCompare_equal_key_survives :
    ([2, 3].map (fullNameAt stShadowed.heap)).Nodup ∧
      cmpAt stShadowed.heap 1 3 = some KeyFlags.zero ∧
      (ksCompare 8 stShadowed).map KsState.view =
        some (([1, 3], { start := some 1, end_ := some 3, size := 2 }),
          ([], { start := none, end_ := none, size := 0 }),
          ([], { start := none, end_ := none, size := 0 })) ∧
      (ksCompare 8 stShadowed).map (fun st => st.heap 2) = some none := by
  decide

/-- C3, at a failing input. In `stCommented` the current key at address 1 and
the incoming key at address 3 have the same name and the same (absent) owner
domain and differ in the comment. After `ksCompare` the incoming key is not
at position 0 of `current`, where the current key stood, but at position 1,
and the current key is in `removed`. -/
theorem ksCompare_changed_key_not_in_place :
    fullNameAt stCommented.heap 1 = fullNameAt stCommented.heap 3 ∧
      cmpAt stCommented.heap 1 3 ≠ some KeyFlags.zero ∧
      (ksCompare 8 stCommented).map (fun st => chainFrom st.heap 16 st.ks1.start) =
        some [2, 3] ∧
      (ksCompare 8 stCommented).map (fun st => chainFrom st.heap 16 st.removed.start) =
        some [1] := by
  decide

/-- C4, at a failing input. In `stOwned` no key of `incoming` has the name and
the owner domain of the current key at address 1 (the incoming key has the
owner domain `bob`, the current one has none). After `ksCompare` the current
key is still in `current` and `removed` is empty. -/
theorem ksCompare_unmatched_key_stays :
    fullNameAt stOwned.heap 1 ∉ [2].map (fullNameAt stOwned.heap) ∧
      (ksCompare 8 stOwned).map KsState.view =
        some (([1], { start := some 1, end_ := some 1, size := 1 }),
          ([], { start := none, end_ := none, size := 0 }),
          ([], { start := none, end_ := none, size := 0 })) := by
  decide

/-- C5. On well-formed key sets `ksCompare` returns (given fuel for the keys
of both sets and keys that can be compared), and whenever it returns,
`current` holds the keys it kept or took over, followed by the keys of
`incoming` it matched with no key of `current`, in the order they had in
`incoming`. The keys before this tail are at most as many as `current` had
and each of them is a key of `current` or an incoming key matching one; every
incoming key outside the tail matches a key of `current`; no key occurs twice
and the keys of the tail hold what they held before. -/
theorem ksCompare_appends_unmatched (st : KsState) (cur inc rem : List Addr) (fuel : Nat)
    (hw : StRep st cur inc rem) :
    (Comparable st.heap cur inc → cur.length + inc.length < fuel →
        ∃ st', ksCompare fuel st = some st') ∧
      ∀ st', ksCompare fuel st = some st' →
        KsRep st'.heap st'.ks1 (keptOf st cur inc rem ++ unmatchedOf st cur inc rem) ∧
        (unmatchedOf st cur inc rem).Sublist inc ∧
        (keptOf st cur inc rem).length ≤ cur.length ∧
        (∀ x ∈ keptOf st cur inc rem,
          x ∈ cur ∨ (x ∈ inc ∧ ∃ a ∈ cur, matchAt st.heap a x = true)) ∧
        (∀ b ∈ inc, b ∉ unmatchedOf st cur inc rem → ∃ a ∈ cur, matchAt st.heap a b = true) ∧
        (keptOf st cur inc rem ++ unmatchedOf st cur inc rem).Nodup ∧
        (∀ b ∈ unmatchedOf st cur inc rem,
          (st'.heap b).map Key.unlinked = (st.heap b).map Key.unlinked) := by
  refine ⟨fun hcmp hf => ksCompare_returns hw hcmp hf, fun st' hrun => ?_⟩
  obtain ⟨hr1, _, _, hd, hn⟩ := ksCompare_spec hw hrun
  refine ⟨hr1, reconcileFrom_inc_sublist _ _ _ _ _, ?_, ?_,
    reconcileFrom_matched _ _ _ _ _, ?_, ?_⟩
  · simpa using reconcileFrom_kept_length st.heap cur [] inc rem
  · intro x hx
    simpa using reconcileFrom_kept st.heap cur [] inc rem x hx
  · rw [← List.append_assoc] at hn
    exact (List.nodup_append.1 hn).1
  · intro b hb
    exact hd b (by simp only [List.mem_append]; exact Or.inr (Or.inl hb))

/-- Scenario A of the spec as an instance of C5: `current = [system/a=1,
system/b=2]` and `incoming = [system/a=1, system/c=3]` give `current =
[system/a=1, system/c=3]` and `removed = [system/b=2]`. -/
theorem ksCompare_appends_unmatched_witness :
    StRep stScenarioA [1, 2] [3, 4] [] ∧ Comparable stScenarioA.heap [1, 2] [3, 4] ∧
      keptOf stScenarioA [1, 2] [3, 4] [] = [1] ∧
      unmatchedOf stScenarioA [1, 2] [3, 4] [] = [4] ∧
      removedOf stScenarioA [1, 2] [3, 4] [] = [2] ∧
      (ksCompare 8 stScenarioA).map KsState.view =
        some (([1, 4], { start := some 1, end_ := some 4, size := 2 }),
          ([], { start := none, end_ := none, size := 0 }),
          ([2], { start := some 2, end_ := some 2, size := 1 })) ∧
      ∃ st', ksCompare 8 stScenarioA = some st' ∧
        KsRep st'.heap st'.ks1
          (keptOf stScenarioA [1, 2] [3, 4] [] ++ unmatchedOf stScenarioA [1, 2] [3, 4] []) ∧
        (unmatchedOf stScenarioA [1, 2] [3, 4] []).Sublist [3, 4] ∧
        (keptOf stScenarioA [1, 2] [3, 4] []).length ≤ [1, 2].length ∧
        (∀ x ∈ keptOf stScenarioA [1, 2] [3, 4] [],
          x ∈ [1, 2] ∨ (x ∈ [3, 4] ∧ ∃ a ∈ [1, 2], matchAt stScenarioA.heap a x = true)) ∧
        (∀ b ∈ [3, 4], b ∉ unmatchedOf stScenarioA [1, 2] [3, 4] [] →
          ∃ a ∈ [1, 2], matchAt stScenarioA.heap a b = true) ∧
        (keptOf stScenarioA [1, 2] [3, 4] [] ++ unmatchedOf stScenarioA [1, 2] [3, 4] []).Nodup ∧
        (∀ b ∈ unmatchedOf stScenarioA [1, 2] [3, 4] [],
          (st'.heap b).map Key.unlinked = (stScenarioA.heap b).map Key.unlinked) :=
  ⟨by decide, by decide, by decide, by decide, by decide, by decide,
    ((ksCompare_appends_unmatched stScenarioA [1, 2] [3, 4] [] 8 (by decide)).1
        (by decide) (by decide)).elim
      fun st' hrun =>
        ⟨st', hrun,
          (ksCompare_appends_unmatched stScenarioA [1, 2] [3, 4] [] 8 (by decide)).2 st' hrun⟩⟩

/-- C6. On well-formed key sets `ksCompare` returns (given fuel for the keys
of both sets and keys that can be compared), and whenever it returns,
`incoming` is empty: its size is 0 and it has no first and no last key. -/
theorem ksCompare_empties_incoming (st : KsState) (cur inc rem : List Addr) (fuel : Nat)
    (hw : StRep st cur inc rem) :
    (Comparable st.heap cur inc → cur.length + inc.length < fuel →
        ∃ st', ksCompare fuel st = some st') ∧
      ∀ st', ksCompare fuel st = some st' →
        st'.ks2.size = 0 ∧ st'.ks2.start = none ∧ st'.ks2.end_ = none := by
  refine ⟨fun hcmp hf => ksCompare_returns hw hcmp hf, fun st' hrun => ?_⟩
  obtain ⟨_, hr2, _⟩ := ksCompare_spec hw hrun
  exact ⟨by simpa using hr2.size, by simpa [Chain] using hr2.chain, by simpa using hr2.last⟩

/-- An instance of C6: scenario A of the spec. -/
theorem ksCompare_empties_incoming_witness :
    StRep stScenarioA [1, 2] [3, 4] [] ∧ Comparable stScenarioA.heap [1, 2] [3, 4] ∧
      ∃ st', ksCompare 8 stScenarioA = some st' ∧
        st'.ks2.size = 0 ∧ st'.ks2.start = none ∧ st'.ks2.end_ = none :=
  ⟨by decide, by decide,
    ((ksCompare_empties_incoming stScenarioA [1, 2] [3, 4] [] 8 (by decide)).1
        (by decide) (by decide)).elim
      fun st' hrun =>
        ⟨st', hrun,
          (ksCompare_empties_incoming stScenarioA [1, 2] [3, 4] [] 8 (by decide)).2 st' hrun⟩⟩

/-- C7, at a failing input. In `stCommented` the full names within each set
are pairwise distinct, `removed` is empty, no full name occurs in one set
only and two occur in both, so that the claimed sum is 2; after `ksCompare`
the sizes of `current` and `removed` add up to 3. -/
theorem ksCompare_size_sum_exceeds :
    ([1, 2].map (fullNameAt stCommented.heap)).Nodup ∧
      ([3, 4].map (fullNameAt stCommented.heap)).Nodup ∧
      countOnly stCommented.heap [1, 2] [3, 4] + countCommon stCommented.heap [1, 2] [3, 4] +
        countOnly stCommented.heap [3, 4] [1, 2] = 2 ∧
      (ksCompare 8 stCommented).map (fun st => st.ks1.size + st.removed.size) = some 3 := by
  decide

/-- C8. When `incoming` and `removed` are empty, `ksCompare` returns (given
fuel for the keys of `current`), and whenever it returns, every key of
`current` is in `removed`, in the order they had in `current`: the size of
`removed` is the size `current` had, `current` is empty (size 0, no first and
no last key) and the keys hold what they held before, links apart. -/
theorem ksCompare_empty_incoming (st : KsState) (cur : List Addr) (fuel : Nat)
    (hw : StRep st cur [] []) :
    (cur.length < fuel → ∃ st', ksCompare fuel st = some st') ∧
      ∀ st', ksCompare fuel st = some st' →
        KsRep st'.heap st'.removed cur ∧ st'.removed.size = st.ks1.size ∧
        st'.ks1.size = 0 ∧ st'.ks1.start = none ∧ st'.ks1.end_ = none ∧
        (∀ x ∈ cur, (st'.heap x).map Key.unlinked = (st.heap x).map Key.unlinked) := by
  refine ⟨fun hf => ksCompare_returns hw (fun _ _ b hb => by simp at hb) (by simpa using hf),
    fun st' hrun => ?_⟩
  obtain ⟨hr1, _, hr3, hd, _⟩ := ksCompare_spec hw hrun
  rw [reconcileFrom_nil_inc] at hr1 hr3 hd
  simp only [List.nil_append, List.append_nil] at hr1 hr3 hd
  exact ⟨hr3, by rw [hr3.size, hw.ks1.size], by simpa using hr1.size,
    by simpa [Chain] using hr1.chain, by simpa using hr1.last, hd⟩

/-- An instance of C8: two keys, nothing incoming. -/
theorem ksCompare_empty_incoming_witness :
    StRep stNoIncoming [1, 2] [] [] ∧
      ∃ st', ksCompare 3 stNoIncoming = some st' ∧
        KsRep st'.heap st'.removed [1, 2] ∧ st'.removed.size = stNoIncoming.ks1.size ∧
        st'.ks1.size = 0 ∧ st'.ks1.start = none ∧ st'.ks1.end_ = none ∧
        (∀ x ∈ [1, 2],
          (st'.heap x).map Key.unlinked = (stNoIncoming.heap x).map Key.unlinked) :=
  ⟨by decide,
    ((ksCompare_empty_incoming stNoIncoming [1, 2] 3 (by decide)).1 (by decide)).elim
      fun st' hrun =>
        ⟨st', hrun, (ksCompare_empty_incoming stNoIncoming [1, 2] 3 (by decide)).2 st' hrun⟩⟩

/-! ## Lemmas on buffers -/

theorem realloc_length (old : Option CStr) (n : Nat) : (realloc old n).length = n := by
  cases old <;> simp [realloc, rawBuf]
  omega

theorem writeAt_eq {buf src : List Char} {off : Nat} (h : off + src.length ≤ buf.length) :
    writeAt buf off src = buf.take off ++ src ++ buf.drop (off + src.length) := by
  unfold writeAt
  apply List.take_of_length_le
  simp only [List.length_append, List.length_take, List.length_drop]
  omega

theorem writeAt_length (buf src : List Char) (off : Nat) :
    (writeAt buf off src).length = buf.length := by
  unfold writeAt
  simp only [List.length_take, List.length_append, List.length_drop]
  omega

theorem cstrOf_append_nul {s : CStr} (r : List Char) (h : NUL ∉ s) :
    cstrOf (s ++ NUL :: r) = s := by
  unfold cstrOf
  induction s with
  | nil => simp [List.takeWhile]
  | cons c s ih =>
    have hc : c ≠ NUL := fun e => h (by simp [e])
    have hs : NUL ∉ s := fun e => h (by simp [e])
    have hb : (c != NUL) = true := by simp [hc]
    simp [List.takeWhile, hb, ih hs]

theorem szSub_of_le {a b : Nat} (h : b ≤ a) : szSub a b = a - b := by
  simp [szSub, h]

theorem trailingDelimLoop_length {s : CStr} (h : s ≠ []) :
    trailingDelimLoop s (strlen s) = strlen s := by
  unfold strlen
  cases hl : s.length with
  | zero => exact absurd (List.length_eq_zero.1 hl) h
  | succ n =>
    have : charAt s (n + 1) = NUL := by
      unfold charAt
      exact List.getD_eq_default _ _ (by omega)
    simp only [trailingDelimLoop, this]
    rw [if_neg (by decide)]

/-- The name buffer of the `user` branch holds `user`, the part of the given
name after its root, and the terminator. -/
theorem userNameBuf_eq (old : Option CStr) (newName : CStr) (rootLength : Nat)
    (hr : rootLength ≤ newName.length) :
    userNameBuf old newName (5 + (newName.drop rootLength).length) 4 rootLength
        (strlen newName) =
      "user".toList ++ newName.drop rootLength ++ [NUL] := by
  unfold strlen
  have hlt : (newName.drop rootLength).length = newName.length - rootLength := List.length_drop _ _
  unfold userNameBuf
  simp only [szSub_of_le hr]
  have h0 : (realloc old (5 + (newName.drop rootLength).length)).length =
      5 + (newName.drop rootLength).length := realloc_length _ _
  generalize realloc old (5 + (newName.drop rootLength).length) = buf0 at h0
  have h1 : strcpy buf0 0 "user".toList = "user".toList ++ NUL :: buf0.drop 5 := by
    unfold strcpy
    rw [writeAt_eq (by simp; omega)]
    simp
  rw [h1]
  generalize hb1 : "user".toList ++ NUL :: buf0.drop 5 = buf1
  have hl1 : buf1.length = 5 + (newName.drop rootLength).length := by
    rw [← hb1]
    simp only [List.length_append, List.length_cons, List.length_drop, h0]
    simp
    omega
  have ht4 : buf1.take 4 = "user".toList := by
    rw [← hb1]
    simp
  have h2 : strncpy buf1 4 (newName.drop rootLength) (newName.length - rootLength) =
      "user".toList ++ newName.drop rootLength ++
        buf1.drop (4 + (newName.drop rootLength).length) := by
    unfold strncpy
    rw [← hlt, List.take_length, Nat.sub_self, List.replicate_zero, List.append_nil,
      writeAt_eq (by omega), ht4]
  rw [h2]
  obtain ⟨x, hx⟩ : ∃ x, buf1.drop (4 + (newName.drop rootLength).length) = [x] :=
    List.length_eq_one.1 (by rw [List.length_drop, hl1]; omega)
  have hidx : 5 + (newName.drop rootLength).length - 1 -
      ("user".toList ++ newName.drop rootLength).length = 0 := by
    have : "user".toList.length = 4 := rfl
    rw [List.length_append, this]
    omega
  rw [hx, szSub_of_le (by omega), List.set_append_right _ _ (by
    have : "user".toList.length = 4 := rfl
    rw [List.length_append, this]
    omega), hidx]
  rfl

/-- The owner domain buffer of the `user:` branch holds the first
`userDomainLength` characters after the colon and the terminator. -/
theorem userDomainBuf_eq (old : Option CStr) (newName : CStr) (n : Nat)
    (hn : n ≤ (newName.drop 5).length) :
    userDomainBuf old newName 4 n = (newName.drop 5).take n ++ [NUL] := by
  unfold userDomainBuf
  have h0 : (realloc old (n + 1)).length = n + 1 := realloc_length _ _
  generalize realloc old (n + 1) = buf0 at h0
  have hl : ((newName.drop 5).take n).length = n := by
    rw [List.length_take]; omega
  have h1 : strncpy buf0 0 (newName.drop (4 + 1)) n = (newName.drop 5).take n ++ buf0.drop n := by
    unfold strncpy
    rw [Nat.sub_eq_zero_of_le hn, List.replicate_zero, List.append_nil,
      writeAt_eq (by rw [hl]; omega), hl]
    simp
  show (strncpy buf0 0 (newName.drop (4 + 1)) n).set n NUL = _
  rw [h1]
  obtain ⟨x, hx⟩ : ∃ x, buf0.drop n = [x] :=
    List.length_eq_one.1 (by rw [List.length_drop, h0]; omega)
  rw [hx, List.set_append_right _ _ (by rw [hl]), hl, Nat.sub_self]
  rfl

@[simp] theorem setKey_userDomain (k : Key) (x : Option CStr) :
    (k.setKey x).userDomain = k.userDomain := rfl

@[simp] theorem setUserDomain_userDomain (k : Key) (x : Option CStr) :
    (k.setUserDomain x).userDomain = x := rfl

@[simp] theorem setUserDomain_key (k : Key) (x : Option CStr) :
    (k.setUserDomain x).key = k.key := rfl

@[simp] theorem setKey_key (k : Key) (x : Option CStr) : (k.setKey x).key = x := rfl

@[simp] theorem flagNamed_key (k : Key) : k.flagNamed.key = k.key := rfl

@[simp] theorem flagNamed_userDomain (k : Key) : k.flagNamed.userDomain = k.userDomain := rfl

theorem keyNameGetRootNameSize_of_delim {r t : CStr} (hr : RG_KEY_DELIM ∉ r) :
    keyNameGetRootNameSize (r ++ RG_KEY_DELIM :: t) = r.length := by
  unfold keyNameGetRootNameSize strchr strlen
  have hm : RG_KEY_DELIM ∈ r ++ RG_KEY_DELIM :: t := by simp
  simp only [List.length_append, List.length_cons, hm, if_true]
  rw [if_neg (by omega), List.indexOf_append_of_not_mem hr]
  simp

theorem keySetName_user_domain_eq (env : Env) (key : Key) (d p : CStr)
    (hd : d ≠ []) (hslash : RG_KEY_DELIM ∉ d) (hnd : NUL ∉ d) (hnp : NUL ∉ p) :
    keySetName env (some key) (some ("user:".toList ++ d ++ RG_KEY_DELIM :: p)) =
      { key := some
          ((((if keyIsInitialized key then key else keyInit env key).setUserDomain
            (some d)).setKey (some ("user/".toList ++ p))).flagNamed),
        ret := strblen ("user/".toList ++ p) } := by
  generalize hNN : "user:".toList ++ d ++ RG_KEY_DELIM :: p = N
  have hN : N = 'u' :: 's' :: 'e' :: 'r' :: ':' :: (d ++ RG_KEY_DELIM :: p) := by
    rw [← hNN]; simp
  have hlen : strlen N = d.length + p.length + 6 := by
    rw [hN]; simp [strlen]; omega
  have hne : N ≠ [] := by rw [hN]; simp
  have hroot : keyNameGetRootNameSize N = 5 + d.length := by
    rw [← hNN, keyNameGetRootNameSize_of_delim]
    · simp; omega
    · intro h
      rcases List.mem_append.1 h with h | h
      · revert h; decide
      · exact hslash h
  have hdl : 0 < d.length := List.length_pos.2 hd
  have hudl : szSub (szSub (5 + d.length) 4) 1 = d.length := by
    have e1 : szSub (5 + d.length) 4 = 5 + d.length - 4 := szSub_of_le (by omega)
    rw [e1, szSub_of_le (by omega)]; omega
  have hcmp : strncmpEq "user".toList N 4 = true := by
    rw [hN]; simp [strncmpEq]
  have hc4 : charAt N 4 = ':' := by rw [hN]; rfl
  have hdrop5 : N.drop 5 = d ++ RG_KEY_DELIM :: p := by rw [hN]; rfl
  have hdropr : N.drop (5 + d.length) = RG_KEY_DELIM :: p := by
    rw [← List.drop_drop, hdrop5, List.drop_left]
  have h4 : 4 < strlen N := by omega
  have h0 : strlen N ≠ 0 := by omega
  have hks : 1 + szSub (szSub (strlen N) d.length) 1 = 5 + (N.drop (5 + d.length)).length := by
    have e1 : szSub (strlen N) d.length = strlen N - d.length := szSub_of_le (by omega)
    rw [hdropr, e1, szSub_of_le (by omega), hlen]
    simp only [List.length_cons]
    omega
  unfold keySetName
  simp only [Option.isNone_some, Bool.false_eq_true, false_or,
    trailingDelimLoop_length hne, Option.getD_some, hroot, hudl, h0, h4, if_true, if_false,
    hcmp, gt_iff_lt, hc4, hdl, hks]
  rw [if_neg (by omega)]
  simp only [setKey_userDomain, setUserDomain_userDomain, setUserDomain_key,
    Option.isNone_some, Bool.false_eq_true, if_false]
  rw [userNameBuf_eq _ _ _ (by unfold strlen at hlen; omega), hdropr,
    userDomainBuf_eq _ _ _ (by rw [hdrop5]; simp), hdrop5, List.take_left,
    cstrOf_append_nul [] hnd]
  have hnu : NUL ∉ "user".toList ++ RG_KEY_DELIM :: p := by
    intro h
    rcases List.mem_append.1 h with h | h
    · revert h; decide
    · rcases List.mem_cons.1 h with h | h
      · revert h; decide
      · exact hnp h
  rw [cstrOf_append_nul [] hnu]
  have e1 : "user".toList ++ RG_KEY_DELIM :: p = "user/".toList ++ p := by simp [RG_KEY_DELIM]
  rw [e1]
  simp [strblen]
  omega

/-! ## The claims on `keySetName` -/

/-- C9. For a non-empty domain `d` without delimiter and a path `p` (both C
strings, so without terminator), `keySetName` with the name `user:d/p` stores
the name `user/p`, sets the owner domain to `d`, and returns the size of the
stored name, terminator included, without setting `errno`. -/
theorem keySetName_user_domain (env : Env) (key : Key) (d p : CStr)
    (hd : d ≠ []) (hslash : RG_KEY_DELIM ∉ d) (hnd : NUL ∉ d) (hnp : NUL ∉ p) :
    ∃ k, (keySetName env (some key)
          (some ("user:".toList ++ d ++ RG_KEY_DELIM :: p))).key = some k ∧
      k.key = some ("user/".toList ++ p) ∧ k.userDomain = some d ∧
      (keySetName env (some key) (some ("user:".toList ++ d ++ RG_KEY_DELIM :: p))).ret =
        strblen ("user/".toList ++ p) ∧
      (keySetName env (some key) (some ("user:".toList ++ d ++ RG_KEY_DELIM :: p))).err = none := by
  rw [keySetName_user_domain_eq env key d p hd hslash hnd hnp]
  exact ⟨_, rfl, rfl, rfl, rfl, rfl⟩

/-- The instance of C9 given in the spec: `user:alice/net/eth0` gives the name
`user/net/eth0`, the domain `alice` and the return value 14. -/
theorem keySetName_user_domain_witness :
    (keySetName sampleEnv (some Key.zeroed) (some "user:alice/net/eth0".toList)).ret = 14 ∧
      (keySetName sampleEnv (some Key.zeroed) (some "user:alice/net/eth0".toList)).key.bind
          (fun k => k.key) = some "user/net/eth0".toList ∧
      (keySetName sampleEnv (some Key.zeroed) (some "user:alice/net/eth0".toList)).key.bind
          (fun k => k.userDomain) = some "alice".toList ∧
      "alice".toList ≠ [] ∧ RG_KEY_DELIM ∉ "alice".toList ∧ NUL ∉ "alice".toList ∧
      NUL ∉ "net/eth0".toList ∧
      ∃ k, (keySetName sampleEnv (some Key.zeroed)
            (some ("user:".toList ++ "alice".toList ++ RG_KEY_DELIM :: "net/eth0".toList))).key =
          some k ∧
        k.key = some ("user/".toList ++ "net/eth0".toList) ∧
        k.userDomain = some "alice".toList ∧
        (keySetName sampleEnv (some Key.zeroed)
            (some ("user:".toList ++ "alice".toList ++ RG_KEY_DELIM :: "net/eth0".toList))).ret =
          strblen ("user/".toList ++ "net/eth0".toList) ∧
        (keySetName sampleEnv (some Key.zeroed)
            (some ("user:".toList ++ "alice".toList ++ RG_KEY_DELIM :: "net/eth0".toList))).err =
          none :=
  ⟨by decide, by decide, by decide, by decide, by decide, by decide, by decide,
    keySetName_user_domain sampleEnv Key.zeroed "alice".toList "net/eth0".toList
      (by decide) (by decide) (by decide) (by decide)⟩

/-- C10, at a failing input. The string `s` begins neither with `system` nor
with `user`, yet `keySetName` accepts it: it returns 2, sets no error and
stores the name `s`. The string `u` is accepted as well and stored as `user`. -/
theorem keySetName_accepts_proper_prefix :
    "system".toList.isPrefixOf "s".toList = false ∧
      "user".toList.isPrefixOf "s".toList = false ∧
      (keySetName sampleEnv (some Key.zeroed) (some "s".toList)).ret = 2 ∧
      (keySetName sampleEnv (some Key.zeroed) (some "s".toList)).err = none ∧
      (keySetName sampleEnv (some Key.zeroed) (some "s".toList)).key.bind (fun k => k.key) =
        some "s".toList ∧
      (keySetName sampleEnv (some Key.zeroed) (some "u".toList)).ret = 5 ∧
      (keySetName sampleEnv (some Key.zeroed) (some "u".toList)).err = none ∧
      (keySetName sampleEnv (some Key.zeroed) (some "u".toList)).key.bind (fun k => k.key) =
        some "user".toList := by
  decide

/-! ## Trailing delimiters, base names and parents -/

/-- C12, at a failing input. The loop that is to drop trailing delimiters
starts at `newName[strlen(newName)]`, the terminator, and so drops nothing:
for `system/a/` the call returns 10, sets no error and stores `system/a/`,
not `system/a`. -/
theorem keySetName_keeps_trailing_delim :
    (keySetName sampleEnv (some Key.zeroed) (some "system/a/".toList)).ret = 10 ∧
      (keySetName sampleEnv (some Key.zeroed) (some "system/a/".toList)).err = none ∧
      (keySetName sampleEnv (some Key.zeroed) (some "system/a/".toList)).key.bind
          (fun k => k.key) = some "system/a/".toList ∧
      (keySetName sampleEnv (some Key.zeroed) (some "system/a/".toList)).key.bind
          (fun k => k.key) ≠ some "system/a".toList := by
  decide

/-- C14, at a failing input. For `user/net/eth0`, whose final component `eth0`
has 4 characters, `keyNameGetBaseNameSize` returns 5: the terminator is
counted. -/
theorem keyNameGetBaseNameSize_counts_terminator :
    keyNameGetBaseNameSize "user/net/eth0".toList = some 5 ∧ strlen "eth0".toList = 4 := by
  decide

/-- C15, at failing inputs. For the root names `system`, `user` and
`user:alice` the root size is the length of the name, one less than the value
of `strblen` it is compared with, so the function does not return 0 there: it
goes on to `strrchr`, which finds no delimiter, and reads through the null
pointer. -/
theorem keyNameGetBaseNameSize_root_faults :
    keyNameGetRootNameSize "system".toList = 6 ∧ strblen "system".toList = 7 ∧
      strrchr "system".toList RG_KEY_DELIM = none ∧
      keyNameGetBaseNameSize "system".toList = none ∧
      keyNameGetBaseNameSize "user".toList = none ∧
      keyNameGetBaseNameSize "user:alice".toList = none := by
  decide

theorem strrchr_of_delim {r c : CStr} (hc : RG_KEY_DELIM ∉ c) :
    strrchr (r ++ RG_KEY_DELIM :: c) RG_KEY_DELIM = some r.length := by
  unfold strrchr
  have hm : RG_KEY_DELIM ∈ r ++ RG_KEY_DELIM :: c := by simp
  have hc2 : RG_KEY_DELIM ∉ c.reverse := by simpa using hc
  rw [if_pos hm]
  have e : (r ++ RG_KEY_DELIM :: c).reverse = c.reverse ++ RG_KEY_DELIM :: r.reverse := by simp
  rw [e, List.indexOf_append_of_not_mem hc2]
  simp only [List.length_append, List.length_cons, List.length_reverse, List.indexOf_cons_self]
  congr 1
  omega

theorem strrchr_none {s : CStr} (h : RG_KEY_DELIM ∉ s) : strrchr s RG_KEY_DELIM = none := by
  simp [strrchr, h]

/-- C16, a counterexample. The key named `system/a` has exactly one component
below the root, and `keyGetParentSize` returns 6 for it, the length of
`system`. -/
theorem keyGetParentSize_single_child :
    (keySetName sampleEnv (some Key.zeroed) (some "system/a".toList)).key.bind
        (fun k => k.key) = some "system/a".toList ∧
      keyGetParentSize (keySetName sampleEnv (some Key.zeroed) (some "system/a".toList)).key =
        some (6, none) := by
  decide

/-- C16, amended. For an initialized key whose name is a root, that is contains
no delimiter, `keyGetParentSize` returns 0 and sets no error; for a name with
exactly one component below a non-empty root it returns the length of the
root. -/
theorem keyGetParentSize_root_or_child (k : Key) (r c : CStr)
    (hi : keyIsInitialized k = true) (hr : RG_KEY_DELIM ∉ r) (hc : RG_KEY_DELIM ∉ c) :
    (k.key = some r → keyGetParentSize (some k) = some (0, none)) ∧
      (r ≠ [] → c ≠ [] → k.key = some (r ++ RG_KEY_DELIM :: c) →
        keyGetParentSize (some k) = some (r.length, none)) := by
  constructor
  · intro hk
    simp [keyGetParentSize, hi, hk, strrchr_none hr]
  · intro hr0 hc0 hk
    have hl : r.length ≠ 0 := by simpa using hr0
    have hl2 : c.length ≠ 0 := by simpa using hc0
    have e1 : szSub (strlen (r ++ RG_KEY_DELIM :: c)) 1 = r.length + c.length := by
      unfold strlen
      rw [szSub_of_le (by simp; omega)]
      simp
    have hne : r.length ≠ r.length + c.length := by omega
    simp only [keyGetParentSize, hi, hk, strrchr_of_delim hc, e1]
    simp [hl, hne]

theorem keyGetParentSize_root_or_child_witness :
    keyIsInitialized
        ((keyInit sampleEnv Key.zeroed).setKey (some ("system".toList ++ RG_KEY_DELIM :: "a".toList))) =
        true ∧
      keyGetParentSize
        (some ((keyInit sampleEnv Key.zeroed).setKey
          (some ("system".toList ++ RG_KEY_DELIM :: "a".toList)))) = some (6, none) :=
  ⟨by decide,
    (keyGetParentSize_root_or_child
      ((keyInit sampleEnv Key.zeroed).setKey (some ("system".toList ++ RG_KEY_DELIM :: "a".toList)))
      "system".toList "a".toList (by decide) (by decide) (by decide)).2 (by decide) (by decide) rfl⟩

/-! ## Splicing keys into key sets -/

theorem chain_unique {h : Heap} : ∀ {l l' : List Addr} {p : Option Addr},
    Chain h p l none → Chain h p l' none → l = l'
  | [], [], _, _, _ => rfl
  | [], b :: l', p, h1, h2 => by
    have e1 : p = none := by simpa [Chain] using h1
    have e2 := (chain_cons_iff.1 h2).1
    rw [e1] at e2
    cases e2
  | a :: l, [], p, h1, h2 => by
    have e1 : p = none := by simpa [Chain] using h2
    have e2 := (chain_cons_iff.1 h1).1
    rw [e1] at e2
    cases e2
  | a :: l, b :: l', p, h1, h2 => by
    obtain ⟨e1, k1, hk1, c1⟩ := chain_cons_iff.1 h1
    obtain ⟨e2, k2, hk2, c2⟩ := chain_cons_iff.1 h2
    have hab : a = b := Option.some.inj (e1.symm.trans e2)
    subst hab
    have hkk : k1 = k2 := Option.some.inj (hk1.symm.trans hk2)
    subst hkk
    rw [chain_unique c1 c2]

theorem chain_nodup {h : Heap} : ∀ {l : List Addr} {p : Option Addr},
    Chain h p l none → l.Nodup
  | [], _, _ => List.nodup_nil
  | a :: l, p, hc => by
    obtain ⟨_, k, hk, c⟩ := chain_cons_iff.1 hc
    refine List.nodup_cons.2 ⟨fun ha => ?_, chain_nodup c⟩
    obtain ⟨s, t, rfl⟩ := List.append_of_mem ha
    obtain ⟨m, _, c2⟩ := chain_append_iff.1 c
    obtain ⟨_, k2, hk2, c3⟩ := chain_cons_iff.1 c2
    have hkk : k = k2 := Option.some.inj (hk.symm.trans hk2)
    subst hkk
    have := congrArg List.length (chain_unique c c3)
    simp at this
    omega

theorem ksInsert_spec {h : Heap} {ks : KeySet} {L : List Addr} {a : Addr} {ka : Key}
    (hr : KsRep h ks L) (ha : a ∉ L) (hk : h a = some ka) :
    ∃ h' ks', ksInsert h ks a = some (h', ks', L.length + 1) ∧ KsRep h' ks' (a :: L) ∧
      ks'.cursor = ks.cursor ∧ (∀ x, x ≠ a → h' x = h x) ∧
      (∀ x, (h' x).map Key.unlinked = (h x).map Key.unlinked) := by
  refine ⟨Function.update h a (some (ka.withNext ks.start)),
    { ks with start := some a, end_ := if ks.end_.isNone then some a else ks.end_,
              size := ks.size + 1 }, ?_, ⟨?_, ?_, ?_⟩, rfl, ?_, ?_⟩
  · cases he : ks.end_ <;> simp [ksInsert, setNext_of_live hk, he, hr.size]
  · refine chain_cons_iff.2 ⟨rfl, ka.withNext ks.start, Function.update_same _ _ _, ?_⟩
    exact chain_congr (fun x hx => Function.update_noteq (ne_of_mem_of_not_mem hx ha) _ _)
      hr.chain
  · have he := hr.last
    cases L with
    | nil => simp at he; simp [he]
    | cons b L' =>
      rw [he]
      simp [List.getLast?_cons_cons]
  · simp [hr.size]
  · intro x hx
    exact Function.update_noteq hx _ _
  · intro x
    by_cases e : x = a
    · subst e; simp [hk]
    · rw [Function.update_noteq e]
theorem live_of_unlinked {h h' : Heap}
    (hu : ∀ x, (h' x).map Key.unlinked = (h x).map Key.unlinked) {a : Addr}
    (ha : (h a).isSome = true) : (h' a).isSome = true := by
  have := hu a
  cases e : h a with
  | none => simp [e] at ha
  | some k =>
    cases e' : h' a with
    | none => simp [e, e'] at this
    | some k' => rfl

theorem ksInsertEach_spec : ∀ (keys : List Addr) {h : Heap} {ks : KeySet} {L : List Addr},
    KsRep h ks L → (∀ a ∈ keys, a ∉ L) → keys.Nodup → (∀ a ∈ keys, (h a).isSome = true) →
    ∃ h' ks', ksInsertEach h ks keys = some (h', ks') ∧ KsRep h' ks' (keys.reverse ++ L) ∧
      ks'.cursor = ks.cursor ∧ ∀ x, (h' x).map Key.unlinked = (h x).map Key.unlinked
  | [], h, ks, L, hr, _, _, _ => ⟨h, ks, rfl, by simpa using hr, rfl, fun _ => rfl⟩
  | a :: keys, h, ks, L, hr, hd, hn, hl => by
    obtain ⟨ka, hka⟩ := Option.isSome_iff_exists.1 (hl a (List.mem_cons_self _ _))
    obtain ⟨h1, ks1, e1, r1, c1, _, u1⟩ :=
      ksInsert_spec hr (hd a (List.mem_cons_self _ _)) hka
    have hn2 := List.nodup_cons.1 hn
    obtain ⟨h2, ks2, e2, r2, c2, u2⟩ := ksInsertEach_spec keys r1
      (fun b hb hb2 => by
        rcases List.mem_cons.1 hb2 with rfl | hb2
        · exact hn2.1 hb
        · exact hd b (List.mem_cons_of_mem _ hb) hb2)
      hn2.2
      (fun b hb => live_of_unlinked u1 (hl b (List.mem_cons_of_mem _ hb)))
    refine ⟨h2, ks2, ?_, ?_, c2.trans c1, fun x => (u2 x).trans (u1 x)⟩
    · simp [ksInsertEach, e1, e2]
    · simpa using r2

theorem ksAppendEach_spec : ∀ (keys : List Addr) {h : Heap} {ks : KeySet} {L : List Addr},
    KsRep h ks L → (∀ a ∈ keys, a ∉ L) → keys.Nodup → (∀ a ∈ keys, (h a).isSome = true) →
    ∃ h' ks', ksAppendEach h ks keys = some (h', ks') ∧ KsRep h' ks' (L ++ keys) ∧
      ks'.cursor = ks.cursor ∧ ∀ x, (h' x).map Key.unlinked = (h x).map Key.unlinked
  | [], h, ks, L, hr, _, _, _ => ⟨h, ks, rfl, by simpa using hr, rfl, fun _ => rfl⟩
  | a :: keys, h, ks, L, hr, hd, hn, hl => by
    obtain ⟨ka, hka⟩ := Option.isSome_iff_exists.1 (hl a (List.mem_cons_self _ _))
    obtain ⟨h1, ks1, e1, r1, c1, _, u1⟩ :=
      ksAppend_spec hr (chain_nodup hr.chain) (hd a (List.mem_cons_self _ _)) hka
    have hn2 := List.nodup_cons.1 hn
    obtain ⟨h2, ks2, e2, r2, c2, u2⟩ := ksAppendEach_spec keys r1
      (fun b hb hb2 => by
        rcases List.mem_append.1 hb2 with hb2 | hb2
        · exact hd b (List.mem_cons_of_mem _ hb) hb2
        · have : b = a := by simpa using hb2
          exact hn2.1 (this ▸ hb))
      hn2.2
      (fun b hb => live_of_unlinked u1 (hl b (List.mem_cons_of_mem _ hb)))
    refine ⟨h2, ks2, ?_, ?_, c2.trans c1, fun x => (u2 x).trans (u1 x)⟩
    · simp [ksAppendEach, e1, e2]
    · simpa using r2

theorem ksInsertKeys_spec {h : Heap} {ks other : KeySet} {C I : List Addr}
    (hr : KsRep h ks C) (ho : KsRep h other I) (hd : ∀ x ∈ I, x ∉ C) :
    ∃ h' ks' other', ksInsertKeys h ks other = some (h', ks', other', C.length + I.length) ∧
      Chain h' ks'.start (I ++ C) none ∧ ks'.size = C.length + I.length ∧
      ks'.end_ = ks.end_ ∧ ks'.cursor = ks.cursor ∧
      KsRep h' other' [] ∧ other'.cursor = other.cursor ∧
      (∀ x, some x ≠ I.getLast? → h' x = h x) ∧
      (∀ x, (h' x).map Key.unlinked = (h x).map Key.unlinked) := by
  rcases List.eq_nil_or_concat I with rfl | ⟨I', e, rfl⟩
  · have hz : other.size = 0 := by simpa using ho.size
    refine ⟨h, ks, other, ?_, by simpa using hr.chain, by simpa using hr.size, rfl, rfl, ho, rfl,
      fun _ _ => rfl, fun _ => rfl⟩
    simp [ksInsertKeys, hz, hr.size]
  · rw [List.concat_eq_append] at *
    obtain ⟨hI, ke, hke, _⟩ := chain_concat_iff.1 ho.chain
    have hnI := chain_nodup ho.chain
    have heI : e ∉ I' := fun m => (List.nodup_append.1 hnI).2.2 m (List.mem_singleton_self e)
    have heC : e ∉ C := hd e (by simp)
    have he : other.end_ = some e := by rw [ho.last, List.getLast?_concat]
    have hz : other.size = I'.length + 1 := by simpa using ho.size
    refine ⟨Function.update h e (some (ke.withNext ks.start)),
      { ks with start := other.start, size := ks.size + other.size },
      { other with start := none, end_ := none, size := 0 }, ?_, ?_, ?_, rfl, rfl,
      ⟨rfl, rfl, rfl⟩, rfl, ?_, ?_⟩
    · simp [ksInsertKeys, hz, he, setNext_of_live hke, hr.size]
    · rw [chain_append_iff]
      refine ⟨ks.start, chain_concat_iff.2 ⟨chain_congr ?_ hI, ke.withNext ks.start,
        Function.update_same _ _ _, rfl⟩, chain_congr ?_ hr.chain⟩
      · intro x hx
        exact Function.update_noteq (ne_of_mem_of_not_mem hx heI) _ _
      · intro x hx
        exact Function.update_noteq (ne_of_mem_of_not_mem hx heC) _ _
    · simp [hr.size, hz]
    · intro x hx
      rw [List.getLast?_concat] at hx
      exact Function.update_noteq (fun e' => hx (by rw [e'])) _ _
    · intro x
      by_cases e' : x = e
      · subst e'; simp [hke]
      · rw [Function.update_noteq e']
/-- C17. Let `ks` be a well-formed key set holding the keys `L` and `a` a live
key that is not among them. Then `ksInsert` returns `L.length + 1` and leaves
a well-formed key set holding `a` followed by `L`, of size `L.length + 1`,
with the cursor where it was and every key holding what it held. Hence
inserting distinct live keys `keys` one after the other leaves them before
`L` in the reverse of the order of insertion. -/
theorem ksInsert_prepends (h : Heap) (ks : KeySet) (L : List Addr) (a : Addr)
    (hr : KsRep h ks L) (ha : a ∉ L) (hk : (h a).isSome = true) :
    (∃ h' ks', ksInsert h ks a = some (h', ks', L.length + 1) ∧ KsRep h' ks' (a :: L) ∧
        ks'.size = L.length + 1 ∧ ks'.cursor = ks.cursor ∧
        ∀ x, (h' x).map Key.unlinked = (h x).map Key.unlinked) ∧
      ∀ keys : List Addr, keys.Nodup → (∀ b ∈ keys, b ∉ L) →
        (∀ b ∈ keys, (h b).isSome = true) →
        ∃ h' ks', ksInsertEach h ks keys = some (h', ks') ∧
          KsRep h' ks' (keys.reverse ++ L) ∧ ks'.cursor = ks.cursor := by
  obtain ⟨ka, hka⟩ := Option.isSome_iff_exists.1 hk
  constructor
  · obtain ⟨h1, ks1, e1, r1, c1, _, u1⟩ := ksInsert_spec hr ha hka
    exact ⟨h1, ks1, e1, r1, by simpa using r1.size, c1, u1⟩
  · intro keys hn hd hl
    obtain ⟨h2, ks2, e2, r2, c2, _⟩ := ksInsertEach_spec keys hr hd hn hl
    exact ⟨h2, ks2, e2, r2, c2⟩

theorem ksInsert_prepends_witness :
    KsRep heapSplice ksOneTwo [1, 2] ∧
      (∃ h' ks', ksInsert heapSplice ksOneTwo 5 = some (h', ks', [1, 2].length + 1) ∧
        KsRep h' ks' [5, 1, 2] ∧ ks'.size = [1, 2].length + 1 ∧
        ks'.cursor = ksOneTwo.cursor ∧
        ∀ x, (h' x).map Key.unlinked = (heapSplice x).map Key.unlinked) ∧
      ∃ h' ks', ksInsertEach heapSplice (ksInit ksOneTwo) [3, 4, 5] = some (h', ks') ∧
        KsRep h' ks' ([3, 4, 5].reverse ++ []) ∧ ks'.cursor = (ksInit ksOneTwo).cursor :=
  ⟨by decide,
    (ksInsert_prepends heapSplice ksOneTwo [1, 2] 5 (by decide) (by decide) (by decide)).1,
    (ksInsert_prepends heapSplice (ksInit ksOneTwo) [] 5 (by decide) (by decide) (by decide)).2
      [3, 4, 5] (by decide) (by decide) (by decide)⟩

/-- C18. Let `ks` be a well-formed key set holding the keys `L` and `a` a live
key that is not among them. Then `ksAppend` returns `L.length + 1` and leaves
a well-formed key set holding `L` followed by `a`, of size `L.length + 1`,
with the cursor where it was and every key holding what it held. Hence
appending distinct live keys `keys` one after the other leaves them after `L`
in the order of insertion. -/
theorem ksAppend_appends (h : Heap) (ks : KeySet) (L : List Addr) (a : Addr)
    (hr : KsRep h ks L) (ha : a ∉ L) (hk : (h a).isSome = true) :
    (∃ h' ks', ksAppend h ks a = some (h', ks', L.length + 1) ∧ KsRep h' ks' (L ++ [a]) ∧
        ks'.size = L.length + 1 ∧ ks'.cursor = ks.cursor ∧
        ∀ x, (h' x).map Key.unlinked = (h x).map Key.unlinked) ∧
      ∀ keys : List Addr, keys.Nodup → (∀ b ∈ keys, b ∉ L) →
        (∀ b ∈ keys, (h b).isSome = true) →
        ∃ h' ks', ksAppendEach h ks keys = some (h', ks') ∧
          KsRep h' ks' (L ++ keys) ∧ ks'.cursor = ks.cursor := by
  obtain ⟨ka, hka⟩ := Option.isSome_iff_exists.1 hk
  constructor
  · obtain ⟨h1, ks1, e1, r1, c1, _, u1⟩ := ksAppend_spec hr (chain_nodup hr.chain) ha hka
    exact ⟨h1, ks1, e1, r1, by simpa using r1.size, c1, u1⟩
  · intro keys hn hd hl
    obtain ⟨h2, ks2, e2, r2, c2, _⟩ := ksAppendEach_spec keys hr hd hn hl
    exact ⟨h2, ks2, e2, r2, c2⟩

theorem ksAppend_appends_witness :
    KsRep heapSplice ksOneTwo [1, 2] ∧
      (∃ h' ks', ksAppend heapSplice ksOneTwo 5 = some (h', ks', [1, 2].length + 1) ∧
        KsRep h' ks' ([1, 2] ++ [5]) ∧ ks'.size = [1, 2].length + 1 ∧
        ks'.cursor = ksOneTwo.cursor ∧
        ∀ x, (h' x).map Key.unlinked = (heapSplice x).map Key.unlinked) ∧
      ∃ h' ks', ksAppendEach heapSplice (ksInit ksOneTwo) [3, 4, 5] = some (h', ks') ∧
        KsRep h' ks' ([] ++ [3, 4, 5]) ∧ ks'.cursor = (ksInit ksOneTwo).cursor :=
  ⟨by decide,
    (ksAppend_appends heapSplice ksOneTwo [1, 2] 5 (by decide) (by decide) (by decide)).1,
    (ksAppend_appends heapSplice (ksInit ksOneTwo) [] 5 (by decide) (by decide) (by decide)).2
      [3, 4, 5] (by decide) (by decide) (by decide)⟩

/-- C19. Let `ks` and `other` be well-formed key sets holding the keys `C` and
`I`, no key being in both. Then `ksAppendKeys` returns `C.length + I.length`
and leaves `ks` well-formed, holding `C` followed by `I` and of that size, and
`other` with size 0, no first and no last key; every key holds what it
held. -/
theorem ksAppendKeys_transfers (h : Heap) (ks other : KeySet) (C I : List Addr)
    (hr : KsRep h ks C) (ho : KsRep h other I) (hd : ∀ x ∈ C, x ∉ I) :
    ∃ h' ks' other', ksAppendKeys h ks other = some (h', ks', other', C.length + I.length) ∧
      KsRep h' ks' (C ++ I) ∧ ks'.size = C.length + I.length ∧
      other'.size = 0 ∧ other'.start = none ∧ other'.end_ = none ∧
      ∀ x, (h' x).map Key.unlinked = (h x).map Key.unlinked := by
  have hn : (C ++ I).Nodup :=
    List.nodup_append.2 ⟨chain_nodup hr.chain, chain_nodup ho.chain, fun x p q => hd x p q⟩
  obtain ⟨h1, ks1, o1, e1, r1, r2, _, _, _, u1⟩ := ksAppendKeys_spec hr ho hn
  refine ⟨h1, ks1, o1, e1, r1, by simpa using r1.size, by simpa using r2.size, ?_,
    by simpa using r2.last, u1⟩
  simpa [Chain] using r2.chain

theorem ksAppendKeys_transfers_witness :
    KsRep heapSplice ksOneTwo [1, 2] ∧ KsRep heapSplice ksThreeFour [3, 4] ∧
      ∃ h' ks' other', ksAppendKeys heapSplice ksOneTwo ksThreeFour =
          some (h', ks', other', [1, 2].length + [3, 4].length) ∧
        KsRep h' ks' ([1, 2] ++ [3, 4]) ∧ ks'.size = [1, 2].length + [3, 4].length ∧
        other'.size = 0 ∧ other'.start = none ∧ other'.end_ = none ∧
        ∀ x, (h' x).map Key.unlinked = (heapSplice x).map Key.unlinked :=
  ⟨by decide, by decide,
    ksAppendKeys_transfers heapSplice ksOneTwo ksThreeFour [1, 2] [3, 4] (by decide) (by decide)
      (by decide)⟩

/-- C20. Let `ks` and `other` be well-formed key sets holding the keys `C` and
`I`, no key being in both. Then `ksInsertKeys` returns `C.length + I.length`
and leaves `ks` with that size and with the keys `I` followed by `C` linked
from its first key, and `other` with size 0, no first and no last key; every
key holds what it held. The field `end` of `ks` is left as it was. -/
theorem ksInsertKeys_transfers (h : Heap) (ks other : KeySet) (C I : List Addr)
    (hr : KsRep h ks C) (ho : KsRep h other I) (hd : ∀ x ∈ I, x ∉ C) :
    ∃ h' ks' other', ksInsertKeys h ks other = some (h', ks', other', C.length + I.length) ∧
      Chain h' ks'.start (I ++ C) none ∧ ks'.size = C.length + I.length ∧
      other'.size = 0 ∧ other'.start = none ∧ other'.end_ = none ∧
      ks'.end_ = ks.end_ ∧
      ∀ x, (h' x).map Key.unlinked = (h x).map Key.unlinked := by
  obtain ⟨h1, ks1, o1, e1, c1, s1, en, _, r2, _, _, u1⟩ := ksInsertKeys_spec hr ho hd
  refine ⟨h1, ks1, o1, e1, c1, s1, by simpa using r2.size, ?_, by simpa using r2.last, en, u1⟩
  simpa [Chain] using r2.chain

theorem ksInsertKeys_transfers_witness :
    KsRep heapSplice ksOneTwo [1, 2] ∧ KsRep heapSplice ksThreeFour [3, 4] ∧
      ∃ h' ks' other', ksInsertKeys heapSplice ksOneTwo ksThreeFour =
          some (h', ks', other', [1, 2].length + [3, 4].length) ∧
        Chain h' ks'.start ([3, 4] ++ [1, 2]) none ∧
        ks'.size = [1, 2].length + [3, 4].length ∧
        other'.size = 0 ∧ other'.start = none ∧ other'.end_ = none ∧
        ks'.end_ = ksOneTwo.end_ ∧
        ∀ x, (h' x).map Key.unlinked = (heapSplice x).map Key.unlinked :=
  ⟨by decide, by decide,
    ksInsertKeys_transfers heapSplice ksOneTwo ksThreeFour [1, 2] [3, 4] (by decide) (by decide)
      (by decide)⟩
/-! ## Refused names -/

/-- C13. When `keySetName`, called on an initialized key with a name, sets
`errno` to `RG_KEY_RET_INVALIDKEY`, it returns 0 and the key record is the one
it was given: every field, so the name, the owner domain, the value, the
comment and the flags, is as before the call. -/
theorem keySetName_reject_unchanged (env : Env) (key : Key) (s : CStr)
    (hi : keyIsInitialized key = true)
    (he : (keySetName env (some key) (some s)).err = some KeyErr.INVALIDKEY) :
    (keySetName env (some key) (some s)).key = some key ∧
      (keySetName env (some key) (some s)).ret = 0 := by
  have e : keySetName env (some key) (some s) = invalidKey key := by
    unfold keySetName at he ⊢
    simp only [hi, if_true] at he ⊢
    split_ifs at he ⊢ <;> rfl
  rw [e]
  exact ⟨rfl, rfl⟩

theorem keySetName_reject_unchanged_witness :
    keyIsInitialized (withComment (sampleKey "system/a" "1") "note") = true ∧
      (keySetName sampleEnv (some (withComment (sampleKey "system/a" "1") "note"))
        (some "foo/x".toList)).err = some KeyErr.INVALIDKEY ∧
      (keySetName sampleEnv (some (withComment (sampleKey "system/a" "1") "note"))
        (some "foo/x".toList)).key = some (withComment (sampleKey "system/a" "1") "note") ∧
      (keySetName sampleEnv (some (withComment (sampleKey "system/a" "1") "note"))
        (some "foo/x".toList)).ret = 0 :=
  ⟨by decide, by decide,
    keySetName_reject_unchanged sampleEnv (withComment (sampleKey "system/a" "1") "note")
      "foo/x".toList (by decide) (by decide)⟩
/-! ## Writing and reading back a name -/

theorem systemNameBuf_eq (old : Option CStr) (N : CStr) :
    systemNameBuf old N (1 + strlen N) (strlen N) = N ++ [NUL] := by
  unfold systemNameBuf strlen
  have h0 : (realloc old (1 + N.length)).length = 1 + N.length := realloc_length _ _
  generalize realloc old (1 + N.length) = buf0 at h0
  have h1 : strncpy buf0 0 N N.length = N ++ buf0.drop N.length := by
    unfold strncpy
    rw [List.take_length, Nat.sub_self, List.replicate_zero, List.append_nil,
      writeAt_eq (by omega)]
    simp
  show (strncpy buf0 0 N N.length).set (szSub (1 + N.length) 1) NUL = _
  rw [h1]
  obtain ⟨x, hx⟩ : ∃ x, buf0.drop N.length = [x] :=
    List.length_eq_one.1 (by rw [List.length_drop, h0]; omega)
  have e1 : szSub (1 + N.length) 1 = N.length := by
    rw [szSub_of_le (by omega)]; omega
  rw [hx, e1, List.set_append_right _ _ (le_refl _), Nat.sub_self]
  rfl

theorem envDomain_eq (env : Env) (h : NUL ∉ env.user) : envDomain env = env.user := by
  unfold envDomain strblen strncpy
  have e1 : env.user.take (env.user.length + 1) = env.user :=
    List.take_of_length_le (by omega)
  have e2 : env.user.length + 1 - env.user.length = 1 := by omega
  simp only [e1, e2]
  rw [writeAt_eq (by simp [rawBuf])]
  simp only [List.take_zero, List.nil_append, List.replicate_one, List.append_assoc,
    List.singleton_append]
  exact cstrOf_append_nul _ h

theorem keyNameGetRootNameSize_root {r t : CStr} (hr : RG_KEY_DELIM ∉ r) (hr0 : r ≠ [])
    (ht : t = [] ∨ ∃ p, t = RG_KEY_DELIM :: p) :
    keyNameGetRootNameSize (r ++ t) = r.length := by
  rcases ht with rfl | ⟨p, rfl⟩
  · simp [keyNameGetRootNameSize, strchr, strlen, hr, hr0]
  · exact keyNameGetRootNameSize_of_delim hr

theorem writeAt_append (pre tl src : List Char) (h : src.length ≤ tl.length) :
    writeAt (pre ++ tl) pre.length src = pre ++ src ++ tl.drop src.length := by
  rw [writeAt_eq (by simp; omega)]
  simp [List.take_append_eq_append_take, List.drop_append_eq_append_drop]
theorem writeAt_at (pre tl src : List Char) (off : Nat) (ho : off = pre.length)
    (h : src.length ≤ tl.length) :
    writeAt (pre ++ tl) off src = pre ++ src ++ tl.drop src.length := by
  subst ho
  exact writeAt_append pre tl src h

theorem keyGetFullName_user_eq (k : Key) (d t : CStr) (buf : List Char) (maxSize : Nat)
    (hi : keyIsInitialized k = true) (hk : k.key = some ("user".toList ++ t))
    (hd : k.userDomain = some d) (hnd : NUL ∉ d) (hnt : NUL ∉ t)
    (hm : 6 + d.length + t.length ≤ maxSize) (hb : 6 + d.length + t.length ≤ buf.length) :
    ∃ g, keyGetFullName (some k) buf maxSize = some g ∧
      cstrOf g.buf = "user:".toList ++ d ++ t ∧ g.ret = 6 + d.length + t.length ∧
      g.err = none := by
  have hU : "user".toList = ['u', 's', 'e', 'r'] := rfl
  have hU4 : "user".toList.length = 4 := rfl
  have hU5 : "user:".toList.length = 5 := rfl
  have hcmp : strncmpEq "user".toList ("user".toList ++ t) 4 = true := by
    simp [strncmpEq, hU]
  have hsz : strblen ("user".toList ++ t) + strblen d = 6 + d.length + t.length := by
    unfold strblen
    rw [List.length_append, hU4]
    omega
  have hnm : ¬ (6 + d.length + t.length > maxSize) := by omega
  have h1 : strncpy buf 0 ("user".toList ++ t) 4 = "user".toList ++ buf.drop 4 := by
    unfold strncpy
    have e1 : ("user".toList ++ t).take 4 = "user".toList := by simp [hU]
    have e2 : 4 - ("user".toList ++ t).length = 0 := by simp [hU]
    rw [e1, e2, List.replicate_zero, List.append_nil]
    have := writeAt_at [] buf "user".toList 0 rfl (by rw [hU4]; omega)
    simpa [hU] using this
  have h2 : writeAt ("user".toList ++ buf.drop 4) 4 [':'] =
      "user:".toList ++ buf.drop 5 := by
    rw [writeAt_at "user".toList (buf.drop 4) [':'] 4 rfl
      (by rw [List.length_drop, List.length_singleton]; omega)]
    simp [hU]
  have h3 : strcpy ("user:".toList ++ buf.drop 5) 5 d =
      ("user:".toList ++ d) ++ NUL :: buf.drop (6 + d.length) := by
    unfold strcpy
    rw [writeAt_at "user:".toList (buf.drop 5) (d ++ [NUL]) 5 rfl
      (by rw [List.length_drop, List.length_append, List.length_singleton]; omega)]
    simp only [List.length_append, List.length_singleton, List.drop_drop, List.append_assoc,
      List.singleton_append]
    rw [show 5 + (d.length + 1) = 6 + d.length by omega]
  have h4 : strcpy (("user:".toList ++ d) ++ NUL :: buf.drop (6 + d.length)) (5 + d.length) t =
      ("user:".toList ++ d ++ t) ++ NUL :: (buf.drop (6 + d.length)).drop t.length := by
    unfold strcpy
    rw [writeAt_at ("user:".toList ++ d) (NUL :: buf.drop (6 + d.length)) (t ++ [NUL])
      (5 + d.length) (by rw [List.length_append, hU5])
      (by rw [List.length_cons, List.length_drop, List.length_append, List.length_singleton]
          omega)]
    simp only [List.length_append, List.length_singleton, List.drop_succ_cons, List.append_assoc,
      List.singleton_append]
  have hc : szSub (strblen d) 1 = d.length := by
    unfold strblen
    rw [szSub_of_le (by omega)]; omega
  have hdrop : ("user".toList ++ t).drop 4 = t := by simp [hU]
  have hnn : NUL ∉ "user:".toList ++ d ++ t := by
    intro h
    rcases List.mem_append.1 h with h | h
    · rcases List.mem_append.1 h with h | h
      · revert h; decide
      · exact hnd h
    · exact hnt h
  refine ⟨{ buf := ("user:".toList ++ d ++ t) ++ NUL :: (buf.drop (6 + d.length)).drop t.length,
            ret := 6 + d.length + t.length, err := none }, ?_, cstrOf_append_nul _ hnn, rfl, rfl⟩
  unfold keyGetFullName keyGetFullNameSize
  simp only [hi, hk, hd, hcmp, hsz, hnm, Bool.not_true, Bool.false_eq_true, if_false, if_true,
    h1, h2, hc, h3, hdrop, h4]
theorem keyGetFullName_other_eq (k : Key) (name : CStr) (buf : List Char) (maxSize : Nat)
    (hi : keyIsInitialized k = true) (hk : k.key = some name)
    (hu : strncmpEq "user".toList name 4 = false) (hnn : NUL ∉ name)
    (hm : name.length + 1 ≤ maxSize) (hb : name.length + 1 ≤ buf.length) :
    ∃ g, keyGetFullName (some k) buf maxSize = some g ∧
      cstrOf g.buf = name ∧ g.ret = name.length + 1 ∧ g.err = none := by
  have hnm : ¬ (name.length + 1 > maxSize) := by omega
  have h1 : strcpy buf 0 name = name ++ NUL :: buf.drop (name.length + 1) := by
    unfold strcpy
    have := writeAt_at [] buf (name ++ [NUL]) 0 rfl
      (by rw [List.length_append, List.length_singleton]; omega)
    simpa using this
  refine ⟨{ buf := name ++ NUL :: buf.drop (name.length + 1), ret := name.length + 1,
            err := none }, ?_, cstrOf_append_nul _ hnn, rfl, rfl⟩
  unfold keyGetFullName keyGetFullNameSize
  cases hd : k.userDomain <;>
    simp only [hi, hk, hd, hu, strblen, hnm, Bool.not_true, Bool.false_eq_true, if_false, h1]

theorem keySetName_system_eq (env : Env) (key : Key) (t : CStr)
    (ht : t = [] ∨ ∃ p, t = RG_KEY_DELIM :: p) :
    keySetName env (some key) (some ("system".toList ++ t)) =
      { key := some (((if keyIsInitialized key then key else keyInit env key).setKey
          (some (cstrOf (("system".toList ++ t) ++ [NUL])))).flagNamed),
        ret := 1 + ("system".toList ++ t).length } := by
  generalize hNN : "system".toList ++ t = N
  have hN : N = 's' :: 'y' :: 's' :: 't' :: 'e' :: 'm' :: t := by
    rw [← hNN]; rfl
  have hlen : strlen N = t.length + 6 := by
    rw [hN]; simp [strlen]
  have hne : N ≠ [] := by rw [hN]; simp
  have hroot : keyNameGetRootNameSize N = 6 := by
    rw [← hNN, keyNameGetRootNameSize_root (by decide) (by decide) ht]
    rfl
  have hcu : strncmpEq "user".toList N 4 = false := by
    rw [hN]; simp [strncmpEq]
  have hcs : strncmpEq "system".toList N 6 = true := by
    rw [hN]; simp [strncmpEq]
  have h0 : strlen N ≠ 0 := by omega
  have hc6 : ¬ (6 < strlen N ∧ charAt N 6 ≠ RG_KEY_DELIM) := by
    rintro ⟨h6, hc⟩
    rcases ht with rfl | ⟨p, rfl⟩
    · simp at hlen; omega
    · apply hc; rw [hN]; rfl
  unfold keySetName
  simp only [Option.isNone_some, Bool.false_eq_true, false_or,
    trailingDelimLoop_length hne, Option.getD_some, hroot, h0, if_false, gt_iff_lt]
  rw [if_neg (by decide)]
  have hcs2 : strncmpEq "system".toList N (if 6 < strlen N then 6 else strlen N) = true := by
    rcases Nat.lt_or_ge 6 (strlen N) with h6 | h6
    · rw [if_pos h6, hcs]
    · rw [if_neg (by omega), show strlen N = 6 by omega, hcs]
  have h4 : (if 4 < strlen N then 4 else strlen N) = 4 := if_pos (by omega)
  simp only [h4, hcu, Bool.false_eq_true, if_false, hcs2, if_true, if_neg hc6, systemNameBuf_eq]
  rfl
theorem keySetName_user_tail_eq (env : Env) (key : Key) (d t : CStr)
    (hd : d ≠ []) (hslash : RG_KEY_DELIM ∉ d) (hnd : NUL ∉ d) (hnt : NUL ∉ t)
    (ht : t = [] ∨ ∃ p, t = RG_KEY_DELIM :: p) :
    keySetName env (some key) (some ("user:".toList ++ d ++ t)) =
      { key := some
          ((((if keyIsInitialized key then key else keyInit env key).setUserDomain
            (some d)).setKey (some ("user".toList ++ t))).flagNamed),
        ret := strblen ("user".toList ++ t) } := by
  generalize hNN : "user:".toList ++ d ++ t = N
  have hN : N = 'u' :: 's' :: 'e' :: 'r' :: ':' :: (d ++ t) := by
    rw [← hNN]; simp
  have hlen : strlen N = d.length + t.length + 5 := by
    rw [hN]; simp [strlen]
  have hne : N ≠ [] := by rw [hN]; simp
  have hU5 : "user:".toList.length = 5 := rfl
  have hroot : keyNameGetRootNameSize N = 5 + d.length := by
    rw [← hNN, keyNameGetRootNameSize_root _ _ ht, List.length_append, hU5]
    · intro h
      rcases List.mem_append.1 h with h | h
      · revert h; decide
      · exact hslash h
    · simp
  have hdl : 0 < d.length := List.length_pos.2 hd
  have hudl : szSub (szSub (5 + d.length) 4) 1 = d.length := by
    have e1 : szSub (5 + d.length) 4 = 5 + d.length - 4 := szSub_of_le (by omega)
    rw [e1, szSub_of_le (by omega)]; omega
  have hcmp : strncmpEq "user".toList N 4 = true := by
    rw [hN]; simp [strncmpEq]
  have hc4 : charAt N 4 = ':' := by rw [hN]; rfl
  have hdrop5 : N.drop 5 = d ++ t := by rw [hN]; rfl
  have hdropr : N.drop (5 + d.length) = t := by
    rw [← List.drop_drop, hdrop5, List.drop_left]
  have h4 : 4 < strlen N := by omega
  have h0 : strlen N ≠ 0 := by omega
  have hks : 1 + szSub (szSub (strlen N) d.length) 1 = 5 + (N.drop (5 + d.length)).length := by
    have e1 : szSub (strlen N) d.length = strlen N - d.length := szSub_of_le (by omega)
    rw [hdropr, e1, szSub_of_le (by omega), hlen]
    omega
  unfold keySetName
  simp only [Option.isNone_some, Bool.false_eq_true, false_or,
    trailingDelimLoop_length hne, Option.getD_some, hroot, hudl, h0, h4, if_true, if_false,
    hcmp, gt_iff_lt, hc4, hdl, hks]
  rw [if_neg (by omega)]
  simp only [setKey_userDomain, setUserDomain_userDomain, setUserDomain_key,
    Option.isNone_some, Bool.false_eq_true, if_false]
  rw [userNameBuf_eq _ _ _ (by unfold strlen at hlen; omega), hdropr,
    userDomainBuf_eq _ _ _ (by rw [hdrop5]; simp), hdrop5, List.take_left,
    cstrOf_append_nul [] hnd]
  have hnu : NUL ∉ "user".toList ++ t := by
    intro h
    rcases List.mem_append.1 h with h | h
    · revert h; decide
    · exact hnt h
  rw [cstrOf_append_nul [] hnu]
  simp [strblen]
  omega

theorem keySetName_user_env_eq (env : Env) (key : Key) (t : CStr)
    (hnt : NUL ∉ t) (ht : t = [] ∨ ∃ p, t = RG_KEY_DELIM :: p) (hnu : NUL ∉ env.user)
    (hdm : (if keyIsInitialized key then key else keyInit env key).userDomain = none) :
    keySetName env (some key) (some ("user".toList ++ t)) =
      { key := some
          ((((if keyIsInitialized key then key else keyInit env key).setKey
            (some ("user".toList ++ t))).setUserDomain (some env.user)).flagNamed),
        ret := strblen ("user".toList ++ t) } := by
  generalize hNN : "user".toList ++ t = N
  have hN : N = 'u' :: 's' :: 'e' :: 'r' :: t := by
    rw [← hNN]; rfl
  have hlen : strlen N = t.length + 4 := by
    rw [hN]; simp [strlen]
  have hne : N ≠ [] := by rw [hN]; simp
  have hroot : keyNameGetRootNameSize N = 4 := by
    rw [← hNN, keyNameGetRootNameSize_root (by decide) (by decide) ht]
    rfl
  have hcmp : strncmpEq "user".toList N 4 = true := by
    rw [hN]; simp [strncmpEq]
  have hcmp2 : strncmpEq "user".toList N (if 4 < strlen N then 4 else strlen N) = true := by
    rcases Nat.lt_or_ge 4 (strlen N) with h4 | h4
    · rw [if_pos h4, hcmp]
    · rw [if_neg (by omega), show strlen N = 4 by omega, hcmp]
  have hdrop : N.drop 4 = t := by rw [hN]; rfl
  have h0 : strlen N ≠ 0 := by omega
  have hbuf : ∀ old, userNameBuf old N (5 + t.length) 4 4 (strlen N) =
      "user".toList ++ t ++ [NUL] := by
    intro old
    have := userNameBuf_eq old N 4 (by unfold strlen at hlen; omega)
    rwa [hdrop] at this
  have hnn : NUL ∉ "user".toList ++ t := by
    intro h
    rcases List.mem_append.1 h with h | h
    · revert h; decide
    · exact hnt h
  have hsized : (if 4 < strlen N then
        if charAt N 4 = ':' then
          some
            (if 0 < szSub (szSub 4 4) 1 then
                (if keyIsInitialized key = true then key else keyInit env key).setUserDomain
                  (some (cstrOf (userDomainBuf
                    (if keyIsInitialized key = true then key else keyInit env key).userDomain N 4
                    (szSub (szSub 4 4) 1))))
              else if keyIsInitialized key = true then key else keyInit env key,
              1 + szSub (szSub (strlen N) (szSub (szSub 4 4) 1)) 1)
        else
          if charAt N 4 ≠ RG_KEY_DELIM then none
          else some (if keyIsInitialized key = true then key else keyInit env key, 1 + strlen N)
      else some (if keyIsInitialized key = true then key else keyInit env key, 1 + 4)) =
      some (if keyIsInitialized key = true then key else keyInit env key, 5 + t.length) := by
    rcases ht with rfl | ⟨p, rfl⟩
    · rw [if_neg (by simp at hlen; omega)]
      rfl
    · have hc : charAt N 4 = RG_KEY_DELIM := by rw [hN]; rfl
      rw [if_pos (by rw [hlen]; simp), hc, if_neg (by decide), if_neg (by simp), hlen]
      simp only [List.length_cons]
      congr 2
      omega
  unfold keySetName
  simp only [Option.isNone_some, Bool.false_eq_true, false_or,
    trailingDelimLoop_length hne, Option.getD_some, hroot, h0, if_true, if_false,
    hcmp2, gt_iff_lt]
  rw [if_neg (by decide), hsized]
  simp only [setKey_userDomain, hdm, Option.isNone_none, if_true, hbuf, cstrOf_append_nul [] hnn,
    envDomain_eq env hnu]
  subst hNN
  have hU4 : "user".toList.length = 4 := rfl
  unfold strblen
  rw [List.length_append, hU4, show 5 + t.length = 4 + t.length + 1 by omega]
/-- C11. Let `t` be empty or a delimiter followed by a path, `d` a non-empty
domain without delimiter, and `USER` the caller identity (all C strings, so
without terminator). On a key fresh from `keyInit`, `keySetName` with the name
`n`, followed by `keyGetFullName` into a buffer of at least `length(n)+1`
bytes, writes `n` and returns `length(n)+1` without setting `errno`, for `n`
of the form `system` followed by `t` and for `n` of the form `user:d` followed
by `t`. For the name `user` followed by `t` the full name written and
measured is `user:USER` followed by `t`. -/
theorem keySetName_keyGetFullName_round_trip (env : Env) (d t : CStr) (buf : List Char)
    (maxSize : Nat) (ht : t = [] ∨ ∃ p, t = RG_KEY_DELIM :: p) (hnt : NUL ∉ t)
    (hd : d ≠ []) (hsd : RG_KEY_DELIM ∉ d) (hnd : NUL ∉ d) (hnu : NUL ∉ env.user) :
    (("system".toList ++ t).length + 1 ≤ maxSize →
      ("system".toList ++ t).length + 1 ≤ buf.length →
      ∃ g, setThenGetFullName env ("system".toList ++ t) buf maxSize = some g ∧
        cstrOf g.buf = "system".toList ++ t ∧
        g.ret = ("system".toList ++ t).length + 1 ∧ g.err = none) ∧
    (("user:".toList ++ d ++ t).length + 1 ≤ maxSize →
      ("user:".toList ++ d ++ t).length + 1 ≤ buf.length →
      ∃ g, setThenGetFullName env ("user:".toList ++ d ++ t) buf maxSize = some g ∧
        cstrOf g.buf = "user:".toList ++ d ++ t ∧
        g.ret = ("user:".toList ++ d ++ t).length + 1 ∧ g.err = none) ∧
    (("user:".toList ++ env.user ++ t).length + 1 ≤ maxSize →
      ("user:".toList ++ env.user ++ t).length + 1 ≤ buf.length →
      ∃ g, setThenGetFullName env ("user".toList ++ t) buf maxSize = some g ∧
        cstrOf g.buf = "user:".toList ++ env.user ++ t ∧
        g.ret = ("user:".toList ++ env.user ++ t).length + 1 ∧ g.err = none) := by
  have hU5 : "user:".toList.length = 5 := rfl
  have hfresh : (if keyIsInitialized (keyInit env Key.zeroed) then keyInit env Key.zeroed
      else keyInit env (keyInit env Key.zeroed)) = keyInit env Key.zeroed := rfl
  refine ⟨fun hm hb => ?_, fun hm hb => ?_, fun hm hb => ?_⟩
  · have hnn : NUL ∉ "system".toList ++ t := by
      intro h
      rcases List.mem_append.1 h with h | h
      · revert h; decide
      · exact hnt h
    unfold setThenGetFullName
    rw [keySetName_system_eq env _ t ht, hfresh, cstrOf_append_nul [] hnn]
    refine keyGetFullName_other_eq _ _ buf maxSize rfl rfl ?_ hnn hm hb
    simp [strncmpEq]
  · unfold setThenGetFullName
    rw [keySetName_user_tail_eq env _ d t hd hsd hnd hnt ht, hfresh]
    have hl : ("user:".toList ++ d ++ t).length + 1 = 6 + d.length + t.length := by
      rw [List.length_append, List.length_append, hU5]; omega
    rw [hl] at hm hb ⊢
    exact keyGetFullName_user_eq _ d t buf maxSize rfl rfl rfl hnd hnt hm hb
  · unfold setThenGetFullName
    rw [keySetName_user_env_eq env (keyInit env Key.zeroed) t hnt ht hnu rfl, hfresh]
    have hl : ("user:".toList ++ env.user ++ t).length + 1 = 6 + env.user.length + t.length := by
      rw [List.length_append, List.length_append, hU5]; omega
    rw [hl] at hm hb ⊢
    exact keyGetFullName_user_eq _ env.user t buf maxSize rfl rfl rfl hnu hnt hm hb

theorem keySetName_keyGetFullName_round_trip_witness :
    (∃ g, setThenGetFullName sampleEnv ("system".toList ++ "/net/eth0".toList) (rawBuf 32) 32 =
        some g ∧
      cstrOf g.buf = "system".toList ++ "/net/eth0".toList ∧
      g.ret = ("system".toList ++ "/net/eth0".toList).length + 1 ∧ g.err = none) ∧
    (∃ g, setThenGetFullName sampleEnv ("user:".toList ++ "alice".toList ++ "/net/eth0".toList)
        (rawBuf 32) 32 = some g ∧
      cstrOf g.buf = "user:".toList ++ "alice".toList ++ "/net/eth0".toList ∧
      g.ret = ("user:".toList ++ "alice".toList ++ "/net/eth0".toList).length + 1 ∧
      g.err = none) ∧
    (∃ g, setThenGetFullName sampleEnv ("user".toList ++ "/net/eth0".toList) (rawBuf 32) 32 =
        some g ∧
      cstrOf g.buf = "user:".toList ++ sampleEnv.user ++ "/net/eth0".toList ∧
      g.ret = ("user:".toList ++ sampleEnv.user ++ "/net/eth0".toList).length + 1 ∧
      g.err = none) :=
  have w := keySetName_keyGetFullName_round_trip sampleEnv "alice".toList "/net/eth0".toList
    (rawBuf 32) 32 (Or.inr ⟨"net/eth0".toList, rfl⟩) (by decide) (by decide) (by decide)
    (by decide) (by decide)
  ⟨w.1 (by decide) (by decide), w.2.1 (by decide) (by decide), w.2.2 (by decide) (by decide)⟩


/-! ## Walking and closing key sets -/

theorem ksNextTimes_succ (h : Heap) (n : Nat) (ks : KeySet) :
    ksNextTimes h (n + 1) ks =
      match ksNext h ks with
      | none => none
      | some (ks, r) =>
        match ksNextTimes h n ks with
        | none => none
        | some (ks, rs) => some (ks, r :: rs) := rfl

theorem ksNextTimes_chain {h : Heap} : ∀ (l : List Addr) (a : Addr) (ks : KeySet) (m : Nat),
    ks.cursor = some a → Chain h (some a) (a :: l) none →
    ksNextTimes h (m + l.length + 1) ks =
      (ksNextTimes h m { ks with cursor := none }).map
        (fun r => (r.1, l.map some ++ none :: r.2))
  | [], a, ks, m, hc, hch => by
    obtain ⟨_, k, hk, hn⟩ := chain_cons_iff.1 hch
    have hn2 : k.next = none := by simpa [Chain] using hn
    show (match ksNext h ks with
      | none => none
      | some (ks, r) =>
        match ksNextTimes h m ks with
        | none => none
        | some (ks, rs) => some (ks, r :: rs)) = _
    simp only [ksNext, hc, hk, hn2]
    cases ksNextTimes h m { ks with cursor := none } <;> rfl
  | b :: l, a, ks, m, hc, hch => by
    obtain ⟨_, k, hk, hn⟩ := chain_cons_iff.1 hch
    have hn2 : k.next = some b := (chain_cons_iff.1 hn).1
    rw [hn2] at hn
    have ih := ksNextTimes_chain l b { ks with cursor := some b } m rfl hn
    show (match ksNext h ks with
      | none => none
      | some (ks, r) =>
        match ksNextTimes h (m + l.length + 1) ks with
        | none => none
        | some (ks, rs) => some (ks, r :: rs)) = _
    simp only [ksNext, hc, hk, hn2, ih]
    cases ksNextTimes h m { ks with cursor := none } <;> rfl

/-- C21. For a well-formed key set holding the keys `L`, at least one, the
`L.length + 2` calls of `ksNext` that follow `ksRewind` all return, and they
return the keys of `L` in their order, then no key, then the first key of `L`
again. -/
theorem ksNext_visits_in_order (h : Heap) (ks : KeySet) (L : List Addr)
    (hr : KsRep h ks L) (hne : L ≠ []) :
    ∃ ks', ksNextTimes h (L.length + 2) (ksRewind ks) =
      some (ks', L.map some ++ [none, L.head?]) := by
  cases L with
  | nil => exact absurd rfl hne
  | cons a l =>
    have hs : ks.start = some a := (chain_cons_iff.1 hr.chain).1
    have hch : Chain h (some a) (a :: l) none := hs ▸ hr.chain
    have h1 : ksNextTimes h (1 + l.length + 1) { ks with cursor := some a } =
        (ksNextTimes h 1 { ks with cursor := none }).map
          (fun r => (r.1, l.map some ++ none :: r.2)) :=
      ksNextTimes_chain l a { ks with cursor := some a } 1 rfl hch
    have e1 : ksNext h (ksRewind ks) = some ({ ks with cursor := some a }, some a) := by
      simp [ksNext, ksRewind, hs]
    have e2 : ksNextTimes h 1 { ks with cursor := none } =
        some ({ ks with cursor := some a }, [some a]) := by
      simp [ksNextTimes, ksNext, hs]
    refine ⟨{ ks with cursor := some a }, ?_⟩
    have e3 : (a :: l).length + 2 = (1 + l.length + 1) + 1 := by
      simp only [List.length_cons]; omega
    rw [e3, ksNextTimes_succ, e1]
    simp only [h1, e2, Option.map_some']
    simp

theorem ksNext_visits_in_order_witness :
    ∃ ks', ksNextTimes heapSplice ([1, 2].length + 2) (ksRewind ksOneTwo) =
      some (ks', [1, 2].map some ++ [none, [1, 2].head?]) :=
  ksNext_visits_in_order heapSplice ksOneTwo [1, 2] (by decide) (by decide)

/-- C22, at a failing input. The key set `other` is built from `ksInit` by
appending the keys 3 and 4, rewound, and stepped once, so that its cursor is
on the key 3; `ksAppendKeys` then moves its keys into another key set. After
that `other` has size 0, no first and no last key, but its cursor is still on
the key 3, and `ksNext` returns the key 4. -/
theorem ksNext_after_transfer_returns_key :
    nextAfterTransfer heapSplice ksOneTwo 3 4 =
      some ({ start := none, end_ := none, cursor := some 3, size := 0 }, some 4) := by
  decide

/-- C23, at a failing input. The key set is built from `ksInit` by appending
the keys 3 and 4, rewound, and stepped once, so that its cursor is on the key
3. After `ksClose` both keys are released and the size is 0, but the first and
the last key of the set are the released key 3, the value of the cursor. -/
theorem ksClose_keeps_cursor :
    (closeAfterNext heapSplice 3 4).map (fun r => (r.2, r.1 3, r.1 4)) =
      some ({ start := some 3, end_ := some 3, cursor := some 3, size := 0 }, none, none) := by
  decide
/-! ## Type and value of a key -/

@[simp] theorem keyIsInitialized_setType (k : Key) (t : Nat) :
    keyIsInitialized (k.setType t) = keyIsInitialized k := rfl

@[simp] theorem keyIsInitialized_setAccess (k : Key) (m : Nat) :
    keyIsInitialized (k.setAccess m) = keyIsInitialized k := rfl

@[simp] theorem keyIsInitialized_setData (k : Key) (d : Option (List Nat)) :
    keyIsInitialized (k.setData d) = keyIsInitialized k := rfl

@[simp] theorem keyIsInitialized_setDataSize (k : Key) (n : Nat) :
    keyIsInitialized (k.setDataSize n) = keyIsInitialized k := rfl

@[simp] theorem keyIsInitialized_setFlags (k : Key) (f : KeyFlags) :
    keyIsInitialized (k.setFlags f) = f.initialized := rfl

/-- C24. For an initialized key, `keySetType` with the tag of a directory
returns that tag and leaves a key of that type with no value and without the
flag `HASDATA`; `keyGetBinary` on it then returns 0 and sets `errno` to
`RG_KEY_RET_NODATA`, whatever the buffer and the capacity, and leaves the
buffer as it was. -/
theorem keySetType_dir_removes_value (env : Env) (errnoOf : KeyErr → Nat) (key : Key)
    (buf : List Nat) (maxSize : Nat) (hi : keyIsInitialized key = true) :
    ∃ k, keySetType env (some key) RG_KEY_TYPE_DIR =
        some { key := some k, ret := RG_KEY_TYPE_DIR } ∧
      k.type = RG_KEY_TYPE_DIR ∧ k.data = none ∧ k.flags.hasData = false ∧
      keyGetBinary errnoOf (some k) buf maxSize =
        some { buf := buf, ret := 0, err := some KeyErr.NODATA } := by
  rcases key with ⟨ty, uid, gid, acc, ati, mti, cti, cs, ds, rs, fl, nm, cm, ud, d, nx⟩
  rcases fl with ⟨ini, act, ns, ht, hk, hd, hdm, hc, hu, hg, hp, htm, fg⟩
  have hi2 : ini = true := hi
  subst hi2
  cases d <;> exact ⟨_, rfl, rfl, rfl, rfl, rfl⟩

theorem keySetType_dir_removes_value_witness :
    ∃ k, keySetType sampleEnv (some (sampleKey "system/a" "x")) RG_KEY_TYPE_DIR =
        some { key := some k, ret := RG_KEY_TYPE_DIR } ∧
      k.type = RG_KEY_TYPE_DIR ∧ k.data = none ∧ k.flags.hasData = false ∧
      keyGetBinary (fun _ => 1) (some k) [7, 7] 2 =
        some { buf := [7, 7], ret := 0, err := some KeyErr.NODATA } :=
  keySetType_dir_removes_value sampleEnv (fun _ => 1) (sampleKey "system/a" "x") [7, 7] 2
    (by decide)
theorem keySetType_other_eq (env : Env) (key : Key) (t : Nat)
    (hi : keyIsInitialized key = true) (ht : t ≠ RG_KEY_TYPE_DIR) :
    keySetType env (some key) t =
      some { key := some { key with type := t,
                                    access := key.access &&& modeNot (S_IFDIR ||| 0o111),
                                    flags := { key.flags with needSync := true } },
             ret := t } := by
  simp only [keySetType, hi, if_true, if_neg ht]
  rfl

/-- C25, a counterexample. A key named `system/a` with the permission bits
`0755` is given the type tag of a string, which is not the tag of a directory:
afterwards its permission bits are `0644`. -/
theorem keySetType_clears_execute_bits :
    keyIsInitialized ((sampleKey "system/a" "1").setAccess 0o755) = true ∧
      RG_KEY_TYPE_STRING ≠ RG_KEY_TYPE_DIR ∧
      (keySetType sampleEnv (some ((sampleKey "system/a" "1").setAccess 0o755))
          RG_KEY_TYPE_STRING).map (fun r => r.key.map Key.access) = some (some 0o644) ∧
      ((sampleKey "system/a" "1").setAccess 0o755).access &&& S_IRWXUGO ≠ 0o644 &&& S_IRWXUGO := by
  decide

/-- C25, amended. For an initialized key and a type tag other than that of a
directory, `keySetType` returns the tag and changes three things only: the
type, which becomes the tag; the flag `NEEDSYNC`, which is set; and the
permission bits, from which the bit `S_IFDIR` and the three execute bits
`0111` are cleared. The name, the owner domain, the value and its size, the
comment and its size, the uid and the gid are as before the call. -/
theorem keySetType_other_frame (env : Env) (key : Key) (t : Nat)
    (hi : keyIsInitialized key = true) (ht : t ≠ RG_KEY_TYPE_DIR) :
    ∃ k, keySetType env (some key) t = some { key := some k, ret := t } ∧
      k = { key with type := t, access := key.access &&& modeNot (S_IFDIR ||| 0o111),
                     flags := { key.flags with needSync := true } } ∧
      k.key = key.key ∧ k.userDomain = key.userDomain ∧ k.data = key.data ∧
      k.dataSize = key.dataSize ∧ k.comment = key.comment ∧
      k.commentSize = key.commentSize ∧ k.uid = key.uid ∧ k.gid = key.gid := by
  exact ⟨_, keySetType_other_eq env key t hi ht, rfl, rfl, rfl, rfl, rfl, rfl, rfl, rfl, rfl⟩

theorem keySetType_other_frame_witness :
    ∃ k, keySetType sampleEnv (some (sampleKey "system/a" "1")) RG_KEY_TYPE_STRING =
        some { key := some k, ret := RG_KEY_TYPE_STRING } ∧
      k = { sampleKey "system/a" "1" with
              type := RG_KEY_TYPE_STRING,
              access := (sampleKey "system/a" "1").access &&& modeNot (S_IFDIR ||| 0o111),
              flags := { (sampleKey "system/a" "1").flags with needSync := true } } ∧
      k.key = (sampleKey "system/a" "1").key ∧
      k.userDomain = (sampleKey "system/a" "1").userDomain ∧
      k.data = (sampleKey "system/a" "1").data ∧
      k.dataSize = (sampleKey "system/a" "1").dataSize ∧
      k.comment = (sampleKey "system/a" "1").comment ∧
      k.commentSize = (sampleKey "system/a" "1").commentSize ∧
      k.uid = (sampleKey "system/a" "1").uid ∧ k.gid = (sampleKey "system/a" "1").gid :=
  keySetType_other_frame sampleEnv (sampleKey "system/a" "1") RG_KEY_TYPE_STRING (by decide)
    (by decide)
theorem toNat_ne_zero_of_ne_nul {c : Char} (h : c ≠ NUL) : c.toNat ≠ 0 := by
  intro e
  apply h
  have := Char.ofNat_toNat c
  rw [e] at this
  exact this.symm

theorem bytesCStr_cstrBytes {s : CStr} (h : NUL ∉ s) : bytesCStr (cstrBytes s) = some s := by
  unfold bytesCStr cstrBytes
  rw [if_pos (by simp)]
  congr 1
  induction s with
  | nil => simp [List.takeWhile]
  | cons c s ih =>
    have hc : c ≠ NUL := fun e => h (by simp [e])
    have hs : NUL ∉ s := fun e => h (by simp [e])
    have hb : (c.toNat != 0) = true := by simpa using toNat_ne_zero_of_ne_nul hc
    simp only [List.map_cons, List.cons_append, List.takeWhile_cons, hb, if_true, ih hs,
      Char.ofNat_toNat]

theorem cstrBytes_length (s : CStr) : (cstrBytes s).length = s.length + 1 := by
  simp [cstrBytes]

theorem strcpy_zero_eq {buf : List Char} {s : CStr} (hb : s.length + 1 ≤ buf.length) :
    strcpy buf 0 s = s ++ NUL :: buf.drop (s.length + 1) := by
  unfold strcpy
  have := writeAt_at [] buf (s ++ [NUL]) 0 rfl
    (by rw [List.length_append, List.length_singleton]; omega)
  simpa using this

theorem keySetRaw_store (env : Env) (key : Key) (b : List Nat) (n : Nat)
    (hn : n ≠ 0) (hb : n ≤ b.length) :
    ∃ k, keySetRaw env (some key) (some b) n = some { key := some k, ret := n } ∧
      keyIsInitialized k = true ∧ k.data = some (b.take n) ∧ k.dataSize = n ∧
      k.flags.hasData = true := by
  have hi : keyIsInitialized (if keyIsInitialized key then key else keyInit env key) = true := by
    by_cases h : keyIsInitialized key = true
    · rw [if_pos h, h]
    · rw [if_neg h]; rfl
  simp only [keySetRaw, hn, Option.isNone_some, Bool.false_eq_true, or_self, if_false,
    Option.getD_some, hb, if_true]
  exact ⟨_, rfl, hi, rfl, rfl, rfl⟩

theorem keySetString_spec (env : Env) (key : Key) (s : CStr) :
    ∃ k, keySetString env (some key) (some s) = some { key := some k, ret := s.length + 1 } ∧
      keyIsInitialized k = true ∧ k.type = RG_KEY_TYPE_STRING ∧
      k.data = some (cstrBytes s) ∧ k.dataSize = s.length + 1 ∧
      k.flags.hasData = true ∧ k.flags.needSync = true := by
  have ht : (cstrBytes s).take (s.length + 1) = cstrBytes s :=
    List.take_of_length_le (by rw [cstrBytes_length])
  obtain ⟨k1, e1, hi1, hd1, hs1, hf1⟩ := keySetRaw_store env key (cstrBytes s) (s.length + 1)
    (Nat.succ_ne_zero _) (by rw [cstrBytes_length])
  have e2 := keySetType_other_eq env k1 RG_KEY_TYPE_STRING hi1 (by decide)
  generalize hk2' : ({ k1 with type := RG_KEY_TYPE_STRING,
                               access := k1.access &&& modeNot (S_IFDIR ||| 0o111),
                               flags := { k1.flags with needSync := true } } : Key) = k2 at e2
  have hk2 := hk2'.symm
  refine ⟨k2, ?_, ?_, ?_, ?_, ?_, ?_, ?_⟩
  · simp only [keySetString, keySetText, strblen, Option.isNone_some, Bool.false_eq_true,
      false_or, Nat.succ_ne_zero, if_false, Option.map_some', e1, e2]
  · rw [hk2]; exact hi1
  · rw [hk2]
  · rw [hk2]; exact hd1.trans (congrArg some ht)
  · rw [hk2]; exact hs1
  · rw [hk2]; exact hf1
  · rw [hk2]

/-- C26. For a key that is not null and a string `s` (a C string, so without
terminator inside), `keySetString` returns `length(s)+1` and leaves the key
with the type tag of a string; `keyGetString` on it with a capacity and a
buffer of at least `length(s)+1` bytes then writes `s` with its terminator and
returns `length(s)+1` without setting `errno`. -/
theorem keySetString_keyGetString_round_trip (env : Env) (key : Key) (s : CStr)
    (buf : List Char) (maxSize : Nat) (hn : NUL ∉ s)
    (hm : s.length + 1 ≤ maxSize) (hb : s.length + 1 ≤ buf.length) :
    ∃ k, keySetString env (some key) (some s) = some { key := some k, ret := s.length + 1 } ∧
      k.type = RG_KEY_TYPE_STRING ∧
      ∃ g, keyGetString (some k) buf maxSize = some g ∧ cstrOf g.buf = s ∧
        g.ret = s.length + 1 ∧ g.err = none := by
  obtain ⟨k, e, hi, ht, hd, hsz, _, _⟩ := keySetString_spec env key s
  refine ⟨k, e, ht, { buf := s ++ NUL :: buf.drop (s.length + 1), ret := s.length + 1 }, ?_,
    cstrOf_append_nul _ hn, rfl, rfl⟩
  have hm2 : ¬ (s.length + 1 > maxSize) := by omega
  have ht2 : ¬ (RG_KEY_TYPE_STRING < RG_KEY_TYPE_STRING) := by decide
  simp only [keyGetString, hi, hd, hsz, ht, hm2, ht2, Bool.not_true, Bool.false_eq_true,
    if_false, bytesCStr_cstrBytes hn, strcpy_zero_eq hb]

theorem keySetString_keyGetString_round_trip_witness :
    ∃ k, keySetString sampleEnv (some Key.zeroed) (some "hello".toList) =
        some { key := some k, ret := "hello".toList.length + 1 } ∧
      k.type = RG_KEY_TYPE_STRING ∧
      ∃ g, keyGetString (some k) (rawBuf 8) 6 = some g ∧ cstrOf g.buf = "hello".toList ∧
        g.ret = "hello".toList.length + 1 ∧ g.err = none :=
  keySetString_keyGetString_round_trip sampleEnv Key.zeroed "hello".toList (rawBuf 8) 6
    (by decide) (by decide) (by decide)
/-! ## Empty arguments, truncation, the sync flag and copies -/

/-- C27, at failing inputs. The key `user/a` has the value `1`, the comment
`note` and the owner domain `alice`. With the empty string as argument each of
the four setters takes the size 1 from `strblen`, never 0, and stores the empty
string: afterwards the value (a single terminator), the comment and the owner
domain are present and the flags `HASDATA`, `HASCOMMENT` and `HASDOMAIN` are
set. -/
theorem empty_string_does_not_clear :
    strblen [] = 1 ∧
      (keySetString sampleEnv
          (some (withOwner (withComment (sampleKey "user/a" "1") "note") "alice"))
          (some [])).map (fun r => (r.ret, r.key.map (fun k => (k.data, k.flags.hasData)))) =
        some (1, some (some [0], true)) ∧
      (keySetLink sampleEnv
          (some (withOwner (withComment (sampleKey "user/a" "1") "note") "alice"))
          (some [])).map (fun r => (r.ret, r.key.map (fun k => (k.data, k.flags.hasData)))) =
        some (1, some (some [0], true)) ∧
      (keySetComment sampleEnv
          (some (withOwner (withComment (sampleKey "user/a" "1") "note") "alice"))
          (some [])).key.map (fun k => (k.comment, k.flags.hasComment)) =
        some (some [], true) ∧
      (keySetOwner sampleEnv
          (some (withOwner (withComment (sampleKey "user/a" "1") "note") "alice"))
          (some [])).map (fun r => (r.ret, r.key.map (fun k => (k.userDomain, k.flags.hasDomain)))) =
        some (1, some (some [], true)) :=
  ⟨by decide, by decide, by decide, by decide, by decide⟩

/-- C28, at a failing input. The name `system/a` needs 9 bytes. With the
capacity 8 and a buffer of 16 bytes that ends with a terminator, `keyGetName`
returns 0 and sets `errno` to `RG_KEY_RET_TRUNC`, but the first 8 bytes of the
buffer now hold `system/a`. With a buffer of just 8 bytes the copy leaves no
terminator in it and `strblen` reads past its end. -/
theorem keyGetName_truncated_writes :
    strblen "system/a".toList = 9 ∧
      keyGetName (some (sampleKey "system/a" "1")) (rawBuf 15 ++ [NUL]) 8 =
        some { buf := "system/a".toList ++ rawBuf 7 ++ [NUL], ret := 0,
               err := some KeyErr.TRUNC } ∧
      "system/a".toList ++ rawBuf 7 ++ [NUL] ≠ rawBuf 15 ++ [NUL] ∧
      keyGetName (some (sampleKey "system/a" "1")) (rawBuf 8) 8 = none := by
  decide

/-- C29, at failing inputs. The key `system/a` has a comment and the flag
`NEEDSYNC`. The call `keySetComment` with a null comment removes the comment
and clears `NEEDSYNC`; `keySetName` with a null or an empty name removes the
name and clears `NEEDSYNC`. -/
theorem clearing_setters_drop_needSync :
    (withComment (sampleKey "system/a" "1") "note").comment = some "note".toList ∧
      (withComment (sampleKey "system/a" "1") "note").flags.needSync = true ∧
      (keySetComment sampleEnv (some (withComment (sampleKey "system/a" "1") "note"))
          none).key.map (fun k => (k.comment, k.flags.needSync)) = some (none, false) ∧
      (keySetName sampleEnv (some (withComment (sampleKey "system/a" "1") "note"))
          none).key.map (fun k => (k.key, k.flags.needSync)) = some (none, false) ∧
      (keySetName sampleEnv (some (withComment (sampleKey "system/a" "1") "note"))
          (some [])).key.map (fun k => (k.key, k.flags.needSync)) = some (none, false) := by
  decide

/-- C30, at a failing input. The source `system/a` is initialized and has no
owner domain, as every key of the system namespace. Function `keyDup` passes
the null owner domain to `keySetOwner`, which hands it to `strblen`, and that
reads through it: there is no destination to speak of. A source that has an
owner domain is copied field by field. -/
theorem keyDup_without_owner_faults :
    keyIsInitialized (sampleKey "system/a" "1") = true ∧
      (sampleKey "system/a" "1").userDomain = none ∧
      keySetOwner sampleEnv (some (sampleKey "system/a" "1")) none = none ∧
      keyDup sampleEnv (sampleKey "system/a" "1") Key.zeroed = none ∧
      keyDup sampleEnv (withOwner (sampleKey "user/a" "1") "alice") Key.zeroed =
        some (withOwner (sampleKey "user/a" "1") "alice") := by
  decide


/-! ## Comparison of keys, once more -/

theorem memcmpNe_of_bounds {x y : List Nat} {n : Nat} (hx : n ≤ x.length) (hy : n ≤ y.length) :
    memcmpNe (some x) (some y) n = some (decide (x.take n ≠ y.take n)) := by
  unfold memcmpNe
  by_cases h0 : n = 0
  · subst h0; simp
  · simp [h0, hx, hy]

theorem keyCompare_hasData {k1 k2 : Key} {f : KeyFlags} (h : keyCompare k1 k2 = some f) :
    f.hasData = true ↔
      memcmpNe k1.data k2.data
        (if k1.dataSize ≤ k2.dataSize then k1.dataSize else k2.dataSize) = some true := by
  delta keyCompare at h
  lift_lets at h
  extract_lets r0 r1 r2 r3 r4 r5 r6 r7 at h
  have h0 : r0.hasData = false := rfl
  have h1 : r1.hasData = false := by
    show (if _ then _ else _ : KeyFlags).hasData = false
    split <;> exact h0
  have h2 : r2.hasData = false := by
    show (if _ then _ else _ : KeyFlags).hasData = false
    split <;> exact h1
  have h3 : r3.hasData = false := by
    show (if _ then _ else _ : KeyFlags).hasData = false
    split <;> exact h2
  have h4 : r4.hasData = false := by
    show (if _ then _ else _ : KeyFlags).hasData = false
    split <;> exact h3
  have h5 : r5.hasData = false := by
    simp only [r5]
    split <;> (try split) <;> exact h4
  have h6 : r6.hasData = false := by
    simp only [r6]
    split <;> (try split) <;> exact h5
  have h7 : r7.hasData = false := by
    simp only [r7]
    split <;> (try split) <;> exact h6
  clear_value r7
  split at h
  · cases h
  · next hm =>
    rw [hm]
    cases h
    simp
  · next hm =>
    rw [hm]
    cases h
    simp [h7]
theorem keyCompare_none {k1 k2 : Key} (h : keyCompare k1 k2 = none) :
    memcmpNe k1.data k2.data
      (if k1.dataSize ≤ k2.dataSize then k1.dataSize else k2.dataSize) = none := by
  delta keyCompare at h
  lift_lets at h
  extract_lets r0 r1 r2 r3 r4 r5 r6 r7 at h
  clear_value r7
  split at h
  · assumption
  · cases h
  · cases h

/-- C31, at a failing input. The keys `a` and `b` are both named `user/a` and
have the same value; `a` has the owner domain `alice` and `b` has none, and
neither has a comment. Function `keyCompare` reports the owner domain as
different for `(a, b)` and reports no difference for `(b, a)`. -/
theorem keyCompare_not_symmetric :
    keyCompare (withOwner (sampleKey "user/a" "1") "alice") (sampleKey "user/a" "1") =
        some { KeyFlags.zero with hasDomain := true } ∧
      keyCompare (sampleKey "user/a" "1") (withOwner (sampleKey "user/a" "1") "alice") =
        some KeyFlags.zero ∧
      keyCompare (withOwner (sampleKey "user/a" "1") "alice") (sampleKey "user/a" "1") ≠
        keyCompare (sampleKey "user/a" "1") (withOwner (sampleKey "user/a" "1") "alice") :=
  ⟨by decide, by decide, by decide⟩

/-- C32, at a failing input. The key `system/a` has a comment and no owner
domain. Compared with itself, `keyCompare` sets the bit of the owner
domain. -/
theorem keyCompare_self_sets_domain_bit :
    (withComment (sampleKey "system/a" "1") "note").userDomain = none ∧
      keyCompare (withComment (sampleKey "system/a" "1") "note")
          (withComment (sampleKey "system/a" "1") "note") =
        some { KeyFlags.zero with hasDomain := true } :=
  ⟨by decide, by decide⟩

/-- C35. Let the keys `a` and `b` hold the values `x` and `y`, their stored
sizes not exceeding the values. Then `keyCompare` returns, and the bit of the
data is set exactly when the first `n` bytes of `x` and `y` differ, `n` being
the smaller of the two stored sizes. So when the stored sizes are the lengths
of the values and one value begins with the other, the bit is not set. -/
theorem keyCompare_data_bit (a b : Key) (x y : List Nat)
    (hx : a.data = some x) (hy : b.data = some y)
    (hsx : a.dataSize ≤ x.length) (hsy : b.dataSize ≤ y.length) :
    ∃ f, keyCompare a b = some f ∧
      (f.hasData = true ↔
        x.take (if a.dataSize ≤ b.dataSize then a.dataSize else b.dataSize) ≠
          y.take (if a.dataSize ≤ b.dataSize then a.dataSize else b.dataSize)) ∧
      (a.dataSize = x.length → b.dataSize = y.length →
        ((∃ t, y = x ++ t) ∨ (∃ t, x = y ++ t)) → f.hasData = false) := by
  have hn1 : (if a.dataSize ≤ b.dataSize then a.dataSize else b.dataSize) ≤ x.length := by
    split_ifs <;> omega
  have hn2 : (if a.dataSize ≤ b.dataSize then a.dataSize else b.dataSize) ≤ y.length := by
    split_ifs <;> omega
  have hm : memcmpNe a.data b.data
      (if a.dataSize ≤ b.dataSize then a.dataSize else b.dataSize) =
      some (decide (x.take (if a.dataSize ≤ b.dataSize then a.dataSize else b.dataSize) ≠
        y.take (if a.dataSize ≤ b.dataSize then a.dataSize else b.dataSize))) := by
    rw [hx, hy]
    exact memcmpNe_of_bounds hn1 hn2
  cases hk : keyCompare a b with
  | none =>
    have := keyCompare_none hk
    rw [hm] at this
    cases this
  | some f =>
    have hiff := keyCompare_hasData hk
    rw [hm] at hiff
    have hiff2 : f.hasData = true ↔
        x.take (if a.dataSize ≤ b.dataSize then a.dataSize else b.dataSize) ≠
          y.take (if a.dataSize ≤ b.dataSize then a.dataSize else b.dataSize) := by
      rw [hiff]
      simp
    refine ⟨f, rfl, hiff2, ?_⟩
    intro ea eb hp
    have hne : ¬ (f.hasData = true) := by
      rw [hiff2, ea, eb]
      simp only [ne_eq, not_not]
      rcases hp with ⟨t, rfl⟩ | ⟨t, rfl⟩
      · rw [if_pos (by simp)]
        simp
      · by_cases hle : (y ++ t).length ≤ y.length
        · have ht : t = [] := by
            have : t.length = 0 := by rw [List.length_append] at hle; omega
            exact List.length_eq_zero.1 this
          subst ht
          simp
        · rw [if_neg hle]
          simp
    simpa using hne

theorem keyCompare_data_bit_witness :
    ∃ f, keyCompare (((sampleKey "system/a" "").setData (some [1, 2])).setDataSize 2)
        (((sampleKey "system/a" "").setData (some [1, 2, 3])).setDataSize 3) = some f ∧
      (f.hasData = true ↔
        [1, 2].take
            (if (((sampleKey "system/a" "").setData (some [1, 2])).setDataSize 2).dataSize ≤
                (((sampleKey "system/a" "").setData (some [1, 2, 3])).setDataSize 3).dataSize
              then (((sampleKey "system/a" "").setData (some [1, 2])).setDataSize 2).dataSize
              else (((sampleKey "system/a" "").setData (some [1, 2, 3])).setDataSize 3).dataSize) ≠
          [1, 2, 3].take
            (if (((sampleKey "system/a" "").setData (some [1, 2])).setDataSize 2).dataSize ≤
                (((sampleKey "system/a" "").setData (some [1, 2, 3])).setDataSize 3).dataSize
              then (((sampleKey "system/a" "").setData (some [1, 2])).setDataSize 2).dataSize
              else (((sampleKey "system/a" "").setData (some [1, 2, 3])).setDataSize 3).dataSize)) ∧
      ((((sampleKey "system/a" "").setData (some [1, 2])).setDataSize 2).dataSize =
          [1, 2].length →
        (((sampleKey "system/a" "").setData (some [1, 2, 3])).setDataSize 3).dataSize =
          [1, 2, 3].length →
        ((∃ t, [1, 2, 3] = [1, 2] ++ t) ∨ (∃ t, [1, 2] = [1, 2, 3] ++ t)) →
        f.hasData = false) :=
  keyCompare_data_bit (((sampleKey "system/a" "").setData (some [1, 2])).setDataSize 2)
    (((sampleKey "system/a" "").setData (some [1, 2, 3])).setDataSize 3) [1, 2] [1, 2, 3]
    rfl rfl (by decide) (by decide)
/-! ## Full root name, owner domain, value size and flags -/

/-- C33, at a failing input. The key named from `user:alice/net/eth0` has the
name `user/net/eth0` and the owner domain `alice`. With a capacity of 16
bytes `keyGetFullRootName` returns 10, the length of `user:alice`, but the 10
bytes it writes are the first 10 bytes of the name, `user/net/e`, without a
terminator. -/
theorem keyGetFullRootName_copies_name :
    (namedKey sampleEnv "user:alice/net/eth0").map
        (fun k => (k.key, k.userDomain)) =
        some (some "user/net/eth0".toList, some "alice".toList) ∧
      "user:alice".toList.length = 10 ∧
      keyGetFullRootName sampleEnv (namedKey sampleEnv "user:alice/net/eth0")
          (rawBuf 15 ++ [NUL]) 16 =
        some { buf := "user/net/e".toList ++ rawBuf 5 ++ [NUL], ret := 10 } ∧
      cstrOf ("user/net/e".toList ++ rawBuf 5 ++ [NUL]) ≠ "user:alice".toList :=
  ⟨by decide, by decide, by decide, by decide⟩

/-- C34, at failing inputs. After `keyInit`, `keySetName` with `user/a` and
`keySetName` with `system/a`, the key is in the system namespace and still has
the owner domain that the first call took from `USER`, and `keyGetOwner`
returns it. After `keyInit`, `keySetName` with `system/a` and `keySetOwner`
with `alice`, the key is in the system namespace and has the owner domain
`alice`. -/
theorem system_key_with_owner :
    keyIsSystem (keySetName sampleEnv (namedKey sampleEnv "user/a")
        (some "system/a".toList)).key = true ∧
      (keySetName sampleEnv (namedKey sampleEnv "user/a")
          (some "system/a".toList)).key.map (fun k => (k.key, k.userDomain)) =
        some (some "system/a".toList, some "bob".toList) ∧
      keyGetOwner (keySetName sampleEnv (namedKey sampleEnv "user/a")
          (some "system/a".toList)).key (rawBuf 4) 4 =
        { buf := "bob".toList ++ [NUL], ret := 4 } ∧
      (keySetOwner sampleEnv (namedKey sampleEnv "system/a") (some "alice".toList)).map
          (fun r => (keyIsSystem r.key, r.key.map (fun k => (k.key, k.userDomain)))) =
        some (true, some (some "system/a".toList, some "alice".toList)) :=
  ⟨by decide, by decide, by decide, by decide⟩

/-- C36, at a failing input. The keys 3 and 4 are appended to a fresh key set,
which `ksInsertKeys` then moves into another fresh key set `ks`; after that
the key 5 is appended to `ks`. In the end `ks` has the size 3 and the last key
5, but the keys met from its first key are 3 and 4 only: the key 5 is not
reached. -/
theorem ksAppend_after_ksInsertKeys_unreached :
    appendAfterInsertKeys heapSplice 3 4 5 =
        some ([3, 4], { start := some 3, end_ := some 5, cursor := none, size := 3 }) ∧
      (ksInsertKeys heapSplice (ksInit {}) ksThreeFour).map (fun r => r.2.1) =
        some { start := some 3, end_ := none, cursor := none, size := 2 } :=
  ⟨by decide, by decide⟩

/-- C37. On well-formed key sets `ksCompare` returns (given fuel for the keys
of both sets and keys that can be compared), and whenever it returns,
`current` and `removed` are well-formed: each is a chain of keys from its first
key that ends with the null pointer, its size is the number of these keys and
its last key is the last of them, or null when there is none. -/
theorem ksCompare_keeps_well_formed (st : KsState) (cur inc rem : List Addr) (fuel : Nat)
    (hw : StRep st cur inc rem) :
    (Comparable st.heap cur inc → cur.length + inc.length < fuel →
        ∃ st', ksCompare fuel st = some st') ∧
      ∀ st', ksCompare fuel st = some st' →
        ∃ L R, (Chain st'.heap st'.ks1.start L none ∧ st'.ks1.size = L.length ∧
            st'.ks1.end_ = L.getLast?) ∧
          (Chain st'.heap st'.removed.start R none ∧ st'.removed.size = R.length ∧
            st'.removed.end_ = R.getLast?) ∧
          L = keptOf st cur inc rem ++ unmatchedOf st cur inc rem ∧
          R = removedOf st cur inc rem := by
  refine ⟨fun hcmp hf => ksCompare_returns hw hcmp hf, fun st' hrun => ?_⟩
  obtain ⟨hr1, _, hr3, _, _⟩ := ksCompare_spec hw hrun
  exact ⟨_, _, ⟨hr1.chain, hr1.size, hr1.last⟩, ⟨hr3.chain, hr3.size, hr3.last⟩, rfl, rfl⟩

theorem ksCompare_keeps_well_formed_witness :
    StRep stEnds [1, 2] [3] [] ∧ Comparable stEnds.heap [1, 2] [3] ∧
      (ksCompare 8 stEnds).map KsState.view =
        some (([3], { start := some 3, end_ := some 3, size := 1 }),
          ([], { start := none, end_ := none, size := 0 }),
          ([1], { start := some 1, end_ := some 1, size := 1 })) ∧
      ∃ st', ksCompare 8 stEnds = some st' ∧
        ∃ L R, (Chain st'.heap st'.ks1.start L none ∧ st'.ks1.size = L.length ∧
            st'.ks1.end_ = L.getLast?) ∧
          (Chain st'.heap st'.removed.start R none ∧ st'.removed.size = R.length ∧
            st'.removed.end_ = R.getLast?) ∧
          L = keptOf stEnds [1, 2] [3] [] ++ unmatchedOf stEnds [1, 2] [3] [] ∧
          R = removedOf stEnds [1, 2] [3] [] :=
  ⟨by decide, by decide, by decide,
    ((ksCompare_keeps_well_formed stEnds [1, 2] [3] [] 8 (by decide)).1
        (by decide) (by decide)).elim
      fun st' hrun =>
        ⟨st', hrun, (ksCompare_keeps_well_formed stEnds [1, 2] [3] [] 8 (by decide)).2 st' hrun⟩⟩

/-- C38, at a failing input. After `keyInit` and `keySetString` with `x` the
key holds 2 bytes. The call `keySetRaw` with a null value, and likewise
`keySetType` with the tag of a directory, removes the value and leaves the
stored size: `keyGetDataSize` still returns 2. -/
theorem cleared_value_keeps_size :
    ((keySetString sampleEnv (some (keyInit sampleEnv Key.zeroed)) (some "x".toList)).bind
        (fun r => keySetRaw sampleEnv r.key none 0)).map
        (fun r => (r.key.map Key.data, keyGetDataSize r.key)) = some (some none, (2, none)) ∧
      ((keySetString sampleEnv (some (keyInit sampleEnv Key.zeroed)) (some "x".toList)).bind
        (fun r => keySetType sampleEnv r.key RG_KEY_TYPE_DIR)).map
        (fun r => (r.key.map Key.data, keyGetDataSize r.key)) = some (some none, (2, none)) :=
  ⟨by decide, by decide⟩

/-- C39, at failing inputs. After `keyInit` and `keySetName` with
`user:alice/net/eth0` the key has the owner domain `alice`, and after
`keySetName` with `user/a` it has the owner domain taken from `USER`; in both
cases the flag `HASDOMAIN` is not set. -/
theorem owner_stored_without_flag :
    (namedKey sampleEnv "user:alice/net/eth0").map
        (fun k => (k.userDomain, k.flags.hasDomain)) = some (some "alice".toList, false) ∧
      (namedKey sampleEnv "user/a").map
        (fun k => (k.userDomain, k.flags.hasDomain)) = some (some "bob".toList, false) :=
  ⟨by decide, by decide⟩

/-- C40, at a failing input. Function `keySetName` accepts `system/` and
stores it as it is. On that key `keyGetParentSize` finds the only delimiter at
the end of the name and scans backwards from the character before it for
another one; there is none, and the scan moves before the first character of
the name. -/
theorem keyGetParentSize_leaves_name :
    (keySetName sampleEnv (some (keyInit sampleEnv Key.zeroed)) (some "system/".toList)).err =
        none ∧
      (namedKey sampleEnv "system/").map Key.key = some (some "system/".toList) ∧
      strrchr "system/".toList RG_KEY_DELIM = some 6 ∧
      scanBackDelim "system/".toList 5 = none ∧
      keyGetParentSize (namedKey sampleEnv "system/") = none :=
  ⟨by decide, by decide, by decide, by decide, by decide⟩


end Elektra
